import Mathlib

/-!
Shallow embedding of the repository's two hash-table components:
`double_key_table.py` (DoubleKeyTable) and `infinite_hash_table.py`
(InfiniteHashTable), together with theorems settling the frozen claims.

Python mutable state is embedded as explicit state passing; Python
exceptions are embedded as an error type (carrying the mutated state
where the claims observe it); unbounded `while` loops and recursion
through mutated structures take an explicit fuel argument, with a
distinguished fuel-exhaustion error so that genuine `KeyError` /
`FullError` outcomes are never conflated with insufficient fuel.
-/

/-- Python exception kinds raised (or raisable) by the embedded code.
`fuelError` is an artifact of the embedding: it marks fuel exhaustion
and corresponds to no Python exception. -/
inductive Err : Type where
  | keyError : Err
  | fullError : Err
  | indexError : Err
  | typeError : Err
  | nameError : Err
  | fuelError : Err
deriving DecidableEq, Repr

deriving instance DecidableEq for Except

/-! ## InfiniteHashTable (src/infinite_hash_table.py)

A node holds a 27-slot array; a slot is empty (`none`) or holds a
`(key-or-prefix, value-or-child-table)` tuple, `Sum.inl` embedding a
stored value and `Sum.inr` a nested `InfiniteHashTable`.  The Python
attributes `array`, `count`, `level` are the three components. -/

inductive IHT (V : Type) : Type where
  | node (array : List (Option (String × (V ⊕ IHT V)))) (count : Int) (level : Nat)

namespace IHT

variable {V : Type}

def array : IHT V → List (Option (String × (V ⊕ IHT V)))
  | .node a _ _ => a

def count : IHT V → Int
  | .node _ c _ => c

def level : IHT V → Nat
  | .node _ _ l => l

/-- `InfiniteHashTable.__init__`: a 27-slot array of `None`, count 0. -/
def mkEmpty (lvl : Nat) : IHT V := .node (List.replicate 27 none) 0 lvl

/-- `InfiniteHashTable.hash`: if `self.level < len(key)` then
`ord(key[self.level]) % (TABLE_SIZE-1)` else `TABLE_SIZE-1`
(with `TABLE_SIZE = 27`). -/
def hashAt (lvl : Nat) (key : String) : Nat :=
  if lvl < key.data.length then (key.data.getD lvl 'a').toNat % 26 else 26

/-- `set_item_aux`: the four branches in source order — empty slot:
store `(key, value)` and increment count; tuple with equal key:
overwrite in place, count unchanged; tuple holding a plain value with a
different key: split, i.e. replace the slot by
`(dislodged_key[:level+1], fresh child at level+1)`, increment count,
then re-insert the dislodged pair and the new pair into the child;
tuple holding a child table: increment count and recurse. -/
def setItemAux : Nat → IHT V → String → V → Nat → Option (IHT V)
  | 0, _, _, _, _ => none
  | Nat.succ fuel, t, key, value, lvl =>
    let pos := hashAt t.level key
    match t.array.getD pos none with
    | none =>
      some (.node (t.array.set pos (some (key, Sum.inl value))) (t.count + 1) t.level)
    | some (k, stored) =>
      if k = key then
        some (.node (t.array.set pos (some (key, Sum.inl value))) t.count t.level)
      else
        match stored with
        | Sum.inl v0 =>
          match setItemAux fuel (mkEmpty (lvl + 1)) k v0 (lvl + 1) with
          | none => none
          | some child1 =>
            match setItemAux fuel child1 key value (lvl + 1) with
            | none => none
            | some child2 =>
              some (.node
                (t.array.set pos (some (String.mk (k.data.take (lvl + 1)), Sum.inr child2)))
                (t.count + 1) t.level)
        | Sum.inr child =>
          match setItemAux fuel child key value (lvl + 1) with
          | none => none
          | some child1 =>
            some (.node (t.array.set pos (some (k, Sum.inr child1))) (t.count + 1) t.level)

/-- `__setitem__`: `set_item_aux(self, key, value, 0)`. -/
def setItem (fuel : Nat) (t : IHT V) (key : String) (value : V) : Option (IHT V) :=
  setItemAux fuel t key value 0

/-- `get_item_aux`: returns both the value and the sequence of slot
positions visited (the source accumulates the latter in
`self.location_lst`, which `get_location` resets before the descent).
Empty slot: `KeyError`; tuple with equal key: record the position and
either recurse into a child table or return the stored value; tuple
whose key equals `key[:level+1]`: recurse into a child table if there
is one (recording the position), else `KeyError`; otherwise `KeyError`. -/
def getItemAux : Nat → IHT V → String → Nat → Except Err (List Nat × V)
  | 0, _, _, _ => .error .fuelError
  | Nat.succ fuel, t, key, lvl =>
    let pos := hashAt t.level key
    match t.array.getD pos none with
    | none => .error .keyError
    | some (k, stored) =>
      if k = key then
        match stored with
        | Sum.inr child =>
          match getItemAux fuel child key (lvl + 1) with
          | .error e => .error e
          | .ok (path, v) => .ok (pos :: path, v)
        | Sum.inl v => .ok ([pos], v)
      else if k = String.mk (key.data.take (lvl + 1)) then
        match stored with
        | Sum.inr child =>
          match getItemAux fuel child key (lvl + 1) with
          | .error e => .error e
          | .ok (path, v) => .ok (pos :: path, v)
        | Sum.inl _ => .error .keyError
      else .error .keyError

/-- `__getitem__`: the value component of the descent. -/
def getItem (fuel : Nat) (t : IHT V) (key : String) : Except Err V :=
  (getItemAux fuel t key 0).map (fun r => r.2)

/-- `get_location`: the position-path component of the descent. -/
def getLocation (fuel : Nat) (t : IHT V) (key : String) : Except Err (List Nat) :=
  (getItemAux fuel t key 0).map (fun r => r.1)

/-- `__contains__`: `True` iff `self[key]` does not raise `KeyError`. -/
def containsKey (fuel : Nat) (t : IHT V) (key : String) : Bool :=
  match getItem fuel t key with
  | .ok _ => true
  | .error _ => false

/-- First non-`None` slot of an array (the scan in `delete_item_aux`
that finds `only_item_from_table`). -/
def firstSome : List (Option (String × (V ⊕ IHT V))) → Option (String × (V ⊕ IHT V))
  | [] => none
  | none :: rest => firstSome rest
  | some e :: _ => some e

/-- `delete_item_aux`.  Python's identity test `hash_table == self`
(receiver = root in every call chain) is embedded as the `isRoot`
flag, true only for the outermost call.  The returned `Option` is the
promoted `only_item_from_table` (Python's `return` with no value is
`none`).  When the deepest node has at most one entry left but its
array scan finds nothing and the node is not the root, Python reads
the unbound local `only_item_from_table` (`NameError`). -/
def deleteItemAux :
    Nat → IHT V → List Nat → Nat → Nat → Nat → Bool →
    Except Err (IHT V × Option (String × (V ⊕ IHT V)))
  | 0, _, _, _, _, _, _ => .error .fuelError
  | Nat.succ fuel, t, loc, locateIndex, pathDistance, listLen, isRoot =>
    let ti := loc.getD locateIndex 0
    if pathDistance = 0 ∧ locateIndex = listLen - 1 then
      let t1 : IHT V := .node (t.array.set ti none) (t.count - 1) t.level
      if t1.count ≤ 1 then
        match firstSome t1.array with
        | some item => if isRoot then .ok (t1, none) else .ok (t1, some item)
        | none => if isRoot then .ok (t1, none) else .error .nameError
      else .ok (t1, none)
    else
      match t.array.getD ti none with
      | some (k, Sum.inr child) =>
        match deleteItemAux fuel child loc (locateIndex + 1) (pathDistance - 1) listLen false with
        | .error e => .error e
        | .ok (child1, ret) =>
          let t1 : IHT V := .node (t.array.set ti (some (k, Sum.inr child1))) (t.count - 1) t.level
          match ret with
          | none => .ok (t1, none)
          | some item =>
            if t1.count > 1 ∨ isRoot then
              .ok (.node (t1.array.set ti (some item)) t1.count t1.level, none)
            else
              .ok (.node (t1.array.set ti none) t1.count t1.level, some item)
      | _ => .error .typeError

/-- `__delitem__`: `get_location(key)` then
`delete_item_aux(self, location_list, 0, len-1, len)`. -/
def delItem (fuel : Nat) (t : IHT V) (key : String) : Except Err (IHT V) :=
  match getItemAux fuel t key 0 with
  | .error e => .error e
  | .ok (loc, _) =>
    (deleteItemAux fuel t loc 0 (loc.length - 1) loc.length true).map (fun r => r.1)

/-- `sort_keys_aux`: for a node beyond the root whose terminal slot
(`self.array[-1]`, index 26) is occupied, append its key first; then
scan the buckets in the order `ord(chr(i)) % 26` for `i = 97..122`
(the lowercase letters in alphabetical order), appending stored keys
and recursing into child tables.  The accumulator is threaded, which
models Python appending to the single shared list object; the `for`
loop over the letters is embedded as a fold. -/
def sortKeysAux : Nat → IHT V → List String → Option (List String)
  | 0, _, _ => none
  | Nat.succ fuel, t, acc =>
    let acc1 :=
      match t.array.getD 26 none with
      | some (k, _) => if t.level ≠ 0 then acc ++ [k] else acc
      | none => acc
    (List.range' 97 26).foldl
      (fun macc i =>
        match macc with
        | none => none
        | some a =>
          match t.array.getD (i % 26) none with
          | none => some a
          | some (k, Sum.inl _) => some (a ++ [k])
          | some (_, Sum.inr child) => sortKeysAux fuel child a)
      (some acc1)

/-- `sort_keys`: calls `sort_keys_aux()` with no argument, so the
Python mutable default list is used.  That default is allocated once
at function definition time and shared between all such calls; we
model it as a piece of program state passed in and returned.  A call
returns the (appended-to) shared list and the new state of the shared
list is that same list. -/
def sortKeysCall (fuel : Nat) (t : IHT V) (sharedDefault : List String) :
    Option (List String × List String) :=
  match sortKeysAux fuel t sharedDefault with
  | none => none
  | some res => some (res, res)

/-- Number of terminal `(key, value)` pairs reachable under a node,
directly or through descendant nodes (the quantity the spec says each
node's `count` tracks).  Fuel-bounded; fuel exhaustion contributes 0. -/
def terminalCount : Nat → IHT V → Nat
  | 0, _ => 0
  | Nat.succ fuel, t =>
    t.array.foldl
      (fun acc s =>
        acc + match s with
              | none => 0
              | some (_, Sum.inl _) => 1
              | some (_, Sum.inr c) => terminalCount fuel c)
      0

/-- Key stored in a given slot, if any (observation helper). -/
def slotKey (t : IHT V) (i : Nat) : Option String :=
  (t.array.getD i none).map (fun e => e.1)

/-- Whether a given slot holds a child table (observation helper). -/
def slotIsChild (t : IHT V) (i : Nat) : Bool :=
  match t.array.getD i none with
  | some (_, Sum.inr _) => true
  | _ => false

/-- Child table stored in a given slot, if any (observation helper). -/
def childAt (t : IHT V) (i : Nat) : Option (IHT V) :=
  match t.array.getD i none with
  | some (_, Sum.inr c) => some c
  | _ => none

end IHT

/-! ## DoubleKeyTable (src/double_key_table.py)

The outer table is embedded as a structure whose `array` slots hold
`(key1, LinearProbeTable)` pairs.  The inner `LinearProbeTable` lives
in `data_structures/` (not part of the given sources) and is modelled
from the spec below.  Counts are embedded as `Int` because Python's
counters are plain machine integers that the repair loops decrement
and that `_rehash` counts down (a `Nat` would truncate at zero where
Python would go negative). -/

/-- `DoubleKeyTable.hash1` / `hash2`: polynomial string hash with
rolling multiplier; the running value is reduced mod `size` and the
multiplier mod `size - 1` (`HASH_BASE = 31`, initial multiplier
31417). -/
def polyHashAux (size : Nat) : List Char → Nat → Nat → Nat
  | [], value, _ => value
  | c :: rest, value, a => polyHashAux size rest ((c.toNat + a * value) % size) (a * 31 % (size - 1))

/-- `hash1(key)`: hashes against the outer table's current size. -/
def hash1 (key : String) (size : Nat) : Nat := polyHashAux size key.data 0 31417

/-- `hash2(key, sub_table)`: hashes against the inner table's current
size (this is the hash the composite table injects into every inner
table it creates). -/
def hash2 (key : String) (size : Nat) : Nat := polyHashAux size key.data 0 31417

/-- The linear-probe loop of `_linear_probe` (used at both levels):
`for i in range(len(array))`, stopping at an empty slot
(`(pos, false)`), a slot whose key matches (`(pos, true)`), raising
`FullError` on the last iteration otherwise, and stepping to
`(pos + 1) % len(array)` in between.  The fuel argument is the number
of loop iterations remaining (`len(array)` at entry). -/
def probeLoop {α : Type} (arr : List (Option (String × α))) (key : String) :
    Nat → Nat → Except Err (Nat × Bool)
  | _, 0 => .error .fullError
  | pos, Nat.succ fuel =>
    match arr.getD pos none with
    | none => .ok (pos, false)
    | some e =>
      if e.1 = key then .ok (pos, true)
      else if fuel = 0 then .error .fullError
      else probeLoop arr key ((pos + 1) % arr.length) fuel

/-- Modelled from the spec: the single-key open-addressing probe table
(`LinearProbeTable` from `data_structures/hash_table.py`, which is not
among the given sources).  Per §6 it is constructed from a capacity
ladder, exposes `array`, `count`, `len`, `is_empty`, `table_size`, and
a pluggable per-instance hash; the composite table injects `hash2`
bound to the inner table's current size, so the model hashes with
`hash2` directly.  Per §7, capacity growth is performed automatically
only by the composite table, so the model keeps the capacity at the
first ladder value and raises `FullError` when a probe cycles a full
array. -/
structure LinearProbeTable (V : Type) where
  sizes : List Nat
  array : List (Option (String × V))
  count : Int
deriving DecidableEq

namespace LinearProbeTable

variable {V : Type}

/-- Modelled from the spec: `LinearProbeTable(sizes)` — fresh array at
the first ladder capacity, zero entries. -/
def mk0 (sizes : List Nat) : LinearProbeTable V :=
  ⟨sizes, List.replicate (sizes.headD 5) none, 0⟩

def table_size (t : LinearProbeTable V) : Nat := t.array.length

/-- `is_empty()`: no entries. -/
def isEmpty (t : LinearProbeTable V) : Bool := t.count = 0

/-- Modelled from the spec: `sub_table[key] = data` — linear probe
from the injected hash; overwrite on a key match, store in the first
empty slot otherwise (incrementing `count`), `FullError` when the
probe cycles a full array. -/
def setItem (t : LinearProbeTable V) (key : String) (v : V) :
    Except Err (LinearProbeTable V) :=
  match probeLoop t.array key (hash2 key t.array.length) t.array.length with
  | .error e => .error e
  | .ok (pos, found) =>
    .ok { t with
          array := t.array.set pos (some (key, v)),
          count := if found then t.count else t.count + 1 }

end LinearProbeTable

/-- The default capacity ladder `DoubleKeyTable.TABLE_SIZES`. -/
def defaultTableSizes : List Nat :=
  [5, 13, 29, 53, 97, 193, 389, 769, 1543, 3079, 6151, 12289, 24593,
   49157, 98317, 196613, 393241, 786433, 1572869]

structure DoubleKeyTable (V : Type) where
  TABLE_SIZES : List Nat
  internal_sizes : List Nat
  size_index : Nat
  array : List (Option (String × LinearProbeTable V))
  count : Int
deriving DecidableEq

namespace DoubleKeyTable

variable {V : Type}

/-- `DoubleKeyTable.__init__(sizes, internal_sizes)`. -/
def init (sizes internalSizes : Option (List Nat)) : DoubleKeyTable V :=
  let ts := sizes.getD defaultTableSizes
  let isz := internalSizes.getD ts
  ⟨ts, isz, 0, List.replicate (ts.getD 0 0) none, 0⟩

def table_size (t : DoubleKeyTable V) : Nat := t.array.length

/-- `_linear_probe(key1, key2, is_insert)` (the `key2 is not None`
path, the only one get/set/delete use): probe the outer array from
`hash1(key1)`; an empty slot is the insertion point when inserting and
`KeyError` otherwise; on a fresh insert the inner table is created
(with the injected `hash2`); then probe the inner array from
`hash2(key2)` with the same three outcomes.  Errors carry the state
as mutated so far. -/
def linearProbe (t : DoubleKeyTable V) (key1 key2 : String) (isInsert : Bool) :
    Except (Err × DoubleKeyTable V) (DoubleKeyTable V × Nat × Nat) :=
  match probeLoop t.array key1 (hash1 key1 t.array.length) t.array.length with
  | .error e => .error (e, t)
  | .ok (p1, found1) =>
    if ¬ found1 ∧ ¬ isInsert then .error (.keyError, t)
    else
      let t1 :=
        if isInsert ∧ ¬ found1 then
          { t with array := t.array.set p1 (some (key1, LinearProbeTable.mk0 t.internal_sizes)) }
        else t
      match t1.array.getD p1 none with
      | none => .error (.typeError, t1)
      | some (_, sub) =>
        match probeLoop sub.array key2 (hash2 key2 sub.array.length) sub.array.length with
        | .error e => .error (e, t1)
        | .ok (p2, found2) =>
          if ¬ found2 ∧ ¬ isInsert then .error (.keyError, t1)
          else .ok (t1, p1, p2)

/-- `__getitem__`: probe without inserting, read
`self.array[position1][1].array[position2][1]`. -/
def getItem (t : DoubleKeyTable V) (key1 key2 : String) : Except Err V :=
  match linearProbe t key1 key2 false with
  | .error (e, _) => .error e
  | .ok (_, p1, p2) =>
    match t.array.getD p1 none with
    | some (_, sub) =>
      match sub.array.getD p2 none with
      | some (_, v) => .ok v
      | none => .error .typeError
    | none => .error .typeError

/-- `__contains__`: `True` unless `self[key]` raises `KeyError`
(any other exception propagates). -/
def containsPair (t : DoubleKeyTable V) (key1 key2 : String) : Except Err Bool :=
  match getItem t key1 key2 with
  | .ok _ => .ok true
  | .error .keyError => .ok false
  | .error e => .error e

mutual

/-- `__setitem__`: probe with insert, bump `count` when the inner
table is empty before the write, store via the inner table's set, then
`_rehash` when `len(self) > self.table_size / 2`.  The fuel bounds the
nesting depth of rehashes and repair loops. -/
def setItem : Nat → DoubleKeyTable V → String → String → V →
    Except (Err × DoubleKeyTable V) (DoubleKeyTable V)
  | 0, t, _, _, _ => .error (.fuelError, t)
  | Nat.succ fuel, t, key1, key2, v =>
    match linearProbe t key1 key2 true with
    | .error e => .error e
    | .ok (t1, p1, _) =>
      match t1.array.getD p1 none with
      | none => .error (.typeError, t1)
      | some (k1stored, sub) =>
        let newCount := if sub.count = 0 then t1.count + 1 else t1.count
        match sub.setItem key2 v with
        | .error e => .error (e, { t1 with count := newCount })
        | .ok sub1 =>
          let t2 := { t1 with array := t1.array.set p1 (some (k1stored, sub1)), count := newCount }
          if 2 * t2.count > (t2.array.length : Int) then rehash fuel t2 else .ok t2

/-- `_rehash`: step `size_index`, look the new capacity up in the
ladder (`IndexError` past its end, with `size_index` already stepped),
allocate the fresh outer array, and reinsert every surviving pair. -/
def rehash : Nat → DoubleKeyTable V → Except (Err × DoubleKeyTable V) (DoubleKeyTable V)
  | 0, t => .error (.fuelError, t)
  | Nat.succ fuel, t =>
    let idx := t.size_index + 1
    match t.TABLE_SIZES[idx]? with
    | none => .error (.indexError, { t with size_index := idx })
    | some newSize =>
      rehashLoop fuel t.array t.count
        { t with size_index := idx, array := List.replicate newSize none, count := 0 }

/-- The `for item1 in old_array` loop of `_rehash`, with the
`old_count` countdown and its `if old_count == 0: break`. -/
def rehashLoop : Nat → List (Option (String × LinearProbeTable V)) → Int →
    DoubleKeyTable V → Except (Err × DoubleKeyTable V) (DoubleKeyTable V)
  | 0, _, _, t => .error (.fuelError, t)
  | Nat.succ _, [], _, t => .ok t
  | Nat.succ fuel, none :: rest, oc, t =>
    if oc = 0 then .ok t else rehashLoop fuel rest oc t
  | Nat.succ fuel, some (k1, sub) :: rest, oc, t =>
    match reinsertPairs fuel t k1 sub.array with
    | .error e => .error e
    | .ok t1 => if oc - 1 = 0 then .ok t1 else rehashLoop fuel rest (oc - 1) t1

/-- The `for item2 in sub_table.array` loop of `_rehash`: reinsert
every `(key2, value)` through `self[str(key1), str(key2)] = value`. -/
def reinsertPairs : Nat → DoubleKeyTable V → String → List (Option (String × V)) →
    Except (Err × DoubleKeyTable V) (DoubleKeyTable V)
  | 0, t, _, _ => .error (.fuelError, t)
  | Nat.succ _, t, _, [] => .ok t
  | Nat.succ fuel, t, k1, none :: rest => reinsertPairs fuel t k1 rest
  | Nat.succ fuel, t, k1, some (k2, v) :: rest =>
    match setItem fuel t k1 k2 v with
    | .error e => .error e
    | .ok t1 => reinsertPairs fuel t1 k1 rest

/-- The outer-level repair loop of `__delitem__`: starting just past
the vacated slot, walk forward while slots are occupied; for each,
empty its inner table item by item, re-inserting every pair through
`self[(str(key1), str(key2))] = value`. -/
def delOuterLoop : Nat → DoubleKeyTable V → Nat →
    Except (Err × DoubleKeyTable V) (DoubleKeyTable V)
  | 0, t, _ => .error (.fuelError, t)
  | Nat.succ fuel, t, pos =>
    match t.array.getD pos none with
    | none => .ok t
    | some (k1, sub) =>
      match delInnerForLoop fuel t true sub pos k1 0 sub.array.length with
      | .error e => .error e
      | .ok t1 => delOuterLoop fuel t1 ((pos + 1) % t1.array.length)

/-- The `for i in range(len(sub_table.array))` body inside the
outer-level repair loop.  Python binds `key1` and the inner-table
object `sub_table` once, before the loop; each iteration reads and
clears `sub_table.array[i]` on that object and re-inserts the pair
through `self[(str(key1), str(key2))] = value`, whose body is
transcribed inline because it acts on the same heap.  While the
object is still the one referenced from outer slot `pos`
(`live = true`), a write to the object is visible through the table
and a write through the table (an insert landing on `pos`) is visible
on the object; the embedding keeps this alias in sync by mirroring
the clear into slot `pos` and reading the object's next state back
from that slot (occupied throughout the live phase; the fallback arm
of that read is unreachable).  When `_rehash` fires inside the
re-insert, `self.array` is replaced wholesale and the object is
orphaned: the loop keeps iterating the object's frozen state
(`live = false`) while the re-inserts act only on the new table. -/
def delInnerForLoop : Nat → DoubleKeyTable V → Bool → LinearProbeTable V →
    Nat → String → Nat → Nat →
    Except (Err × DoubleKeyTable V) (DoubleKeyTable V)
  | 0, t, _, _, _, _, _, _ => .error (.fuelError, t)
  | Nat.succ fuel, t, live, sub, pos, key1, i, m =>
    if i < m then
      match sub.array.getD i none with
      | none => delInnerForLoop fuel t live sub pos key1 (i + 1) m
      | some (k2, v) =>
        let sub1 := { sub with array := sub.array.set i none, count := sub.count - 1 }
        let t1 := if live then { t with array := t.array.set pos (some (key1, sub1)) } else t
        match linearProbe t1 key1 k2 true with
        | .error e => .error e
        | .ok (t1a, p1, _) =>
          match t1a.array.getD p1 none with
          | none => .error (.typeError, t1a)
          | some (k1s, subp) =>
            let newCount := if subp.count = 0 then t1a.count + 1 else t1a.count
            match subp.setItem k2 v with
            | .error e => .error (e, { t1a with count := newCount })
            | .ok subp1 =>
              let t2 := { t1a with array := t1a.array.set p1 (some (k1s, subp1)), count := newCount }
              let subNext := if live then
                  (match t2.array.getD pos none with
                   | some e => e.2
                   | none => sub1)
                else sub1
              if 2 * t2.count > (t2.array.length : Int) then
                match rehash fuel t2 with
                | .error e => .error e
                | .ok t3 => delInnerForLoop fuel t3 false subNext pos key1 (i + 1) m
              else
                delInnerForLoop fuel t2 live subNext pos key1 (i + 1) m
    else .ok t

end

/-- The inner-level repair loop of `__delitem__` (`while not
sub_table.array[position2] is None`): clear each subsequent occupied
inner slot and re-insert its pair through the inner table's set. -/
def delInnerWhile : Nat → LinearProbeTable V → Nat →
    Except (Err × LinearProbeTable V) (LinearProbeTable V)
  | 0, sub, _ => .error (.fuelError, sub)
  | Nat.succ fuel, sub, pos =>
    match sub.array.getD pos none with
    | none => .ok sub
    | some (k2, v) =>
      let sub1 := { sub with array := sub.array.set pos none, count := sub.count - 1 }
      match sub1.setItem k2 v with
      | .error e => .error (e, sub1)
      | .ok sub2 => delInnerWhile fuel sub2 ((pos + 1) % sub2.array.length)

/-- `__delitem__`: probe without inserting; when the inner table holds
exactly one entry, clear the whole outer slot, decrement `count` and
run the outer-level repair loop; otherwise clear the inner slot,
decrement the inner count and run the inner-level repair loop. -/
def delItem (fuel : Nat) (t : DoubleKeyTable V) (key1 key2 : String) :
    Except (Err × DoubleKeyTable V) (DoubleKeyTable V) :=
  match linearProbe t key1 key2 false with
  | .error e => .error e
  | .ok (_, p1, p2) =>
    match t.array.getD p1 none with
    | none => .error (.typeError, t)
    | some (k1stored, sub) =>
      if sub.count = 1 then
        let t1 := { t with array := t.array.set p1 none, count := t.count - 1 }
        delOuterLoop fuel t1 ((p1 + 1) % t1.array.length)
      else
        let sub1 := { sub with array := sub.array.set p2 none, count := sub.count - 1 }
        match delInnerWhile fuel sub1 ((p2 + 1) % sub1.array.length) with
        | .error (e, sub2) => .error (e, { t with array := t.array.set p1 (some (k1stored, sub2)) })
        | .ok sub2 => .ok { t with array := t.array.set p1 (some (k1stored, sub2)) }

/-- Number of occupied outer slots (observation helper). -/
def nonNoneSlots (t : DoubleKeyTable V) : Nat :=
  t.array.countP (fun s => s.isSome)

/-- Key stored in a given outer slot, if any (observation helper). -/
def slotKey1 (t : DoubleKeyTable V) (i : Nat) : Option String :=
  (t.array.getD i none).map (fun e => e.1)

/-- `count` of the inner table in a given outer slot (observation
helper). -/
def slotInnerCount (t : DoubleKeyTable V) (i : Nat) : Option Int :=
  (t.array.getD i none).map (fun e => e.2.count)

/-- Number of occupied slots of the inner table in a given outer slot
(observation helper). -/
def slotInnerSomes (t : DoubleKeyTable V) (i : Nat) : Option Nat :=
  (t.array.getD i none).map (fun e => e.2.array.countP (fun s => s.isSome))

end DoubleKeyTable

/-! ## Concrete execution traces used by the claims -/

/-- C4 trace: empty trie, `set("cat", 1)`, `set("car", 2)`. -/
def c4Table : Option (IHT Nat) :=
  (IHT.setItem 20 (IHT.mkEmpty 0) "cat" 1).bind (fun t => IHT.setItem 20 t "car" 2)

def c4T : IHT Nat := c4Table.getD (IHT.mkEmpty 0)

/-- C4 trace continued: `del t["car"]`. -/
def c4DelTable : Option (IHT Nat) := (IHT.delItem 20 c4T "car").toOption

def c4DelT : IHT Nat := c4DelTable.getD (IHT.mkEmpty 0)

/-- C5 trace: empty trie with "dog", "cat", "ant", "apple" inserted. -/
def c5Table : Option (IHT Nat) :=
  (((IHT.setItem 20 (IHT.mkEmpty 0) "dog" 1).bind
      (fun t => IHT.setItem 20 t "cat" 2)).bind
      (fun t => IHT.setItem 20 t "ant" 3)).bind
      (fun t => IHT.setItem 20 t "apple" 4)

def c5T : IHT Nat := c5Table.getD (IHT.mkEmpty 0)

/-- C5: first `sort_keys()` call, shared default accumulator initially
empty. -/
def c5First : Option (List String × List String) := IHT.sortKeysCall 20 c5T []

/-- C5: second `sort_keys()` call on the unchanged table, shared
default accumulator as the first call left it. -/
def c5Second : Option (List String × List String) :=
  c5First.bind (fun r => IHT.sortKeysCall 20 c5T r.2)

/-- C8 trace: "cat"→1, "car"→2 (counts all consistent). -/
def c8Pre : Option (IHT Nat) :=
  (IHT.setItem 20 (IHT.mkEmpty 0) "cat" 1).bind (fun t => IHT.setItem 20 t "car" 2)

def c8PreT : IHT Nat := c8Pre.getD (IHT.mkEmpty 0)

/-- C8 trace continued: overwrite `set("cat", 99)` (the key is stored
two levels deep at this point). -/
def c8Table : Option (IHT Nat) := IHT.setItem 20 c8PreT "cat" 99

def c8T : IHT Nat := c8Table.getD (IHT.mkEmpty 0)

/-- C10 trace: empty trie, `set("", 7)`. -/
def c10Table : Option (IHT Nat) := IHT.setItem 20 (IHT.mkEmpty 0) "" 7

def c10T : IHT Nat := c10Table.getD (IHT.mkEmpty 0)

/-- C10 trace continued: additionally `set("cat", 1)`. -/
def c10Table2 : Option (IHT Nat) := c10Table.bind (fun t => IHT.setItem 20 t "cat" 1)

def c10T2 : IHT Nat := c10Table2.getD (IHT.mkEmpty 0)

/-- C6 trace: `DoubleKeyTable(sizes=[3])` — a one-entry capacity
ladder. -/
def c6t0 : DoubleKeyTable Nat := DoubleKeyTable.init (some [3]) none

def c6r1 : Except (Err × DoubleKeyTable Nat) (DoubleKeyTable Nat) :=
  DoubleKeyTable.setItem 100 c6t0 "a" "x" 1

/-- C6: the second distinct top-level key crosses the load factor at
the ladder's largest (only) capacity, so `_rehash` runs out of ladder. -/
def c6r2 : Except (Err × DoubleKeyTable Nat) (DoubleKeyTable Nat) :=
  match c6r1 with
  | .ok t => DoubleKeyTable.setItem 100 t "b" "y" 2
  | .error e => .error e

def c6err : Option Err :=
  match c6r2 with
  | .error (e, _) => some e
  | .ok _ => none

/-- The table state at the moment the exception propagates. -/
def c6errState : Option (DoubleKeyTable Nat) :=
  match c6r2 with
  | .error (_, t) => some t
  | .ok _ => none

/-- C7 trace A: default table, `t[("d","x")]=1`, `t[("e","y")]=2`
("d" hashes to outer slot 0, "e" to slot 1), then `del t[("d","x")]`. -/
def c7a : Except (Err × DoubleKeyTable Nat) (DoubleKeyTable Nat) :=
  match DoubleKeyTable.setItem 100 (DoubleKeyTable.init none none) "d" "x" 1 with
  | .ok t =>
    match DoubleKeyTable.setItem 100 t "e" "y" 2 with
    | .ok t1 => DoubleKeyTable.delItem 100 t1 "d" "x"
    | .error e => .error e
  | .error e => .error e

def c7aT : Option (DoubleKeyTable Nat) :=
  match c7a with
  | .ok t => some t
  | .error _ => none

/-- C7 trace B: default table, `t[("d","x")]=1`, `t[("i","y")]=2`
("d" and "i" both hash to outer slot 0, so "i" probes to slot 1), then
`del t[("d","x")]`. -/
def c7b : Except (Err × DoubleKeyTable Nat) (DoubleKeyTable Nat) :=
  match DoubleKeyTable.setItem 100 (DoubleKeyTable.init none none) "d" "x" 1 with
  | .ok t =>
    match DoubleKeyTable.setItem 100 t "i" "y" 2 with
    | .ok t1 => DoubleKeyTable.delItem 100 t1 "d" "x"
    | .error e => .error e
  | .error e => .error e

def c7bT : Option (DoubleKeyTable Nat) :=
  match c7b with
  | .ok t => some t
  | .error _ => none

/-- C1 trace: one `set` on the empty (reachable) table. -/
def c1T : DoubleKeyTable Nat :=
  match DoubleKeyTable.setItem 100 (DoubleKeyTable.init none none) "d" "x" 1 with
  | .ok t => t
  | .error _ => DoubleKeyTable.init none none

/-- C2 trace, step 1: `t[("d","x")] = 1` on the default table. -/
def c2T1 : DoubleKeyTable Nat :=
  match DoubleKeyTable.setItem 100 (DoubleKeyTable.init none none) "d" "x" 1 with
  | .ok t => t
  | .error _ => DoubleKeyTable.init none none

/-- C2 trace, step 2: `t[("i","y")] = 2`; "d" and "i" share outer home
slot 0, so "i" is placed by linear probing past the slot of "d". -/
def c2T2 : DoubleKeyTable Nat :=
  match DoubleKeyTable.setItem 100 c2T1 "i" "y" 2 with
  | .ok t => t
  | .error _ => c2T1

/-- C2 trace, step 3: `del t[("d","x")]` vacates the slot that "i" was
probed past. -/
def c2T3 : DoubleKeyTable Nat :=
  match DoubleKeyTable.delItem 100 c2T2 "d" "x" with
  | .ok t => t
  | .error _ => c2T2

/-- C3 trace: a second distinct key on top of `c2T1` leaves the
5-slot outer table at count 2 (2·2 ≤ 5). -/
def c3T2 : DoubleKeyTable Nat :=
  match DoubleKeyTable.setItem 100 c2T1 "e" "y" 2 with
  | .ok t => t
  | .error _ => c2T1

/-- C3 trace: the third distinct key crosses the load factor
(2·3 > 5), so this insert must grow the outer table to the next
ladder capacity, 13. -/
def c3T3 : DoubleKeyTable Nat :=
  match DoubleKeyTable.setItem 100 c3T2 "f" "z" 3 with
  | .ok t => t
  | .error _ => c3T2

/-! ## Invariant framework for universal DoubleKeyTable claims

The round-trip, deletion-integrity and growth claims quantify over
every table state reachable by prior set/delete operations, so we
develop the probing invariant and prove it inductive. -/

namespace DoubleKeyTable

variable {V : Type} {α : Type}

/-- The probe from `pos` sees `d` occupied, mismatching slots: the
positions `pos, pos+1, …, pos+d-1` (mod the array size) all hold
entries whose key differs from `key`. -/
def misPath (arr : List (Option (String × α))) (key : String) (pos d : Nat) : Prop :=
  ∀ j, j < d → ∃ e, arr.getD ((pos + j) % arr.length) none = some e ∧ e.1 ≠ key

/-- The slot `q` is where an (insert or lookup) probe for `key`
starting from its hash lands, finding `key` there.  This is exactly
the computation `_linear_probe` performs at the outer level. -/
def foundOuter (arr : List (Option (String × LinearProbeTable V))) (key : String) (q : Nat) :
    Prop :=
  probeLoop arr key (hash1 key arr.length) arr.length = .ok (q, true)

/-- Inner-table analogue of `foundOuter`, probing with `hash2`. -/
def foundInner (arr : List (Option (String × V))) (key : String) (q : Nat) : Prop :=
  probeLoop arr key (hash2 key arr.length) arr.length = .ok (q, true)

/-- The table stores the triple `(a, b, w)`: some outer slot holds
key `a` and its inner table has a slot holding `(b, w)`. -/
def pairsProp (t : DoubleKeyTable V) (a b : String) (w : V) : Prop :=
  ∃ q e s, t.array.getD q none = some e ∧ e.1 = a ∧
    e.2.array.getD s none = some (b, w)

/-- Structural well-formedness of an inner table (default
configuration): ladder and capacity as constructed, and `count`
agreeing with the number of occupied slots. -/
def innerWfP (sub : LinearProbeTable V) : Prop :=
  sub.sizes = defaultTableSizes ∧ sub.array.length = 5 ∧
    sub.count = (sub.array.countP (fun s => s.isSome) : Int)

/-- Bookkeeping part of the invariant: default configuration shapes,
`count` at least the number of occupied outer slots, load factor at
most one half, well-formed inner tables, and no `(K1, K2)` pair stored
with two values. -/
structure wfBase (t : DoubleKeyTable V) : Prop where
  sizesEq : t.TABLE_SIZES = defaultTableSizes
  internalEq : t.internal_sizes = defaultTableSizes
  idxLt : t.size_index < defaultTableSizes.length
  lenEq : t.array.length = defaultTableSizes.getD t.size_index 0
  countSlots : (t.array.countP (fun s => s.isSome) : Int) ≤ t.count
  countCap : 2 * t.count ≤ (t.array.length : Int)
  innerWf : ∀ q e, t.array.getD q none = some e → innerWfP e.2
  pairsFun : ∀ a b w w', pairsProp t a b w → pairsProp t a b w' → w = w'

/-- Probe-reachability part of the invariant: every occupied slot of
every inner table is found by the inner probe for its key, and every
outer slot whose inner table is non-empty is found by the outer probe
for its key. -/
structure wfFacts (t : DoubleKeyTable V) : Prop where
  inner : ∀ q e, t.array.getD q none = some e →
    ∀ s p, e.2.array.getD s none = some p → foundInner e.2.array p.1 s
  outer : ∀ q e, t.array.getD q none = some e → 0 < e.2.count → foundOuter t.array e.1 q

/-- The full invariant. -/
def wf (t : DoubleKeyTable V) : Prop := wfBase t ∧ wfFacts t

/-- Every occupied outer slot has a non-empty inner table (holds for
tables built by inserts alone, e.g. during a rebuild). -/
def posInner (t : DoubleKeyTable V) : Prop :=
  ∀ q e, t.array.getD q none = some e → 0 < e.2.count

/-- The state `__setitem__` reaches just before its rehash check:
outer slot `p1` updated with the newly written inner table, `count`
incremented when that inner table was empty. -/
def setStepState (t1 : DoubleKeyTable V) (p1 : Nat) (e : String × LinearProbeTable V)
    (sub1 : LinearProbeTable V) : DoubleKeyTable V :=
  { t1 with
    array := t1.array.set p1 (some (e.1, sub1)),
    count := if e.2.count = 0 then t1.count + 1 else t1.count }

/-- `key1` has no retrievable entries (used to characterise when an
insert creates a new top-level entry). -/
def freshK1 (t : DoubleKeyTable V) (k1 : String) : Prop :=
  ∀ b, getItem t k1 b = Except.error Err.keyError

/-- No `(K1, K2)` pair is stored with two different values. -/
def pairsFunctional (t : DoubleKeyTable V) : Prop :=
  ∀ a b w w', pairsProp t a b w → pairsProp t a b w' → w = w'

/-- The bookkeeping invariant threaded through the insert/rehash
analysis: default shapes, `count` at least the number of occupied
outer slots, and well-formed inner tables. -/
structure preWf (t : DoubleKeyTable V) : Prop where
  sizesEq : t.TABLE_SIZES = defaultTableSizes
  internalEq : t.internal_sizes = defaultTableSizes
  idxLt : t.size_index < defaultTableSizes.length
  lenEq : t.array.length = defaultTableSizes.getD t.size_index 0
  countSlots : (t.array.countP (fun s => s.isSome) : Int) ≤ t.count
  innerWf : ∀ q e, t.array.getD q none = some e → innerWfP e.2

/-- The full invariant of tables between operations: bookkeeping,
load factor at most one half, single-valued pairs, and the probe
facts. -/
def goodState (t : DoubleKeyTable V) : Prop :=
  preWf t ∧ 2 * t.count ≤ (t.array.length : Int) ∧ pairsFunctional t ∧ wfFacts t

/-- `pairsProp` read off a bare outer array (used for the old array
that `_rehash` walks). -/
def arrPairs (arr : List (Option (String × LinearProbeTable V))) (a b : String)
    (w : V) : Prop :=
  ∃ q e s, arr.getD q none = some e ∧ e.1 = a ∧ e.2.array.getD s none = some (b, w)

/-- A `(key2, value)` entry of a bare inner array (used for the inner
array `_rehash` reinserts from). -/
def lstPairs (lst : List (Option (String × V))) (b : String) (w : V) : Prop :=
  ∃ s, lst.getD s none = some (b, w)

/-- `q` lies in the contiguous occupied run starting at `pos` (in
probe order, wrapping): the pending zone that a `__delitem__` repair
walk has not yet passed.  Slots in the zone are the only ones whose
probe-reachability may be temporarily broken. -/
def zoneFrom {γ : Type} (arr : List (Option γ)) (pos q : Nat) : Prop :=
  ∃ j, j < arr.length ∧ q = (pos + j) % arr.length ∧
    ∀ i, i ≤ j → (arr.getD ((pos + i) % arr.length) none).isSome = true

/-- All occupied slots of an inner array are found by the inner probe
for their key. -/
def innerFactsP (sub : LinearProbeTable V) : Prop :=
  ∀ s p, sub.array.getD s none = some p → foundInner sub.array p.1 s

/-- Effect of a successful `__setitem__` at a given fuel: invariant
preservation, retrievability of the new pair, how the stored pairs
evolve, and either preservation of the probe facts or the exact
pre-rehash shape of the result. -/
def SetOk (V : Type) (fuel : Nat) : Prop :=
  ∀ (t t' : DoubleKeyTable V) (k1 k2 : String) (v : V),
    preWf t → pairsFunctional t →
    (wfFacts t ∨ ∀ w', pairsProp t k1 k2 w' → w' = v) →
    setItem fuel t k1 k2 v = .ok t' →
    preWf t' ∧ 2 * t'.count ≤ (t'.array.length : Int) ∧
    getItem t' k1 k2 = .ok v ∧
    (∀ a b w, pairsProp t' a b w → (a = k1 ∧ b = k2 ∧ w = v) ∨ pairsProp t a b w) ∧
    (∀ a b w, pairsProp t a b w → ¬(a = k1 ∧ b = k2) → pairsProp t' a b w) ∧
    (∀ w', pairsProp t' k1 k2 w' → w' = v) ∧
    (wfFacts t → wfFacts t') ∧
    (∀ a b w, getItem t a b = .ok w → ¬(a = k1 ∧ b = k2) → getItem t' a b = .ok w) ∧
    (wfFacts t' ∨ ∃ t1 p1 p2 e s1,
      linearProbe t k1 k2 true = .ok (t1, p1, p2) ∧
      t1.array.getD p1 none = some e ∧
      e.2.setItem k2 v = .ok s1 ∧
      t' = setStepState t1 p1 e s1)

/-- Effect of a successful `_rehash` at a given fuel: invariant and
probe facts of the rebuilt table, full coverage of the stored pairs,
and no invented pairs. -/
def RehashOk (V : Type) (fuel : Nat) : Prop :=
  ∀ (t t' : DoubleKeyTable V),
    preWf t → pairsFunctional t →
    rehash fuel t = .ok t' →
    preWf t' ∧ 2 * t'.count ≤ (t'.array.length : Int) ∧ wfFacts t' ∧
    (∀ a b w, pairsProp t a b w → getItem t' a b = .ok w) ∧
    (∀ a b w, pairsProp t' a b w → pairsProp t a b w)

/-- Effect of the `_rehash` reinsert loop at a given fuel, relative to
an abstract functional source assignment `F` bounding all pairs. -/
def RehashLoopOk (V : Type) (fuel : Nat) : Prop :=
  ∀ (old : List (Option (String × LinearProbeTable V))) (oc : Int)
    (u t' : DoubleKeyTable V) (F : String → String → V → Prop),
    preWf u → wfFacts u → 2 * u.count ≤ (u.array.length : Int) →
    (∀ a b w w', F a b w → F a b w' → w = w') →
    (∀ a b w, pairsProp u a b w → F a b w) →
    (∀ a b w, arrPairs old a b w → F a b w) →
    ((old.countP (fun s => s.isSome) : Int) ≤ oc) →
    rehashLoop fuel old oc u = .ok t' →
    preWf t' ∧ wfFacts t' ∧ 2 * t'.count ≤ (t'.array.length : Int) ∧
    (∀ a b w, pairsProp t' a b w → F a b w) ∧
    (∀ a b w, arrPairs old a b w → pairsProp t' a b w) ∧
    (∀ a b w, pairsProp u a b w → pairsProp t' a b w)

/-- Effect of the inner reinsert loop of `_rehash` at a given fuel. -/
def ReinsertOk (V : Type) (fuel : Nat) : Prop :=
  ∀ (u t' : DoubleKeyTable V) (key1 : String) (lst : List (Option (String × V)))
    (F : String → String → V → Prop),
    preWf u → wfFacts u → 2 * u.count ≤ (u.array.length : Int) →
    (∀ a b w w', F a b w → F a b w' → w = w') →
    (∀ a b w, pairsProp u a b w → F a b w) →
    (∀ b w, lstPairs lst b w → F key1 b w) →
    reinsertPairs fuel u key1 lst = .ok t' →
    preWf t' ∧ wfFacts t' ∧ 2 * t'.count ≤ (t'.array.length : Int) ∧
    (∀ a b w, pairsProp t' a b w → F a b w) ∧
    (∀ b w, lstPairs lst b w → pairsProp t' key1 b w) ∧
    (∀ a b w, pairsProp u a b w → pairsProp t' a b w)

/-- Some outer slot holds key `k1` with a non-empty inner table (the
configuration under which a repeated insert of `k1` does not bump
`count`). -/
def hasKey1 (t : DoubleKeyTable V) (k1 : String) : Prop :=
  ∃ q e, t.array.getD q none = some e ∧ e.1 = k1 ∧ 0 < e.2.count

/-- Table states reachable from the default-constructed table by
successful set and delete operations. -/
inductive Reachable : DoubleKeyTable V → Prop where
  | base : Reachable (init none none)
  | set (fuel : Nat) (t t' : DoubleKeyTable V) (k1 k2 : String) (v : V) :
      Reachable t → setItem fuel t k1 k2 v = .ok t' → Reachable t'
  | del (fuel : Nat) (t t' : DoubleKeyTable V) (k1 k2 : String) :
      Reachable t → delItem fuel t k1 k2 = .ok t' → Reachable t'

end DoubleKeyTable

/-! ## Supporting lemmas: list access -/

theorem getD_set_self {γ : Type} {l : List γ} {i : Nat} (h : i < l.length) (v d : γ) :
    (l.set i v).getD i d = v := by
  simp [List.getD, List.getElem?_set_self h]

theorem getD_set_other {γ : Type} {l : List γ} {i j : Nat} (h : i ≠ j) (v d : γ) :
    (l.set i v).getD j d = l.getD j d := by
  simp [List.getD, List.getElem?_set_ne h]

theorem getD_none_of_ge {γ : Type} {l : List γ} {i : Nat} (h : l.length ≤ i) (d : γ) :
    l.getD i d = d := by
  simp [List.getD, List.getElem?_eq_none h]

/-! ## Supporting lemmas: hashes and the probe loop -/

namespace DoubleKeyTable

variable {V : Type} {α : Type}

theorem polyHashAux_lt {size : Nat} (h : 0 < size) :
    ∀ (cs : List Char) (v a : Nat), v < size → polyHashAux size cs v a < size := by
  intro cs
  induction cs with
  | nil => intro v a hv; simpa [polyHashAux] using hv
  | cons c rest ih =>
    intro v a _
    simpa [polyHashAux] using ih _ _ (Nat.mod_lt _ h)

theorem hash1_lt {key : String} {size : Nat} (h : 0 < size) : hash1 key size < size :=
  polyHashAux_lt h _ 0 31417 h

theorem hash2_lt {key : String} {size : Nat} (h : 0 < size) : hash2 key size < size :=
  polyHashAux_lt h _ 0 31417 h

/-- One probe step on an empty slot: stop there, not found. -/
theorem probeLoop_step_none {arr : List (Option (String × α))} {key : String}
    {pos fuel : Nat} (he : arr.getD pos none = none) :
    probeLoop arr key pos (fuel + 1) = .ok (pos, false) := by
  rw [probeLoop, he]

/-- One probe step on a slot holding the key: stop there, found. -/
theorem probeLoop_step_match {arr : List (Option (String × α))} {key : String}
    {pos fuel : Nat} {e : String × α}
    (he : arr.getD pos none = some e) (hk : e.1 = key) :
    probeLoop arr key pos (fuel + 1) = .ok (pos, true) := by
  rw [probeLoop, he]
  simp [hk]

/-- One probe step on an occupied, mismatching slot: move on. -/
theorem probeLoop_step_mis {arr : List (Option (String × α))} {key : String}
    {pos fuel : Nat} {e : String × α}
    (he : arr.getD pos none = some e) (hk : e.1 ≠ key) (hf : fuel ≠ 0) :
    probeLoop arr key pos (fuel + 1) = probeLoop arr key ((pos + 1) % arr.length) fuel := by
  rw [probeLoop, he]
  simp [hk, hf]

/-- Shifting a mismatch path one step along the probe order. -/
theorem misPath_shift {arr : List (Option (String × α))} {key : String} {pos d : Nat}
    (h : misPath arr key pos (d + 1)) :
    misPath arr key ((pos + 1) % arr.length) d := by
  intro j hj
  rw [Nat.mod_add_mod, Nat.add_assoc, Nat.add_comm 1 j]
  exact h (j + 1) (Nat.succ_lt_succ hj)

/-- Extending a mismatch path by its occupied, mismatching start. -/
theorem misPath_cons {arr : List (Option (String × α))} {key : String} {pos d : Nat}
    {e : String × α}
    (hpos : pos < arr.length)
    (he : arr.getD pos none = some e) (hk : e.1 ≠ key)
    (h : misPath arr key ((pos + 1) % arr.length) d) :
    misPath arr key pos (d + 1) := by
  intro j hj
  cases j with
  | zero => exact ⟨e, by rw [Nat.add_zero, Nat.mod_eq_of_lt hpos]; exact he, hk⟩
  | succ j =>
    have := h j (Nat.lt_of_succ_lt_succ hj)
    rwa [Nat.mod_add_mod, Nat.add_assoc, Nat.add_comm 1 j] at this

/-- A successful probe characterised by its path: the landing slot is
`d` steps from the start, every slot strictly before it on the path is
occupied by a mismatching key, and the landing slot matches (`true`)
or is empty (`false`). -/
theorem probeLoop_ok_char {arr : List (Option (String × α))} {key : String}
    {fuel pos q : Nat} {b : Bool}
    (hpos : pos < arr.length)
    (h : probeLoop arr key pos fuel = .ok (q, b)) :
    ∃ d, d < fuel ∧ q = (pos + d) % arr.length ∧ misPath arr key pos d ∧
      (b = true → ∃ e, arr.getD q none = some e ∧ e.1 = key) ∧
      (b = false → arr.getD q none = none) := by
  induction fuel generalizing pos with
  | zero => exact absurd h (by simp [probeLoop])
  | succ fuel ih =>
    have h0 : 0 < arr.length := Nat.lt_of_le_of_lt (Nat.zero_le _) hpos
    rw [probeLoop] at h
    split at h
    next harr =>
      obtain ⟨hq, hb⟩ : pos = q ∧ false = b := by simpa using h
      refine ⟨0, Nat.succ_pos _, ?_, ?_, ?_, ?_⟩
      · rw [← hq, Nat.add_zero, Nat.mod_eq_of_lt hpos]
      · intro j hj; omega
      · intro hbt; rw [← hb] at hbt; cases hbt
      · intro _; rw [← hq]; exact harr
    next e harr =>
      split at h
      next hk =>
        obtain ⟨hq, hb⟩ : pos = q ∧ true = b := by simpa using h
        refine ⟨0, Nat.succ_pos _, ?_, ?_, ?_, ?_⟩
        · rw [← hq, Nat.add_zero, Nat.mod_eq_of_lt hpos]
        · intro j hj; omega
        · intro _; exact ⟨e, by rw [← hq]; exact harr, hk⟩
        · intro hbf; rw [← hb] at hbf; cases hbf
      next hk =>
        split at h
        next => cases h
        next hf =>
          obtain ⟨d, hd, hqd, hmis, hbt, hbf⟩ := ih (Nat.mod_lt _ h0) h
          refine ⟨d + 1, Nat.succ_lt_succ hd, ?_, misPath_cons hpos harr hk hmis, hbt, hbf⟩
          rw [hqd, Nat.mod_add_mod, Nat.add_assoc, Nat.add_comm 1 d]

/-- Building a successful probe from its path: `d` mismatching slots
followed by an empty slot land the probe there with `false`. -/
theorem probeLoop_of_char_none {arr : List (Option (String × α))} {key : String}
    {fuel pos d : Nat}
    (h0 : 0 < arr.length) (hpos : pos < arr.length) (hd : d < fuel)
    (hmis : misPath arr key pos d)
    (hend : arr.getD ((pos + d) % arr.length) none = none) :
    probeLoop arr key pos fuel = .ok ((pos + d) % arr.length, false) := by
  induction d generalizing pos fuel with
  | zero =>
    cases fuel with
    | zero => omega
    | succ fuel =>
      have hpe : (pos + 0) % arr.length = pos := by
        simp [Nat.mod_eq_of_lt hpos]
      rw [hpe] at hend ⊢
      exact probeLoop_step_none hend
  | succ d ih =>
    cases fuel with
    | zero => omega
    | succ fuel =>
      obtain ⟨e, he, hk⟩ := hmis 0 (Nat.succ_pos _)
      rw [Nat.add_zero, Nat.mod_eq_of_lt hpos] at he
      have hf : fuel ≠ 0 := by omega
      rw [probeLoop_step_mis he hk hf]
      have hend' : arr.getD (((pos + 1) % arr.length + d) % arr.length) none = none := by
        rwa [Nat.mod_add_mod, Nat.add_assoc, Nat.add_comm 1 d]
      have hdf : d < fuel := by omega
      have := ih (Nat.mod_lt _ h0) hdf (misPath_shift hmis) hend'
      rwa [Nat.mod_add_mod, Nat.add_assoc, Nat.add_comm 1 d] at this

/-- Building a successful probe from its path: `d` mismatching slots
followed by a slot holding the key land the probe there with `true`. -/
theorem probeLoop_of_char_found {arr : List (Option (String × α))} {key : String}
    {fuel pos d : Nat} {e : String × α}
    (h0 : 0 < arr.length) (hpos : pos < arr.length) (hd : d < fuel)
    (hmis : misPath arr key pos d)
    (hend : arr.getD ((pos + d) % arr.length) none = some e) (hkey : e.1 = key) :
    probeLoop arr key pos fuel = .ok ((pos + d) % arr.length, true) := by
  induction d generalizing pos fuel with
  | zero =>
    cases fuel with
    | zero => omega
    | succ fuel =>
      have hpe : (pos + 0) % arr.length = pos := by
        simp [Nat.mod_eq_of_lt hpos]
      rw [hpe] at hend ⊢
      exact probeLoop_step_match hend hkey
  | succ d ih =>
    cases fuel with
    | zero => omega
    | succ fuel =>
      obtain ⟨e0, he0, hk0⟩ := hmis 0 (Nat.succ_pos _)
      rw [Nat.add_zero, Nat.mod_eq_of_lt hpos] at he0
      have hf : fuel ≠ 0 := by omega
      rw [probeLoop_step_mis he0 hk0 hf]
      have hend' : arr.getD (((pos + 1) % arr.length + d) % arr.length) none = some e := by
        rwa [Nat.mod_add_mod, Nat.add_assoc, Nat.add_comm 1 d]
      have hdf : d < fuel := by omega
      have := ih (Nat.mod_lt _ h0) hdf (misPath_shift hmis) hend'
      rwa [Nat.mod_add_mod, Nat.add_assoc, Nat.add_comm 1 d] at this

/-- The landing slot of a successful probe is in range. -/
theorem probeLoop_ok_lt {arr : List (Option (String × α))} {key : String}
    {fuel pos q : Nat} {b : Bool}
    (hpos : pos < arr.length)
    (h : probeLoop arr key pos fuel = .ok (q, b)) : q < arr.length := by
  obtain ⟨d, _, hq, _, _, _⟩ := probeLoop_ok_char hpos h
  have h0 : 0 < arr.length := Nat.lt_of_le_of_lt (Nat.zero_le _) hpos
  rw [hq]; exact Nat.mod_lt _ h0

/-- A probe that finds its key lands on a slot holding that key. -/
theorem probeLoop_found_key {arr : List (Option (String × α))} {key : String}
    {fuel pos q : Nat}
    (hpos : pos < arr.length)
    (h : probeLoop arr key pos fuel = .ok (q, true)) :
    ∃ e, arr.getD q none = some e ∧ e.1 = key := by
  obtain ⟨_, _, _, _, hbt, _⟩ := probeLoop_ok_char hpos h
  exact hbt rfl

/-- A probe that stops at an empty slot lands on an empty slot. -/
theorem probeLoop_miss_none {arr : List (Option (String × α))} {key : String}
    {fuel pos q : Nat}
    (hpos : pos < arr.length)
    (h : probeLoop arr key pos fuel = .ok (q, false)) :
    arr.getD q none = none := by
  obtain ⟨_, _, _, _, _, hbf⟩ := probeLoop_ok_char hpos h
  exact hbf rfl

/-- One probe step on an occupied, mismatching slot with no fuel
remaining after it: the table-full error. -/
theorem probeLoop_step_full {arr : List (Option (String × α))} {key : String}
    {pos : Nat} {e : String × α}
    (he : arr.getD pos none = some e) (hk : e.1 ≠ key) :
    probeLoop arr key pos 1 = .error .fullError := by
  rw [probeLoop, he]
  simp [hk]

/-- Writing the probed key at the landing slot makes the probe find it
there. -/
theorem probeLoop_set_self {arr : List (Option (String × α))} {key : String}
    {fuel pos q : Nat} {b : Bool} {x : α}
    (hpos : pos < arr.length)
    (h : probeLoop arr key pos fuel = .ok (q, b)) :
    probeLoop (arr.set q (some (key, x))) key pos fuel = .ok (q, true) := by
  induction fuel generalizing pos with
  | zero => exact absurd h (by simp [probeLoop])
  | succ fuel ih =>
    have h0 : 0 < arr.length := Nat.lt_of_le_of_lt (Nat.zero_le _) hpos
    have hq : q < arr.length := probeLoop_ok_lt hpos h
    rw [probeLoop] at h
    split at h
    next harr =>
      obtain ⟨hqp, _⟩ : pos = q ∧ false = b := by simpa using h
      subst hqp
      exact probeLoop_step_match (getD_set_self hpos _ _) rfl
    next e harr =>
      split at h
      next hke =>
        obtain ⟨hqp, _⟩ : pos = q ∧ true = b := by simpa using h
        subst hqp
        exact probeLoop_step_match (getD_set_self hpos _ _) rfl
      next hke =>
        split at h
        next => cases h
        next hf =>
          by_cases hpq : pos = q
          · subst hpq
            exact probeLoop_step_match (getD_set_self hpos _ _) rfl
          · have he' : (arr.set q (some (key, x))).getD pos none = some e := by
              rw [getD_set_other (fun hh => hpq hh.symm) _ _, harr]
            rw [probeLoop_step_mis he' hke hf, List.length_set]
            exact ih (Nat.mod_lt _ h0) h

/-- Writing anything at an empty slot cannot disturb a probe that
finds its key. -/
theorem probeLoop_set_none {arr : List (Option (String × α))} {key : String}
    {fuel pos q r : Nat} {y : String × α}
    (h : probeLoop arr key pos fuel = .ok (q, true))
    (hr : arr.getD r none = none) :
    probeLoop (arr.set r (some y)) key pos fuel = .ok (q, true) := by
  induction fuel generalizing pos with
  | zero => exact absurd h (by simp [probeLoop])
  | succ fuel ih =>
    rw [probeLoop] at h
    split at h
    next harr => simp at h
    next e harr =>
      have hpr : pos ≠ r := fun hh => by rw [hh, hr] at harr; cases harr
      have he' : (arr.set r (some y)).getD pos none = some e := by
        rw [getD_set_other (fun hh => hpr hh.symm) _ _, harr]
      split at h
      next hke =>
        obtain ⟨hqp, _⟩ : pos = q ∧ true = true := by simpa using h
        subst hqp
        exact probeLoop_step_match he' hke
      next hke =>
        split at h
        next => cases h
        next hf =>
          rw [probeLoop_step_mis he' hke hf, List.length_set]
          exact ih h

/-- The probe result only depends on the keys of the slots. -/
theorem probeLoop_congr_keys {arr arr' : List (Option (String × α))} {key : String}
    (hlen : arr'.length = arr.length)
    (hk : ∀ p, (arr'.getD p none).map Prod.fst = (arr.getD p none).map Prod.fst) :
    ∀ fuel pos, probeLoop arr' key pos fuel = probeLoop arr key pos fuel := by
  intro fuel
  induction fuel with
  | zero => intro pos; rfl
  | succ fuel ih =>
    intro pos
    cases harr : arr.getD pos none with
    | none =>
      have harr' : arr'.getD pos none = none := by
        have := hk pos; rw [harr] at this
        cases hx : arr'.getD pos none with
        | none => rfl
        | some e => rw [hx] at this; cases this
      rw [probeLoop_step_none harr, probeLoop_step_none harr']
    | some e =>
      have := hk pos; rw [harr] at this
      cases hx : arr'.getD pos none with
      | none => rw [hx] at this; cases this
      | some e' =>
        rw [hx] at this
        have hkey : e'.1 = e.1 := by simpa using this
        by_cases hke : e.1 = key
        · rw [probeLoop_step_match harr hke, probeLoop_step_match hx (hkey.trans hke)]
        · have hke' : e'.1 ≠ key := fun hh => hke (hkey ▸ hh)
          by_cases hf : fuel = 0
          · subst hf
            rw [probeLoop_step_full harr hke, probeLoop_step_full hx hke']
          · rw [probeLoop_step_mis harr hke hf, probeLoop_step_mis hx hke' hf, hlen, ih]

/-- Overwriting a slot with an entry of the same key does not change
any probe. -/
theorem probeLoop_set_keyEq {arr : List (Option (String × α))} {key : String}
    {r : Nat} {eold : String × α} {x : α}
    (hr : arr.getD r none = some eold) :
    ∀ fuel pos, probeLoop (arr.set r (some (eold.1, x))) key pos fuel =
      probeLoop arr key pos fuel := by
  have hrlt : r < arr.length := by
    by_contra hge
    rw [getD_none_of_ge (Nat.le_of_not_lt hge) _] at hr; cases hr
  refine probeLoop_congr_keys (List.length_set _ _ _) ?_
  intro p
  by_cases hp : r = p
  · rw [← hp, getD_set_self hrlt _ _, hr]
    rfl
  · rw [getD_set_other hp _ _]

/-- Any write at the landing slot of some probe preserves every
successful "found" probe for any key: the write happens either at an
empty slot (which no found-probe crosses) or at a slot whose key it
keeps. -/
theorem probe_facts_mono {arr : List (Option (String × α))} {key key' : String}
    {fuel fuel' pos pos' q q' : Nat} {b : Bool} {x : α}
    (hpos : pos < arr.length)
    (hw : probeLoop arr key pos fuel = .ok (q, b))
    (hfact : probeLoop arr key' pos' fuel' = .ok (q', true)) :
    probeLoop (arr.set q (some (key, x))) key' pos' fuel' = .ok (q', true) := by
  cases b with
  | false => exact probeLoop_set_none hfact (probeLoop_miss_none hpos hw)
  | true =>
    obtain ⟨e, he, hk⟩ := probeLoop_found_key hpos hw
    rw [← hk]
    rw [probeLoop_set_keyEq he]
    exact hfact

/-- Counting occupied slots after overwriting an already occupied
slot: unchanged. -/
theorem countP_isSome_set_some {γ : Type} {l : List (Option γ)} {pos : Nat} {y e : γ}
    (h : l.getD pos none = some e) :
    (l.set pos (some y)).countP (fun s => s.isSome) = l.countP (fun s => s.isSome) := by
  induction l generalizing pos with
  | nil => simp [List.getD] at h
  | cons a rest ih =>
    cases pos with
    | zero =>
      have ha : a = some e := by simpa [List.getD] using h
      subst ha
      simp [List.countP_cons]
    | succ pos =>
      have h' : rest.getD pos none = some e := by simpa [List.getD] using h
      simp [List.countP_cons, ih h']

/-- Counting occupied slots after filling an empty slot: one more. -/
theorem countP_isSome_set_none {γ : Type} {l : List (Option γ)} {pos : Nat} {y : γ}
    (hpos : pos < l.length) (h : l.getD pos none = none) :
    (l.set pos (some y)).countP (fun s => s.isSome) = l.countP (fun s => s.isSome) + 1 := by
  induction l generalizing pos with
  | nil => simp at hpos
  | cons a rest ih =>
    cases pos with
    | zero =>
      have ha : a = none := by simpa [List.getD] using h
      subst ha
      simp [List.countP_cons]
    | succ pos =>
      have h' : rest.getD pos none = none := by simpa [List.getD] using h
      have := ih (Nat.lt_of_succ_lt_succ hpos) h'
      simp [List.countP_cons, this]
      omega

/-- Unfolding a successful non-insert `_linear_probe`: both probes
found their keys, and the state is untouched. -/
theorem linearProbe_lookup_decomp {t : DoubleKeyTable V} {k1 k2 : String}
    {t' : DoubleKeyTable V} {p1 p2 : Nat}
    (h : linearProbe t k1 k2 false = .ok (t', p1, p2)) :
    t' = t ∧
    probeLoop t.array k1 (hash1 k1 t.array.length) t.array.length = .ok (p1, true) ∧
    ∃ e, t.array.getD p1 none = some e ∧ e.1 = k1 ∧
      probeLoop e.2.array k2 (hash2 k2 e.2.array.length) e.2.array.length = .ok (p2, true) ∧
      ∃ p, e.2.array.getD p2 none = some p ∧ p.1 = k2 := by
  unfold linearProbe at h
  split at h
  next => cases h
  next p1x b1 hp1 =>
    cases b1 with
    | false => rw [if_pos (by simp)] at h; cases h
    | true =>
      rw [if_neg (by simp)] at h
      simp only [Bool.false_eq_true, Bool.true_eq_false, false_and, and_false,
        if_false, not_true] at h
      split at h
      next => cases h
      next k1s sub he =>
        split at h
        next => cases h
        next p2x b2 hp2 =>
          cases b2 with
          | false => rw [if_pos (by simp)] at h; cases h
          | true =>
            rw [if_neg (by simp)] at h
            obtain ⟨ht, hpp1, hpp2⟩ : t = t' ∧ p1x = p1 ∧ p2x = p2 := by
              simpa using h
            subst ht; subst hpp1; subst hpp2
            have h0 : 0 < t.array.length := by
              by_contra hz
              have hzz : t.array.length = 0 := by omega
              rw [hzz] at hp1
              simp [probeLoop] at hp1
            obtain ⟨e1, he1, hk1⟩ := probeLoop_found_key (hash1_lt h0) hp1
            rw [he] at he1
            obtain rfl : e1 = (k1s, sub) := by cases he1; rfl
            have h0i : 0 < sub.array.length := by
              by_contra hz
              have hzz : sub.array.length = 0 := by omega
              rw [hzz] at hp2
              simp [probeLoop] at hp2
            obtain ⟨p, hp, hpk⟩ := probeLoop_found_key (hash2_lt h0i) hp2
            exact ⟨rfl, hp1, (k1s, sub), he, hk1, hp2, p, hp, hpk⟩

/-- Rebuilding a successful lookup from the invariant facts. -/
theorem getItem_ok_intro {t : DoubleKeyTable V} {k1 k2 : String} {q s : Nat}
    {e : String × LinearProbeTable V} {p : String × V}
    (hq : t.array.getD q none = some e) (hk1 : e.1 = k1)
    (hfo : foundOuter t.array k1 q)
    (hfi : foundInner e.2.array k2 s)
    (hp : e.2.array.getD s none = some p) (hk2 : p.1 = k2) :
    getItem t k1 k2 = .ok p.2 := by
  obtain ⟨k1s, sub⟩ := e
  obtain ⟨k2s, w⟩ := p
  unfold foundOuter at hfo
  unfold foundInner at hfi
  dsimp only at hq hk1 hfi hp hk2 ⊢
  unfold getItem linearProbe
  rw [hfo]
  simp only [Bool.false_eq_true, Bool.true_eq_false, false_and, and_false, not_true,
    if_false]
  rw [hq]
  dsimp only
  rw [hfi]
  simp only [Bool.false_eq_true, Bool.true_eq_false, false_and, and_false, not_true,
    if_false]
  rw [hq]
  dsimp only
  rw [hp]

/-- A slot read by `getD` is a member of the list. -/
theorem getD_some_mem {γ : Type} {l : List (Option γ)} {s : Nat} {p : γ}
    (h : l.getD s none = some p) : some p ∈ l := by
  have hlt : s < l.length := by
    by_contra hge
    rw [getD_none_of_ge (Nat.le_of_not_lt hge) _] at h; cases h
  have : l.get? s = some (some p) := by
    have hg : l.get? s = some (l.get ⟨s, hlt⟩) := List.get?_eq_get hlt
    rw [hg]
    rw [List.getD, hg] at h
    simpa using h
  exact List.get?_mem this

/-- An array with fewer occupied slots than slots has an empty slot. -/
theorem exists_none_slot {γ : Type} {l : List (Option γ)}
    (h : l.countP (fun s => s.isSome) < l.length) :
    ∃ r, r < l.length ∧ l.getD r none = none := by
  induction l with
  | nil => simp at h
  | cons a rest ih =>
    cases a with
    | none => exact ⟨0, by simp, by simp [List.getD]⟩
    | some x =>
      simp only [List.countP_cons, List.length_cons] at h
      obtain ⟨r, hr, hg⟩ := ih (by simpa using Nat.lt_of_succ_lt_succ (by simpa using h))
      exact ⟨r + 1, Nat.succ_lt_succ hr, by simpa [List.getD] using hg⟩

/-- With an empty slot somewhere, a full-length probe always succeeds
(it can scan the whole array, so it reaches an empty slot or a match
before running out). -/
theorem probe_total {arr : List (Option (String × α))} {key : String} {pos r : Nat}
    (hpos : pos < arr.length) (hr : r < arr.length) (hnone : arr.getD r none = none) :
    ∃ q b, probeLoop arr key pos arr.length = .ok (q, b) := by
  have h0 : 0 < arr.length := Nat.lt_of_le_of_lt (Nat.zero_le _) hpos
  have hex : ∃ j, Option.all (fun e => e.1 == key)
      (arr.getD ((pos + j) % arr.length) none) = true := by
    refine ⟨(arr.length + r - pos) % arr.length, ?_⟩
    have hpr : (pos + (arr.length + r - pos) % arr.length) % arr.length = r := by
      rw [Nat.add_mod_mod]
      have h1 : pos + (arr.length + r - pos) = arr.length + r := by omega
      rw [h1, Nat.add_mod_left, Nat.mod_eq_of_lt hr]
    rw [hpr, hnone]
    rfl
  classical
  let d := Nat.find hex
  have hd : Option.all (fun e => e.1 == key)
      (arr.getD ((pos + d) % arr.length) none) = true := Nat.find_spec hex
  have hdle : d ≤ (arr.length + r - pos) % arr.length := Nat.find_min' hex (by
    have hpr : (pos + (arr.length + r - pos) % arr.length) % arr.length = r := by
      rw [Nat.add_mod_mod]
      have h1 : pos + (arr.length + r - pos) = arr.length + r := by omega
      rw [h1, Nat.add_mod_left, Nat.mod_eq_of_lt hr]
    rw [hpr, hnone]
    rfl)
  have hdn : d < arr.length := Nat.lt_of_le_of_lt hdle (Nat.mod_lt _ h0)
  have hmis : misPath arr key pos d := by
    intro j hj
    have hnp := Nat.find_min hex hj
    cases hj' : arr.getD ((pos + j) % arr.length) none with
    | none => rw [hj'] at hnp; exact absurd rfl hnp
    | some e =>
      rw [hj'] at hnp
      refine ⟨e, rfl, ?_⟩
      intro hk
      exact hnp (by simpa using hk)
  cases hend : arr.getD ((pos + d) % arr.length) none with
  | none =>
    exact ⟨_, false, probeLoop_of_char_none h0 hpos hdn hmis hend⟩
  | some e =>
    rw [hend] at hd
    have hk : e.1 = key := by simpa using hd
    exact ⟨_, true, probeLoop_of_char_found h0 hpos hdn hmis hend hk⟩

/-- Unfolding a successful `__getitem__` into the probe facts it
establishes. -/
theorem getItem_ok_decomp {t : DoubleKeyTable V} {k1 k2 : String} {v : V}
    (h : getItem t k1 k2 = .ok v) :
    ∃ q e s p, t.array.getD q none = some e ∧ e.1 = k1 ∧ foundOuter t.array k1 q ∧
      foundInner e.2.array k2 s ∧ e.2.array.getD s none = some p ∧ p.1 = k2 ∧ p.2 = v := by
  unfold getItem at h
  split at h
  next => cases h
  next tr p1 p2 hlp =>
    obtain ⟨_, hfo, e, he, hk1, hfi, p, hp, hpk⟩ := linearProbe_lookup_decomp hlp
    rw [he] at h
    obtain ⟨k1s, sub⟩ := e
    dsimp only at h hfi hp ⊢
    rw [hp] at h
    obtain ⟨k2s, w⟩ := p
    dsimp only at h hpk ⊢
    have hv : w = v := by simpa using h
    exact ⟨p1, (k1s, sub), p2, (k2s, w), he, hk1, hfo, hfi, hp, hpk, hv⟩

/-- A lookup whose outer probe stops at an empty slot raises
`KeyError`. -/
theorem getItem_keyError_of_outer_miss {t : DoubleKeyTable V} {k1 k2 : String} {q : Nat}
    (hfo : probeLoop t.array k1 (hash1 k1 t.array.length) t.array.length = .ok (q, false)) :
    getItem t k1 k2 = .error .keyError := by
  unfold getItem linearProbe
  rw [hfo]
  simp

/-- A lookup whose outer probe finds its key but whose inner probe
stops at an empty slot raises `KeyError`. -/
theorem getItem_keyError_of_inner_miss {t : DoubleKeyTable V} {k1 k2 : String} {q s : Nat}
    {e : String × LinearProbeTable V}
    (hq : t.array.getD q none = some e)
    (hfo : probeLoop t.array k1 (hash1 k1 t.array.length) t.array.length = .ok (q, true))
    (hfi : probeLoop e.2.array k2 (hash2 k2 e.2.array.length) e.2.array.length =
      .ok (s, false)) :
    getItem t k1 k2 = .error .keyError := by
  obtain ⟨k1s, sub⟩ := e
  dsimp only at hfi
  unfold getItem linearProbe
  rw [hfo]
  simp only [Bool.false_eq_true, Bool.true_eq_false, false_and, and_false, not_true,
    if_false]
  rw [hq]
  dsimp only
  rw [hfi]
  simp

/-- Unfolding a successful insert-mode `_linear_probe`. -/
theorem linearProbe_insert_decomp {t : DoubleKeyTable V} {k1 k2 : String}
    {t1 : DoubleKeyTable V} {p1 p2 : Nat}
    (h : linearProbe t k1 k2 true = .ok (t1, p1, p2)) :
    ∃ b1, probeLoop t.array k1 (hash1 k1 t.array.length) t.array.length = .ok (p1, b1) ∧
      (b1 = true → t1 = t) ∧
      (b1 = false → t.array.getD p1 none = none ∧
        t1 = { t with
               array := t.array.set p1 (some (k1, LinearProbeTable.mk0 t.internal_sizes)) }) ∧
      ∃ e b2, t1.array.getD p1 none = some e ∧ e.1 = k1 ∧
        probeLoop e.2.array k2 (hash2 k2 e.2.array.length) e.2.array.length = .ok (p2, b2) ∧
        (b2 = true → ∃ p, e.2.array.getD p2 none = some p ∧ p.1 = k2) ∧
        (b2 = false → e.2.array.getD p2 none = none) := by
  unfold linearProbe at h
  split at h
  next => cases h
  next p1x b1 hp1 =>
    have h0 : 0 < t.array.length := by
      by_contra hz
      have hzz : t.array.length = 0 := by omega
      rw [hzz] at hp1
      simp [probeLoop] at hp1
    rw [if_neg (by simp)] at h
    cases b1 with
    | true =>
      simp only [Bool.true_eq_false, and_false, not_true, true_and, false_and,
        if_false] at h
      split at h
      next => cases h
      next k1s sub he =>
        split at h
        next => cases h
        next p2x b2 hp2 =>
          obtain ⟨ht, hpp1, hpp2⟩ : t = t1 ∧ p1x = p1 ∧ p2x = p2 := by simpa using h
          subst ht; subst hpp1; subst hpp2
          obtain ⟨e1, he1, hk1⟩ := probeLoop_found_key (hash1_lt h0) hp1
          rw [he] at he1
          obtain rfl : e1 = (k1s, sub) := by cases he1; rfl
          refine ⟨true, hp1, fun _ => rfl, ?_, (k1s, sub), b2, he, hk1,
            hp2, ?_, ?_⟩
          · intro hf; cases hf
          · intro hb2
            subst hb2
            have h0i : 0 < sub.array.length := by
              by_contra hz
              have hzz : sub.array.length = 0 := by omega
              rw [hzz] at hp2
              simp [probeLoop] at hp2
            exact probeLoop_found_key (hash2_lt h0i) hp2
          · intro hb2
            subst hb2
            have h0i : 0 < sub.array.length := by
              by_contra hz
              have hzz : sub.array.length = 0 := by omega
              rw [hzz] at hp2
              simp [probeLoop] at hp2
            exact probeLoop_miss_none (hash2_lt h0i) hp2
    | false =>
      simp only [Bool.false_eq_true, not_false_eq_true, true_and, and_true,
        if_true] at h
      have hnone : t.array.getD p1x none = none := probeLoop_miss_none (hash1_lt h0) hp1
      have hlt : p1x < t.array.length := probeLoop_ok_lt (hash1_lt h0) hp1
      set tnew : DoubleKeyTable V :=
        { t with array := t.array.set p1x (some (k1, LinearProbeTable.mk0 t.internal_sizes)) }
        with htnew
      have hget : tnew.array.getD p1x none =
          some (k1, LinearProbeTable.mk0 t.internal_sizes) := by
        rw [htnew]
        exact getD_set_self hlt _ _
      rw [hget] at h
      simp only [Bool.false_eq_true, Bool.true_eq_false, false_and, and_false, if_false,
        not_true] at h
      split at h
      next => cases h
      next p2x b2 hp2 =>
        obtain ⟨ht, hpp1, hpp2⟩ : tnew = t1 ∧ p1x = p1 ∧ p2x = p2 := by simpa using h
        subst ht; subst hpp1; subst hpp2
        refine ⟨false, hp1, ?_, fun _ => ⟨hnone, rfl⟩,
          (k1, LinearProbeTable.mk0 t.internal_sizes), b2, hget, rfl, hp2, ?_, ?_⟩
        · intro hf; cases hf
        · intro hb2
          subst hb2
          have h0i : 0 < (LinearProbeTable.mk0 (V := V) t.internal_sizes).array.length := by
            by_contra hz
            have hzz : (LinearProbeTable.mk0 (V := V) t.internal_sizes).array.length = 0 := by
              omega
            rw [hzz] at hp2
            simp [probeLoop] at hp2
          exact probeLoop_found_key (hash2_lt h0i) hp2
        · intro hb2
          subst hb2
          have h0i : 0 < (LinearProbeTable.mk0 (V := V) t.internal_sizes).array.length := by
            by_contra hz
            have hzz : (LinearProbeTable.mk0 (V := V) t.internal_sizes).array.length = 0 := by
              omega
            rw [hzz] at hp2
            simp [probeLoop] at hp2
          exact probeLoop_miss_none (hash2_lt h0i) hp2

/-- Unfolding a successful inner-table set. -/
theorem innerSetItem_ok_decomp {sub : LinearProbeTable V} {k2 : String} {v : V}
    {sub' : LinearProbeTable V}
    (h : sub.setItem k2 v = .ok sub') :
    ∃ pos b, probeLoop sub.array k2 (hash2 k2 sub.array.length) sub.array.length =
        .ok (pos, b) ∧
      sub' = { sub with
               array := sub.array.set pos (some (k2, v)),
               count := if b then sub.count else sub.count + 1 } := by
  unfold LinearProbeTable.setItem at h
  split at h
  next => cases h
  next pos b hp =>
    refine ⟨pos, b, hp, ?_⟩
    cases b <;> simpa using h.symm

/-- Unfolding one step of a successful `__setitem__`. -/
theorem setItem_succ_decomp {fuel : Nat} {t : DoubleKeyTable V} {k1 k2 : String} {v : V}
    {t' : DoubleKeyTable V}
    (h : setItem (fuel + 1) t k1 k2 v = .ok t') :
    ∃ t1 p1 p2 e sub1,
      linearProbe t k1 k2 true = .ok (t1, p1, p2) ∧
      t1.array.getD p1 none = some e ∧
      e.2.setItem k2 v = .ok sub1 ∧
      ((2 * (if e.2.count = 0 then t1.count + 1 else t1.count) ≤
          ((t1.array.set p1 (some (e.1, sub1))).length : Int) ∧
        t' = { t1 with
               array := t1.array.set p1 (some (e.1, sub1)),
               count := if e.2.count = 0 then t1.count + 1 else t1.count }) ∨
       (2 * (if e.2.count = 0 then t1.count + 1 else t1.count) >
          ((t1.array.set p1 (some (e.1, sub1))).length : Int) ∧
        rehash fuel
          { t1 with
            array := t1.array.set p1 (some (e.1, sub1)),
            count := if e.2.count = 0 then t1.count + 1 else t1.count } = .ok t')) := by
  rw [setItem] at h
  split at h
  next ep tp => cases h
  next t1 p1 p2 hlp =>
    split at h
    next hnone => cases h
    next k1s sub he =>
      dsimp only at h
      set newC : Int := if sub.count = 0 then t1.count + 1 else t1.count with hnewC
      split at h
      next errv hserr => cases h
      next sub1 hs =>
        refine ⟨t1, p1, p2, (k1s, sub), sub1, hlp, he, hs, ?_⟩
        dsimp only
        rw [← hnewC]
        split at h
        next hcond =>
          right
          exact ⟨by simpa using hcond, by simpa using h⟩
        next hcond =>
          left
          exact ⟨by simpa using Int.not_lt.mp (by simpa using hcond), by simpa using h.symm⟩

/-- Core facts shared by the analyses of one `__setitem__` step: what
`_linear_probe` and the inner set did, before the rehash check. -/
theorem setStep_core {t t1 : DoubleKeyTable V} {k1 k2 : String} {v : V}
    {p1 p2 : Nat} {e : String × LinearProbeTable V} {sub1 : LinearProbeTable V}
    (hlp : linearProbe t k1 k2 true = .ok (t1, p1, p2))
    (he : t1.array.getD p1 none = some e)
    (hs : e.2.setItem k2 v = .ok sub1) :
    0 < t.array.length ∧ p1 < t.array.length ∧ e.1 = k1 ∧
    t1.array.length = t.array.length ∧
    t1.TABLE_SIZES = t.TABLE_SIZES ∧ t1.internal_sizes = t.internal_sizes ∧
    t1.size_index = t.size_index ∧ t1.count = t.count ∧
    ((t1 = t ∧
        probeLoop t.array k1 (hash1 k1 t.array.length) t.array.length = .ok (p1, true)) ∨
     (t.array.getD p1 none = none ∧
        t1 = { t with
               array := t.array.set p1 (some (k1, LinearProbeTable.mk0 t.internal_sizes)) } ∧
        probeLoop t.array k1 (hash1 k1 t.array.length) t.array.length = .ok (p1, false) ∧
        e = (k1, LinearProbeTable.mk0 t.internal_sizes))) ∧
    ∃ pos binner,
      probeLoop e.2.array k2 (hash2 k2 e.2.array.length) e.2.array.length =
        .ok (pos, binner) ∧
      pos < e.2.array.length ∧
      (binner = true → ∃ p, e.2.array.getD pos none = some p ∧ p.1 = k2) ∧
      (binner = false → e.2.array.getD pos none = none) ∧
      sub1 = { e.2 with
               array := e.2.array.set pos (some (k2, v)),
               count := if binner then e.2.count else e.2.count + 1 } := by
  obtain ⟨b1, hp1, hb1t, hb1f, e', b2, he', hk1', hp2, hb2t, hb2f⟩ :=
    linearProbe_insert_decomp hlp
  have h0 : 0 < t.array.length := by
    by_contra hz
    have hzz : t.array.length = 0 := by omega
    rw [hzz] at hp1
    simp [probeLoop] at hp1
  have hp1lt : p1 < t.array.length := probeLoop_ok_lt (hash1_lt h0) hp1
  have hee : e = e' := by
    rw [he] at he'
    cases he'; rfl
  subst hee
  obtain ⟨pos, binner, hip, hsub⟩ := innerSetItem_ok_decomp hs
  have h0i : 0 < e.2.array.length := by
    by_contra hz
    have hzz : e.2.array.length = 0 := by omega
    rw [hzz] at hip
    simp [probeLoop] at hip
  have hposlt : pos < e.2.array.length := probeLoop_ok_lt (hash2_lt h0i) hip
  have hipt : binner = true → ∃ p, e.2.array.getD pos none = some p ∧ p.1 = k2 := by
    intro hb; subst hb
    exact probeLoop_found_key (hash2_lt h0i) hip
  have hipf : binner = false → e.2.array.getD pos none = none := by
    intro hb; subst hb
    exact probeLoop_miss_none (hash2_lt h0i) hip
  cases b1 with
  | true =>
    have ht1 : t1 = t := hb1t rfl
    subst ht1
    exact ⟨h0, hp1lt, hk1', rfl, rfl, rfl, rfl, rfl, Or.inl ⟨rfl, hp1⟩,
      pos, binner, hip, hposlt, hipt, hipf, hsub⟩
  | false =>
    obtain ⟨hnone, ht1⟩ := hb1f rfl
    have hlen : t1.array.length = t.array.length := by
      rw [ht1]
      exact List.length_set _ _ _
    have hmeta : t1.TABLE_SIZES = t.TABLE_SIZES ∧ t1.internal_sizes = t.internal_sizes ∧
        t1.size_index = t.size_index ∧ t1.count = t.count := by
      rw [ht1]
      exact ⟨rfl, rfl, rfl, rfl⟩
    have hemk : e = (k1, LinearProbeTable.mk0 t.internal_sizes) := by
      have : t1.array.getD p1 none = some (k1, LinearProbeTable.mk0 t.internal_sizes) := by
        rw [ht1]
        exact getD_set_self hp1lt _ _
      rw [he] at this
      cases this; rfl
    exact ⟨h0, hp1lt, hk1', hlen, hmeta.1, hmeta.2.1, hmeta.2.2.1, hmeta.2.2.2,
      Or.inr ⟨hnone, ht1, hp1, hemk⟩, pos, binner, hip, hposlt, hipt, hipf, hsub⟩

section SetStepEffects

variable {t t1 : DoubleKeyTable V} {k1 k2 : String} {v : V}
  {p1 p2 : Nat} {e : String × LinearProbeTable V} {sub1 : LinearProbeTable V}

/-- Shape and count bookkeeping of the pre-rehash insert state. -/
theorem setStep_meta
    (hlp : linearProbe t k1 k2 true = .ok (t1, p1, p2))
    (he : t1.array.getD p1 none = some e)
    (hs : e.2.setItem k2 v = .ok sub1) :
    (setStepState t1 p1 e sub1).array.length = t.array.length ∧
    (setStepState t1 p1 e sub1).TABLE_SIZES = t.TABLE_SIZES ∧
    (setStepState t1 p1 e sub1).internal_sizes = t.internal_sizes ∧
    (setStepState t1 p1 e sub1).size_index = t.size_index ∧
    (setStepState t1 p1 e sub1).count =
      (if e.2.count = 0 then t.count + 1 else t.count) := by
  obtain ⟨h0, hp1lt, hek1, hlen, hts, his, hsi, hcnt, hcases, pos, binner, hip, hposlt,
    hipt, hipf, hsub⟩ := setStep_core hlp he hs
  refine ⟨?_, hts, his, hsi, ?_⟩
  · show (t1.array.set p1 (some (e.1, sub1))).length = t.array.length
    rw [List.length_set]
    exact hlen
  · show (if e.2.count = 0 then t1.count + 1 else t1.count) = _
    rw [hcnt]

/-- After the insert step, the outer probe finds `k1` at `p1`, whose
slot holds the updated inner table. -/
theorem setStep_found
    (hlp : linearProbe t k1 k2 true = .ok (t1, p1, p2))
    (he : t1.array.getD p1 none = some e)
    (hs : e.2.setItem k2 v = .ok sub1) :
    foundOuter (setStepState t1 p1 e sub1).array k1 p1 ∧
    (setStepState t1 p1 e sub1).array.getD p1 none = some (e.1, sub1) := by
  obtain ⟨h0, hp1lt, hek1, hlen, hts, his, hsi, hcnt, hcases, pos, binner, hip, hposlt,
    hipt, hipf, hsub⟩ := setStep_core hlp he hs
  have hp1lt1 : p1 < t1.array.length := by rw [hlen]; exact hp1lt
  constructor
  · show probeLoop ((setStepState t1 p1 e sub1).array) k1
      (hash1 k1 (setStepState t1 p1 e sub1).array.length)
      (setStepState t1 p1 e sub1).array.length = .ok (p1, true)
    have harr : (setStepState t1 p1 e sub1).array = t1.array.set p1 (some (e.1, sub1)) :=
      rfl
    rw [harr, List.length_set, hlen]
    rw [probeLoop_set_keyEq (x := sub1) he]
    rcases hcases with ⟨ht1, hp1⟩ | ⟨hnone, ht1, hp1, hemk⟩
    · rw [ht1]
      exact hp1
    · rw [ht1]
      exact probeLoop_set_self (hash1_lt h0) hp1
  · show (t1.array.set p1 (some (e.1, sub1))).getD p1 none = some (e.1, sub1)
    exact getD_set_self hp1lt1 _ _

/-- After the insert step, looking the new pair up returns its value. -/
theorem setStep_get
    (hlp : linearProbe t k1 k2 true = .ok (t1, p1, p2))
    (he : t1.array.getD p1 none = some e)
    (hs : e.2.setItem k2 v = .ok sub1) :
    getItem (setStepState t1 p1 e sub1) k1 k2 = .ok v := by
  obtain ⟨h0, hp1lt, hek1, hlen, hts, his, hsi, hcnt, hcases, pos, binner, hip, hposlt,
    hipt, hipf, hsub⟩ := setStep_core hlp he hs
  obtain ⟨hfo, hslot⟩ := setStep_found hlp he hs
  have hfi : foundInner sub1.array k2 pos := by
    show probeLoop _ k2 _ _ = _
    have harr : sub1.array = e.2.array.set pos (some (k2, v)) := by rw [hsub]
    rw [harr, List.length_set]
    exact probeLoop_set_self (hash2_lt (Nat.lt_of_le_of_lt (Nat.zero_le _) hposlt)) hip
  have hgd : sub1.array.getD pos none = some (k2, v) := by
    rw [hsub]
    exact getD_set_self hposlt _ _
  exact getItem_ok_intro hslot hek1 hfo hfi hgd rfl

/-- Every outer probe fact survives the insert step. -/
theorem setStep_factsOuterMono
    (hlp : linearProbe t k1 k2 true = .ok (t1, p1, p2))
    (he : t1.array.getD p1 none = some e)
    (hs : e.2.setItem k2 v = .ok sub1) :
    ∀ κ q, foundOuter t.array κ q → foundOuter (setStepState t1 p1 e sub1).array κ q := by
  obtain ⟨h0, hp1lt, hek1, hlen, hts, his, hsi, hcnt, hcases, pos, binner, hip, hposlt,
    hipt, hipf, hsub⟩ := setStep_core hlp he hs
  intro κ q hq
  show probeLoop _ κ _ _ = _
  have harr : (setStepState t1 p1 e sub1).array = t1.array.set p1 (some (e.1, sub1)) :=
    rfl
  rw [harr, List.length_set, hlen]
  rw [probeLoop_set_keyEq (x := sub1) he]
  rcases hcases with ⟨ht1, _⟩ | ⟨hnone, ht1, hp1m, hemk⟩
  · rw [ht1]
    exact hq
  · rw [ht1]
    exact probeLoop_set_none hq hnone

/-- Every other pair that was retrievable stays retrievable with its
value across the insert step. -/
theorem setStep_okpres
    (hlp : linearProbe t k1 k2 true = .ok (t1, p1, p2))
    (he : t1.array.getD p1 none = some e)
    (hs : e.2.setItem k2 v = .ok sub1) :
    ∀ a b w, getItem t a b = .ok w → ¬(a = k1 ∧ b = k2) →
      getItem (setStepState t1 p1 e sub1) a b = .ok w := by
  obtain ⟨h0, hp1lt, hek1, hlen, hts, his, hsi, hcnt, hcases, pos, binner, hip, hposlt,
    hipt, hipf, hsub⟩ := setStep_core hlp he hs
  have h0i : 0 < e.2.array.length := Nat.lt_of_le_of_lt (Nat.zero_le _) hposlt
  obtain ⟨hfo1, hslot1⟩ := setStep_found hlp he hs
  intro a b w hget hne
  obtain ⟨q, e', s, p, hq, hk1', hfo, hfi, hp, hpk, hpv⟩ := getItem_ok_decomp hget
  have hfo2 : foundOuter (setStepState t1 p1 e sub1).array a q :=
    setStep_factsOuterMono hlp he hs a q hfo
  by_cases hak : a = k1
  · rw [hak] at hk1' hfo hfo2 ⊢
    have hbk : b ≠ k2 := fun hb => hne ⟨hak, hb⟩
    rcases hcases with ⟨ht1, hp1⟩ | ⟨hnone, ht1, hp1, hemk⟩
    · have hfo' : probeLoop t.array k1 (hash1 k1 t.array.length) t.array.length =
          .ok (q, true) := hfo
      have hqp : p1 = q := by
        have := hp1.symm.trans hfo'
        simpa using this
      subst hqp
      have hee : e = e' := by
        rw [ht1] at he
        rw [he] at hq
        exact Option.some.inj hq
      subst hee
      have hfi2 : foundInner sub1.array b s := by
        show probeLoop _ b _ _ = _
        have harr : sub1.array = e.2.array.set pos (some (k2, v)) := by rw [hsub]
        rw [harr, List.length_set]
        exact probe_facts_mono (hash2_lt h0i) hip hfi
      have hsne : s ≠ pos := by
        intro hsp
        subst hsp
        cases binner with
        | true =>
          obtain ⟨pk, hpkq, hpkk⟩ := hipt rfl
          rw [hp] at hpkq
          cases hpkq
          exact hbk (hpk ▸ hpkk)
        | false =>
          have := hipf rfl
          rw [hp] at this
          cases this
      have hgd : sub1.array.getD s none = some p := by
        rw [hsub]
        show (e.2.array.set pos (some (k2, v))).getD s none = some p
        rw [getD_set_other (fun hh => hsne hh.symm) _ _]
        exact hp
      have := getItem_ok_intro hslot1 hek1 hfo1 hfi2 hgd hpk
      rw [hpv] at this
      exact this
    · have hfo' : probeLoop t.array k1 (hash1 k1 t.array.length) t.array.length =
          .ok (q, true) := hfo
      have := hp1.symm.trans hfo'
      simp at this
  · have hqne : q ≠ p1 := by
      intro hq2
      subst hq2
      rcases hcases with ⟨ht1, hp1⟩ | ⟨hnone, ht1, hp1, hemk⟩
      · rw [ht1] at he
        rw [he] at hq
        cases hq
        exact hak (hk1' ▸ hek1)
      · rw [hnone] at hq
        cases hq
    have hslotq : (setStepState t1 p1 e sub1).array.getD q none = some e' := by
      show (t1.array.set p1 (some (e.1, sub1))).getD q none = some e'
      rw [getD_set_other (fun hh => hqne hh.symm) _ _]
      rcases hcases with ⟨ht1, _⟩ | ⟨hnone, ht1, _, _⟩
      · rw [ht1]
        exact hq
      · rw [ht1]
        show (t.array.set p1 (some (k1, LinearProbeTable.mk0 t.internal_sizes))).getD
          q none = some e'
        rw [getD_set_other (fun hh => hqne hh.symm) _ _]
        exact hq
    have := getItem_ok_intro hslotq hk1' hfo2 hfi hp hpk
    rw [hpv] at this
    exact this

end SetStepEffects

/-- Reading any slot of an all-empty array. -/
theorem getD_replicate_none {γ : Type} {n i : Nat} :
    (List.replicate n (none : Option γ)).getD i none = none := by
  rcases Nat.lt_or_ge i n with h | h
  · simp [List.getD, List.getElem?_replicate, h]
  · exact getD_none_of_ge (by simpa using h) _

/-- An all-empty array has no occupied slots. -/
theorem countP_isSome_replicate {γ : Type} (n : Nat) :
    (List.replicate n (none : Option γ)).countP (fun s => s.isSome) = 0 := by
  induction n with
  | zero => rfl
  | succ m ih => simp [List.replicate, List.countP_cons, ih]

/-- A freshly constructed inner table is well-formed. -/
theorem innerWfP_mk0 : innerWfP (LinearProbeTable.mk0 (V := V) defaultTableSizes) := by
  refine ⟨rfl, ?_, ?_⟩
  · simp [LinearProbeTable.mk0, defaultTableSizes]
  · simp [LinearProbeTable.mk0, countP_isSome_replicate]

/-- The inner-table set preserves inner well-formedness. -/
theorem innerWfP_setItem {sub : LinearProbeTable V} {k2 : String} {v : V}
    {sub' : LinearProbeTable V}
    (hwf : innerWfP sub) (h : sub.setItem k2 v = .ok sub') : innerWfP sub' := by
  obtain ⟨pos, binner, hip, hsub⟩ := innerSetItem_ok_decomp h
  have h0i : 0 < sub.array.length := by
    by_contra hz
    have hzz : sub.array.length = 0 := by omega
    rw [hzz] at hip
    simp [probeLoop] at hip
  have hposlt : pos < sub.array.length := probeLoop_ok_lt (hash2_lt h0i) hip
  obtain ⟨hsz, hlen, hcnt⟩ := hwf
  refine ⟨by rw [hsub]; exact hsz, by rw [hsub]; simpa using hlen, ?_⟩
  cases binner with
  | true =>
    obtain ⟨p, hpq, _⟩ := probeLoop_found_key (hash2_lt h0i) hip
    rw [hsub]
    show sub.count = ((sub.array.set pos (some (k2, v))).countP _ : Int)
    rw [countP_isSome_set_some hpq]
    exact hcnt
  | false =>
    have hn := probeLoop_miss_none (hash2_lt h0i) hip
    rw [hsub]
    show sub.count + 1 = ((sub.array.set pos (some (k2, v))).countP _ : Int)
    rw [countP_isSome_set_none hposlt hn]
    push_cast
    omega

section SetStepEffects2

variable {t t1 : DoubleKeyTable V} {k1 k2 : String} {v : V}
  {p1 p2 : Nat} {e : String × LinearProbeTable V} {sub1 : LinearProbeTable V}

/-- Slots other than the probed one are untouched by the insert step. -/
theorem setStep_slot_other
    (hlp : linearProbe t k1 k2 true = .ok (t1, p1, p2))
    (he : t1.array.getD p1 none = some e)
    (hs : e.2.setItem k2 v = .ok sub1) :
    ∀ q, q ≠ p1 →
      (setStepState t1 p1 e sub1).array.getD q none = t.array.getD q none := by
  obtain ⟨h0, hp1lt, hek1, hlen, hts, his, hsi, hcnt, hcases, pos, binner, hip, hposlt,
    hipt, hipf, hsub⟩ := setStep_core hlp he hs
  intro q hq
  show (t1.array.set p1 (some (e.1, sub1))).getD q none = t.array.getD q none
  rw [getD_set_other (fun hh => hq hh.symm) _ _]
  rcases hcases with ⟨ht1, _⟩ | ⟨hnone, ht1, _, _⟩
  · rw [ht1]
  · rw [ht1]
    show (t.array.set p1 (some (k1, LinearProbeTable.mk0 t.internal_sizes))).getD
      q none = t.array.getD q none
    rw [getD_set_other (fun hh => hq hh.symm) _ _]

/-- The new pair is stored after the insert step. -/
theorem setStep_pairs_new
    (hlp : linearProbe t k1 k2 true = .ok (t1, p1, p2))
    (he : t1.array.getD p1 none = some e)
    (hs : e.2.setItem k2 v = .ok sub1) :
    pairsProp (setStepState t1 p1 e sub1) k1 k2 v := by
  obtain ⟨h0, hp1lt, hek1, hlen, hts, his, hsi, hcnt, hcases, pos, binner, hip, hposlt,
    hipt, hipf, hsub⟩ := setStep_core hlp he hs
  obtain ⟨hfo1, hslot1⟩ := setStep_found hlp he hs
  refine ⟨p1, (e.1, sub1), pos, hslot1, hek1, ?_⟩
  rw [hsub]
  exact getD_set_self hposlt _ _

/-- Pairs stored after the insert step are the new pair or pairs of
the old table. -/
theorem setStep_pairs_sub
    (hlp : linearProbe t k1 k2 true = .ok (t1, p1, p2))
    (he : t1.array.getD p1 none = some e)
    (hs : e.2.setItem k2 v = .ok sub1) :
    ∀ a b w, pairsProp (setStepState t1 p1 e sub1) a b w →
      (a = k1 ∧ b = k2 ∧ w = v) ∨ pairsProp t a b w := by
  obtain ⟨h0, hp1lt, hek1, hlen, hts, his, hsi, hcnt, hcases, pos, binner, hip, hposlt,
    hipt, hipf, hsub⟩ := setStep_core hlp he hs
  obtain ⟨hfo1, hslot1⟩ := setStep_found hlp he hs
  rintro a b w ⟨q, e', s, hq, hk1', hps⟩
  by_cases hqp : q = p1
  · rw [hqp] at hq
    rw [hslot1] at hq
    obtain rfl : e' = (e.1, sub1) := Option.some.inj hq |>.symm ▸ rfl
    have hsarr : sub1.array = e.2.array.set pos (some (k2, v)) := by rw [hsub]
    dsimp only at hps hk1'
    rw [hsarr] at hps
    by_cases hsp : s = pos
    · subst hsp
      rw [getD_set_self hposlt _ _] at hps
      obtain ⟨hb, hw⟩ : k2 = b ∧ v = w := by
        have := Option.some.inj hps
        exact ⟨congrArg Prod.fst this, congrArg Prod.snd this⟩
      exact Or.inl ⟨hk1'.symm ▸ hek1.symm ▸ rfl, hb.symm, hw.symm⟩
    · rw [getD_set_other (fun hh => hsp hh.symm) _ _] at hps
      rcases hcases with ⟨ht1, _⟩ | ⟨hnone, ht1, _, hemk⟩
      · rw [ht1] at he
        exact Or.inr ⟨p1, e, s, he, hk1'.symm ▸ rfl, hps⟩
      · rw [hemk] at hps
        simp only [LinearProbeTable.mk0] at hps
        rw [getD_replicate_none] at hps
        cases hps
  · rw [setStep_slot_other hlp he hs q hqp] at hq
    exact Or.inr ⟨q, e', s, hq, hk1', hps⟩

/-- Pairs other than the written one survive the insert step. -/
theorem setStep_pairs_pres
    (hlp : linearProbe t k1 k2 true = .ok (t1, p1, p2))
    (he : t1.array.getD p1 none = some e)
    (hs : e.2.setItem k2 v = .ok sub1) :
    ∀ a b w, pairsProp t a b w → ¬(a = k1 ∧ b = k2) →
      pairsProp (setStepState t1 p1 e sub1) a b w := by
  obtain ⟨h0, hp1lt, hek1, hlen, hts, his, hsi, hcnt, hcases, pos, binner, hip, hposlt,
    hipt, hipf, hsub⟩ := setStep_core hlp he hs
  obtain ⟨hfo1, hslot1⟩ := setStep_found hlp he hs
  rintro a b w ⟨q, e', s, hq, hk1', hps⟩ hne
  by_cases hqp : q = p1
  · rw [hqp] at hq
    rcases hcases with ⟨ht1, _⟩ | ⟨hnone, ht1, _, hemk⟩
    · rw [ht1] at he
      rw [he] at hq
      obtain rfl : e = e' := Option.some.inj hq
      have hak : a = k1 := hk1' ▸ hek1
      have hbk : b ≠ k2 := fun hb => hne ⟨hak, hb⟩
      have hsne : s ≠ pos := by
        intro hsp
        subst hsp
        cases binner with
        | true =>
          obtain ⟨pk, hpkq, hpkk⟩ := hipt rfl
          rw [hps] at hpkq
          have := Option.some.inj hpkq
          exact hbk (by rw [← congrArg Prod.fst this] at hpkk; exact hpkk)
        | false =>
          have hnn := hipf rfl
          rw [hps] at hnn
          cases hnn
      refine ⟨p1, (e.1, sub1), s, hslot1, hk1', ?_⟩
      show sub1.array.getD s none = some (b, w)
      rw [hsub]
      show (e.2.array.set pos (some (k2, v))).getD s none = some (b, w)
      rw [getD_set_other (fun hh => hsne hh.symm) _ _]
      exact hps
    · rw [hnone] at hq
      cases hq
  · refine ⟨q, e', s, ?_, hk1', hps⟩
    rw [setStep_slot_other hlp he hs q hqp]
    exact hq

/-- Occupied-slot count versus `count` across the insert step. -/
theorem setStep_countSlots
    (hlp : linearProbe t k1 k2 true = .ok (t1, p1, p2))
    (he : t1.array.getD p1 none = some e)
    (hs : e.2.setItem k2 v = .ok sub1)
    (hle : (t.array.countP (fun s => s.isSome) : Int) ≤ t.count) :
    (((setStepState t1 p1 e sub1).array.countP (fun s => s.isSome)) : Int) ≤
      (setStepState t1 p1 e sub1).count := by
  obtain ⟨h0, hp1lt, hek1, hlen, hts, his, hsi, hcnt, hcases, pos, binner, hip, hposlt,
    hipt, hipf, hsub⟩ := setStep_core hlp he hs
  have hcnt2 : (setStepState t1 p1 e sub1).count =
      (if e.2.count = 0 then t.count + 1 else t.count) :=
    (setStep_meta hlp he hs).2.2.2.2
  have harr : (setStepState t1 p1 e sub1).array = t1.array.set p1 (some (e.1, sub1)) := rfl
  rcases hcases with ⟨ht1, _⟩ | ⟨hnone, ht1, _, hemk⟩
  · have hsome : t1.array.getD p1 none = some e := he
    rw [harr, countP_isSome_set_some hsome, hcnt2, ht1]
    split <;> omega
  · have hsome : t1.array.getD p1 none = some e := he
    have hc0 : e.2.count = 0 := by rw [hemk]; rfl
    have hslots : t1.array.countP (fun s => s.isSome) =
        t.array.countP (fun s => s.isSome) + 1 := by
      rw [ht1]
      exact countP_isSome_set_none hp1lt hnone
    rw [harr, countP_isSome_set_some hsome, hcnt2, if_pos hc0, hslots]
    push_cast
    omega

/-- With one-to-one counting before the step, the occupied-slot count
and `count` move in lockstep across the insert step. -/
theorem setStep_lockstep
    (hlp : linearProbe t k1 k2 true = .ok (t1, p1, p2))
    (he : t1.array.getD p1 none = some e)
    (hs : e.2.setItem k2 v = .ok sub1)
    (hpos : posInner t)
    (heq : (t.array.countP (fun s => s.isSome) : Int) = t.count) :
    (((setStepState t1 p1 e sub1).array.countP (fun s => s.isSome)) : Int) =
      (setStepState t1 p1 e sub1).count := by
  obtain ⟨h0, hp1lt, hek1, hlen, hts, his, hsi, hcnt, hcases, pos, binner, hip, hposlt,
    hipt, hipf, hsub⟩ := setStep_core hlp he hs
  have hcnt2 : (setStepState t1 p1 e sub1).count =
      (if e.2.count = 0 then t.count + 1 else t.count) :=
    (setStep_meta hlp he hs).2.2.2.2
  have harr : (setStepState t1 p1 e sub1).array = t1.array.set p1 (some (e.1, sub1)) := rfl
  rcases hcases with ⟨ht1, _⟩ | ⟨hnone, ht1, _, hemk⟩
  · have hsome : t1.array.getD p1 none = some e := he
    have hc : 0 < e.2.count := hpos p1 e (ht1 ▸ he)
    have hc0 : ¬ e.2.count = 0 := by omega
    rw [harr, countP_isSome_set_some hsome, hcnt2, if_neg hc0, ht1]
    exact heq
  · have hsome : t1.array.getD p1 none = some e := he
    have hc0 : e.2.count = 0 := by rw [hemk]; rfl
    have hslots : t1.array.countP (fun s => s.isSome) =
        t.array.countP (fun s => s.isSome) + 1 := by
      rw [ht1]
      exact countP_isSome_set_none hp1lt hnone
    rw [harr, countP_isSome_set_some hsome, hcnt2, if_pos hc0, hslots]
    push_cast
    omega

/-- Every occupied outer slot keeps a non-empty inner table across the
insert step. -/
theorem setStep_posInner
    (hlp : linearProbe t k1 k2 true = .ok (t1, p1, p2))
    (he : t1.array.getD p1 none = some e)
    (hs : e.2.setItem k2 v = .ok sub1)
    (hpos : posInner t) :
    posInner (setStepState t1 p1 e sub1) := by
  obtain ⟨h0, hp1lt, hek1, hlen, hts, his, hsi, hcnt, hcases, pos, binner, hip, hposlt,
    hipt, hipf, hsub⟩ := setStep_core hlp he hs
  obtain ⟨hfo1, hslot1⟩ := setStep_found hlp he hs
  intro q e' hq
  by_cases hqp : q = p1
  · rw [hqp, hslot1] at hq
    obtain rfl : e' = (e.1, sub1) := (Option.some.inj hq).symm
    show 0 < sub1.count
    have hc1 : sub1.count = if binner then e.2.count else e.2.count + 1 := by rw [hsub]
    rcases hcases with ⟨ht1, _⟩ | ⟨hnone, ht1, _, hemk⟩
    · have hc : 0 < e.2.count := hpos p1 e (ht1 ▸ he)
      rw [hc1]
      cases binner with
      | true => exact hc
      | false => omega
    · have hc0 : e.2.count = 0 := by rw [hemk]; rfl
      cases binner with
      | true =>
        obtain ⟨p, hpq, _⟩ := hipt rfl
        rw [hemk] at hpq
        simp only [LinearProbeTable.mk0] at hpq
        rw [getD_replicate_none] at hpq
        cases hpq
      | false =>
        rw [hc1, hc0]
        simp only [Bool.false_eq_true, if_false]
        omega
  · rw [setStep_slot_other hlp he hs q hqp] at hq
    exact hpos q e' hq

/-- Inner well-formedness of all slots is preserved by the insert step. -/
theorem setStep_innerWfAll
    (hlp : linearProbe t k1 k2 true = .ok (t1, p1, p2))
    (he : t1.array.getD p1 none = some e)
    (hs : e.2.setItem k2 v = .ok sub1)
    (hall : ∀ q e', t.array.getD q none = some e' → innerWfP e'.2)
    (hint : t.internal_sizes = defaultTableSizes) :
    ∀ q e', (setStepState t1 p1 e sub1).array.getD q none = some e' → innerWfP e'.2 := by
  obtain ⟨h0, hp1lt, hek1, hlen, hts, his, hsi, hcnt, hcases, pos, binner, hip, hposlt,
    hipt, hipf, hsub⟩ := setStep_core hlp he hs
  obtain ⟨hfo1, hslot1⟩ := setStep_found hlp he hs
  intro q e' hq
  by_cases hqp : q = p1
  · rw [hqp, hslot1] at hq
    obtain rfl : e' = (e.1, sub1) := (Option.some.inj hq).symm
    show innerWfP sub1
    have hwfe : innerWfP e.2 := by
      rcases hcases with ⟨ht1, _⟩ | ⟨hnone, ht1, _, hemk⟩
      · exact hall p1 e (ht1 ▸ he)
      · rw [hemk]
        show innerWfP (LinearProbeTable.mk0 t.internal_sizes)
        rw [hint]
        exact innerWfP_mk0
    exact innerWfP_setItem hwfe hs
  · rw [setStep_slot_other hlp he hs q hqp] at hq
    exact hall q e' hq

/-- The probe-reachability facts are preserved by the insert step. -/
theorem setStep_wfFacts
    (hlp : linearProbe t k1 k2 true = .ok (t1, p1, p2))
    (he : t1.array.getD p1 none = some e)
    (hs : e.2.setItem k2 v = .ok sub1)
    (hF : wfFacts t) :
    wfFacts (setStepState t1 p1 e sub1) := by
  obtain ⟨h0, hp1lt, hek1, hlen, hts, his, hsi, hcnt, hcases, pos, binner, hip, hposlt,
    hipt, hipf, hsub⟩ := setStep_core hlp he hs
  obtain ⟨hfo1, hslot1⟩ := setStep_found hlp he hs
  have h0i : 0 < e.2.array.length := Nat.lt_of_le_of_lt (Nat.zero_le _) hposlt
  have hsarr : sub1.array = e.2.array.set pos (some (k2, v)) := by rw [hsub]
  constructor
  · intro q e' hq s p hp
    by_cases hqp : q = p1
    · rw [hqp, hslot1] at hq
      obtain rfl : e' = (e.1, sub1) := (Option.some.inj hq).symm
      dsimp only at hp ⊢
      by_cases hsp : s = pos
      · rw [hsp, hsarr, getD_set_self hposlt _ _] at hp
        obtain rfl : p = (k2, v) := (Option.some.inj hp).symm
        show foundInner sub1.array k2 s
        rw [hsp]
        show probeLoop _ k2 _ _ = _
        rw [hsarr, List.length_set]
        exact probeLoop_set_self (hash2_lt h0i) hip
      · rw [hsarr, getD_set_other (fun hh => hsp hh.symm) _ _] at hp
        have hold : foundInner e.2.array p.1 s := by
          rcases hcases with ⟨ht1, _⟩ | ⟨hnone, ht1, _, hemk⟩
          · exact hF.inner p1 e (ht1 ▸ he) s p hp
          · rw [hemk] at hp
            simp only [LinearProbeTable.mk0] at hp
            rw [getD_replicate_none] at hp
            cases hp
        show probeLoop _ p.1 _ _ = _
        rw [hsarr, List.length_set]
        exact probe_facts_mono (hash2_lt h0i) hip hold
    · rw [setStep_slot_other hlp he hs q hqp] at hq
      exact hF.inner q e' hq s p hp
  · intro q e' hq hc
    by_cases hqp : q = p1
    · rw [hqp, hslot1] at hq
      obtain rfl : e' = (e.1, sub1) := (Option.some.inj hq).symm
      show foundOuter (setStepState t1 p1 e sub1).array e.1 q
      rw [hqp, hek1]
      exact hfo1
    · rw [setStep_slot_other hlp he hs q hqp] at hq
      have hold : foundOuter t.array e'.1 q := hF.outer q e' hq hc
      exact setStep_factsOuterMono hlp he hs e'.1 q hold

end SetStepEffects2

/-- An occupied slot makes the occupied-slot count positive. -/
theorem countP_pos_of_getD_some {γ : Type} {l : List (Option γ)} {s : Nat} {p : γ}
    (h : l.getD s none = some p) : 0 < l.countP (fun x => x.isSome) := by
  induction l generalizing s with
  | nil => simp [List.getD] at h
  | cons a rest ih =>
    cases s with
    | zero =>
      have ha : a = some p := by simpa [List.getD] using h
      subst ha
      simp [List.countP_cons]
    | succ s =>
      have h' : rest.getD s none = some p := by simpa [List.getD] using h
      have hr := ih h'
      rw [List.countP_cons]
      split <;> omega

/-- An array with no occupied slots reads `none` everywhere. -/
theorem all_none_of_countP_zero {γ : Type} {l : List (Option γ)}
    (h : l.countP (fun x => x.isSome) = 0) : ∀ q, l.getD q none = none := by
  intro q
  cases hq : l.getD q none with
  | none => rfl
  | some p =>
    have := countP_pos_of_getD_some hq
    omega

/-- Adding fewer than `n` steps (at least one) moves a reduced index. -/
theorem add_mod_ne_self {n pos m : Nat} (hpos : pos < n) (hm1 : 1 ≤ m) (hm2 : m < n) :
    (pos + m) % n ≠ pos := by
  intro h
  rcases Nat.lt_or_ge (pos + m) n with hlt | hge
  · rw [Nat.mod_eq_of_lt hlt] at h
    omega
  · have h2 : pos + m - n < n := by omega
    rw [Nat.mod_eq_sub_mod hge, Nat.mod_eq_of_lt h2] at h
    omega

/-- Writing back the value a slot already holds changes nothing. -/
theorem set_getD_self_eq {γ : Type} {l : List γ} {i : Nat} {d v : γ}
    (h : l.getD i d = v) (hi : i < l.length) : l.set i v = l := by
  induction l generalizing i with
  | nil => simp at hi
  | cons a rest ih =>
    cases i with
    | zero =>
      have ha : a = v := by simpa [List.getD] using h
      rw [← ha]
      rfl
    | succ i =>
      have h' : rest.getD i d = v := by simpa [List.getD] using h
      have hi' : i < rest.length := by simpa using Nat.lt_of_succ_lt_succ hi
      show a :: rest.set i v = a :: rest
      rw [ih h' hi']

/-- Two distinct path offsets (within one lap) land on distinct
slots. -/
theorem path_offsets_ne {n st j d : Nat} (h0 : 0 < n) (hj : j < d) (hd : d < n) :
    (st + j) % n ≠ (st + d) % n := by
  have hm : st + d = (st + j) + (d - j) := by omega
  have hcalc : (st + d) % n = ((st + j) % n + (d - j)) % n := by
    rw [Nat.mod_add_mod, ← hm]
  intro hcontra
  rw [hcalc] at hcontra
  exact add_mod_ne_self (Nat.mod_lt _ h0) (by omega) (by omega) hcontra.symm

/-- Clearing the landing slot of a found-probe turns it into a miss at
the same slot. -/
theorem probe_clear_self {arr : List (Option (String × α))} {key : String} {st q : Nat}
    (hst : st < arr.length)
    (h : probeLoop arr key st arr.length = .ok (q, true)) :
    probeLoop (arr.set q none) key st arr.length = .ok (q, false) := by
  have h0 : 0 < arr.length := Nat.lt_of_le_of_lt (Nat.zero_le _) hst
  obtain ⟨d, hd, hqd, hmis, hbt, _⟩ := probeLoop_ok_char hst h
  have hlset : (arr.set q none).length = arr.length := List.length_set _ _ _
  have hqlt : q < arr.length := probeLoop_ok_lt hst h
  have hpathne : ∀ j, j < d → (st + j) % arr.length ≠ q := by
    intro j hj
    rw [hqd]
    exact path_offsets_ne h0 hj hd
  have hmis' : misPath (arr.set q none) key st d := by
    intro j hj
    obtain ⟨e, he, hk⟩ := hmis j hj
    refine ⟨e, ?_, hk⟩
    rw [hlset, getD_set_other (fun hh => (hpathne j hj) hh.symm) _ _]
    exact he
  have hend : (arr.set q none).getD ((st + d) % (arr.set q none).length) none = none := by
    rw [hlset, ← hqd]
    exact getD_set_self hqlt _ _
  have hd' : d < (arr.set q none).length := by rw [hlset]; exact hd
  have h0x : 0 < (arr.set q none).length := by rw [hlset]; exact h0
  have hstx : st < (arr.set q none).length := by rw [hlset]; exact hst
  have hres := probeLoop_of_char_none h0x hstx hd' hmis' hend
  rw [hlset] at hres
  rw [← hqd] at hres
  exact hres

/-- Clearing one slot either leaves a found-probe intact or strands
its landing slot in the contiguous occupied run just past the cleared
slot. -/
theorem found_after_clear {arr : List (Option (String × α))} {key : String}
    {st s pos : Nat}
    (hst : st < arr.length) (hps : pos < arr.length)
    (hfact : probeLoop arr key st arr.length = .ok (s, true))
    (hne : s ≠ pos) :
    probeLoop (arr.set pos none) key st arr.length = .ok (s, true) ∨
      zoneFrom (arr.set pos none) ((pos + 1) % arr.length) s := by
  have h0 : 0 < arr.length := Nat.lt_of_le_of_lt (Nat.zero_le _) hst
  obtain ⟨d, hd, hqd, hmis, hbt, _⟩ := probeLoop_ok_char hst hfact
  obtain ⟨e, hse, hek⟩ := hbt rfl
  have hlset : (arr.set pos none).length = arr.length := List.length_set _ _ _
  by_cases hcross : ∃ j, j < d ∧ (st + j) % arr.length = pos
  · right
    obtain ⟨j, hj, hjp⟩ := hcross
    unfold zoneFrom
    rw [hlset]
    refine ⟨d - j - 1, by omega, ?_, ?_⟩
    · have h1 : st + d = (st + j) + (d - j) := by omega
      have h2 : (pos + 1) + (d - j - 1) = pos + (d - j) := by omega
      calc s = (st + d) % arr.length := hqd
        _ = ((st + j) % arr.length + (d - j)) % arr.length := by
            rw [Nat.mod_add_mod, ← h1]
        _ = (pos + (d - j)) % arr.length := by rw [hjp]
        _ = ((pos + 1) + (d - j - 1)) % arr.length := by rw [h2]
        _ = ((pos + 1) % arr.length + (d - j - 1)) % arr.length := by
            rw [Nat.mod_add_mod]
    · intro i hi
      have hidx : ((pos + 1) % arr.length + i) % arr.length =
          (st + (j + 1 + i)) % arr.length := by
        calc ((pos + 1) % arr.length + i) % arr.length
            = (pos + (1 + i)) % arr.length := by
              rw [Nat.mod_add_mod, Nat.add_assoc]
          _ = ((st + j) % arr.length + (1 + i)) % arr.length := by rw [hjp]
          _ = (st + (j + 1 + i)) % arr.length := by
              rw [Nat.mod_add_mod, Nat.add_assoc, Nat.add_assoc]
      rw [hidx]
      have hne2 : (st + (j + 1 + i)) % arr.length ≠ pos := by
        rw [← hjp]
        have hcalc : (st + (j + 1 + i)) % arr.length =
            ((st + j) % arr.length + (1 + i)) % arr.length := by
          rw [Nat.mod_add_mod, Nat.add_assoc, Nat.add_assoc]
        rw [hcalc]
        exact add_mod_ne_self (Nat.mod_lt _ h0) (by omega) (by omega)
      rw [getD_set_other (fun hh => hne2 hh.symm) _ _]
      rcases Nat.lt_or_ge (j + 1 + i) d with hlt | hge
      · obtain ⟨e', he', _⟩ := hmis _ hlt
        rw [he']
        rfl
      · have hji : j + 1 + i = d := by omega
        rw [hji, ← hqd, hse]
        rfl
  · left
    push_neg at hcross
    have hpathne : ∀ j, j < d → (st + j) % arr.length ≠ pos := hcross
    have hmis' : misPath (arr.set pos none) key st d := by
      intro j hj
      obtain ⟨e', he', hk⟩ := hmis j hj
      refine ⟨e', ?_, hk⟩
      rw [hlset, getD_set_other (fun hh => (hpathne j hj) hh.symm) _ _]
      exact he'
    have hend : (arr.set pos none).getD ((st + d) % (arr.set pos none).length) none =
        some e := by
      rw [hlset, ← hqd, getD_set_other (fun hh => hne hh.symm) _ _]
      exact hse
    have hd' : d < (arr.set pos none).length := by rw [hlset]; exact hd
    have h0x : 0 < (arr.set pos none).length := by rw [hlset]; exact h0
    have hstx : st < (arr.set pos none).length := by rw [hlset]; exact hst
    have hres := probeLoop_of_char_found h0x hstx hd' hmis' hend hek
    rw [hlset] at hres
    rw [← hqd] at hres
    exact hres

/-- A zone member survives any write into an in-range slot. -/
theorem zone_mono_set_some {γ : Type} {arr : List (Option γ)} {pos q r : Nat} {y : γ}
    (hr : r < arr.length) (hz : zoneFrom arr pos q) :
    zoneFrom (arr.set r (some y)) pos q := by
  obtain ⟨j, hj, hq, hocc⟩ := hz
  have hlset : (arr.set r (some y)).length = arr.length := List.length_set _ _ _
  unfold zoneFrom
  rw [hlset]
  refine ⟨j, hj, hq, ?_⟩
  intro i hi
  by_cases hir : (pos + i) % arr.length = r
  · rw [hir, getD_set_self hr _ _]
    rfl
  · rw [getD_set_other (fun hh => hir hh.symm) _ _]
    exact hocc i hi

/-- Passing the zone anchor: a zone member other than the anchor stays
in the zone anchored one step later. -/
theorem zone_shrink {γ : Type} {arr : List (Option γ)} {pos q : Nat}
    (hpos : pos < arr.length) (hz : zoneFrom arr pos q) (hne : q ≠ pos) :
    zoneFrom arr ((pos + 1) % arr.length) q := by
  obtain ⟨j, hj, hq, hocc⟩ := hz
  have h0 : 0 < arr.length := Nat.lt_of_le_of_lt (Nat.zero_le _) hpos
  cases j with
  | zero =>
    rw [hq, Nat.add_zero, Nat.mod_eq_of_lt hpos] at hne
    exact absurd rfl hne
  | succ j =>
    refine ⟨j, by omega, ?_, ?_⟩
    · rw [hq, Nat.mod_add_mod, Nat.add_assoc, Nat.add_comm 1 j]
    · intro i hi
      rw [Nat.mod_add_mod, Nat.add_assoc, Nat.add_comm 1 i]
      exact hocc (i + 1) (by omega)

/-- Counting occupied slots after clearing an occupied slot: one
fewer. -/
theorem countP_isSome_clear {γ : Type} {l : List (Option γ)} {pos : Nat} {y : γ}
    (h : l.getD pos none = some y) :
    (l.set pos none).countP (fun s => s.isSome) + 1 = l.countP (fun s => s.isSome) := by
  induction l generalizing pos with
  | nil => simp [List.getD] at h
  | cons a rest ih =>
    cases pos with
    | zero =>
      have ha : a = some y := by simpa [List.getD] using h
      subst ha
      simp [List.countP_cons]
    | succ pos =>
      have h' : rest.getD pos none = some y := by simpa [List.getD] using h
      have := ih h'
      show (a :: rest.set pos none).countP _ + 1 = _
      rw [List.countP_cons, List.countP_cons]
      omega

/-- Clearing the anchor slot keeps every other zone member in the zone
anchored one step later. -/
theorem zone_past_clear {γ : Type} {arr : List (Option γ)} {pos q : Nat}
    (hpos : pos < arr.length) (hz : zoneFrom arr pos q) (hne : q ≠ pos) :
    zoneFrom (arr.set pos none) ((pos + 1) % arr.length) q := by
  obtain ⟨j, hjlen, hq, hocc⟩ := hz
  have h0 : 0 < arr.length := Nat.lt_of_le_of_lt (Nat.zero_le _) hpos
  have hlset : (arr.set pos none).length = arr.length := List.length_set _ _ _
  cases j with
  | zero =>
    rw [hq, Nat.add_zero, Nat.mod_eq_of_lt hpos] at hne
    exact absurd rfl hne
  | succ j =>
    unfold zoneFrom
    rw [hlset]
    refine ⟨j, by omega, ?_, ?_⟩
    · rw [hq, Nat.mod_add_mod, Nat.add_assoc, Nat.add_comm 1 j]
    · intro i hi
      have hidx : ((pos + 1) % arr.length + i) % arr.length =
          (pos + (1 + i)) % arr.length := by
        rw [Nat.mod_add_mod, Nat.add_assoc]
      rw [hidx]
      have hnep : (pos + (1 + i)) % arr.length ≠ pos :=
        add_mod_ne_self hpos (by omega) (by omega)
      rw [getD_set_other (fun hh => hnep hh.symm) _ _]
      have hoc := hocc (i + 1) (by omega)
      rwa [Nat.add_comm 1 i]

/-- `pairsProp` is `arrPairs` of the outer array. -/
theorem pairsProp_arr {t : DoubleKeyTable V} {a b : String} {w : V} :
    pairsProp t a b w ↔ arrPairs t.array a b w := Iff.rfl

/-- Case analysis of `arrPairs` over a cons cell. -/
theorem arrPairs_cons {x : Option (String × LinearProbeTable V)}
    {rest : List (Option (String × LinearProbeTable V))} {a b : String} {w : V} :
    arrPairs (x :: rest) a b w ↔
      (∃ e s, x = some e ∧ e.1 = a ∧ e.2.array.getD s none = some (b, w)) ∨
        arrPairs rest a b w := by
  constructor
  · rintro ⟨q, e, s, hq, hk, hp⟩
    cases q with
    | zero =>
      exact Or.inl ⟨e, s, by simpa [List.getD] using hq, hk, hp⟩
    | succ q =>
      exact Or.inr ⟨q, e, s, by simpa [List.getD] using hq, hk, hp⟩
  · rintro (⟨e, s, hx, hk, hp⟩ | ⟨q, e, s, hq, hk, hp⟩)
    · exact ⟨0, e, s, by simpa [List.getD] using hx, hk, hp⟩
    · exact ⟨q + 1, e, s, by simpa [List.getD] using hq, hk, hp⟩

/-- A successful lookup exhibits a stored pair. -/
theorem getItem_pairs {t : DoubleKeyTable V} {a b : String} {w : V}
    (h : getItem t a b = .ok w) : pairsProp t a b w := by
  obtain ⟨q, e, s, p, hq, hk1, _, _, hp, hpk, hpv⟩ := getItem_ok_decomp h
  obtain ⟨pb, pw⟩ := p
  dsimp only at hpk hpv
  subst hpk
  subst hpv
  exact ⟨q, e, s, hq, hk1, hp⟩

/-- Under the probe facts, every stored pair is retrievable. -/
theorem getItem_of_pairs {t : DoubleKeyTable V} {a b : String} {w : V}
    (hiw : ∀ q e, t.array.getD q none = some e → innerWfP e.2)
    (hF : wfFacts t)
    (hp : pairsProp t a b w) : getItem t a b = .ok w := by
  obtain ⟨q, e, s, hq, hk, hps⟩ := hp
  have hcnt : 0 < e.2.count := by
    obtain ⟨_, _, hc⟩ := hiw q e hq
    have := countP_pos_of_getD_some hps
    omega
  have hfo : foundOuter t.array e.1 q := hF.outer q e hq hcnt
  have hfi : foundInner e.2.array b s := by
    have := hF.inner q e hq s (b, w) hps
    simpa using this
  rw [hk] at hfo
  exact getItem_ok_intro hq hk hfo hfi hps rfl

section SetStepEffects3

variable {t t1 : DoubleKeyTable V} {k1 k2 : String} {v : V}
  {p1 p2 : Nat} {e : String × LinearProbeTable V} {sub1 : LinearProbeTable V}

/-- Under the probe facts, any `(k1, k2)` pair stored after the insert
step carries the value just written. -/
theorem setStep_pairs_old
    (hlp : linearProbe t k1 k2 true = .ok (t1, p1, p2))
    (he : t1.array.getD p1 none = some e)
    (hs : e.2.setItem k2 v = .ok sub1)
    (hiw : ∀ q e', t.array.getD q none = some e' → innerWfP e'.2)
    (hF : wfFacts t) :
    ∀ w', pairsProp (setStepState t1 p1 e sub1) k1 k2 w' → w' = v := by
  obtain ⟨h0, hp1lt, hek1, hlen, hts, his, hsi, hcnt, hcases, pos, binner, hip, hposlt,
    hipt, hipf, hsub⟩ := setStep_core hlp he hs
  obtain ⟨hfo1, hslot1⟩ := setStep_found hlp he hs
  rintro w' ⟨q, e', s, hq, hk1', hps⟩
  by_cases hqp : q = p1
  · rw [hqp, hslot1] at hq
    obtain rfl : e' = (e.1, sub1) := (Option.some.inj hq).symm
    dsimp only at hps
    have hsarr : sub1.array = e.2.array.set pos (some (k2, v)) := by rw [hsub]
    rw [hsarr] at hps
    by_cases hsp : s = pos
    · rw [hsp, getD_set_self hposlt _ _] at hps
      exact (congrArg Prod.snd (Option.some.inj hps)).symm
    · rw [getD_set_other (fun hh => hsp hh.symm) _ _] at hps
      rcases hcases with ⟨ht1, _⟩ | ⟨hnone, ht1, _, hemk⟩
      · have hfi : foundInner e.2.array k2 s := by
          have := hF.inner p1 e (ht1 ▸ he) s (k2, w') hps
          simpa using this
        have : (Except.ok (s, true) : Except Err (Nat × Bool)) = .ok (pos, binner) := by
          rw [← hfi, ← hip]
        exact absurd (congrArg Prod.fst (Except.ok.inj this)) hsp
      · rw [hemk] at hps
        simp only [LinearProbeTable.mk0] at hps
        rw [getD_replicate_none] at hps
        cases hps
  · rw [setStep_slot_other hlp he hs q hqp] at hq
    have hcnt' : 0 < e'.2.count := by
      obtain ⟨_, _, hc⟩ := hiw q e' hq
      have := countP_pos_of_getD_some hps
      omega
    have hfo : foundOuter t.array e'.1 q := hF.outer q e' hq hcnt'
    rw [hk1'] at hfo
    rcases hcases with ⟨_, hp1m⟩ | ⟨_, _, hp1m, _⟩
    · have : (Except.ok (q, true) : Except Err (Nat × Bool)) = .ok (p1, true) := by
        rw [← hfo, ← hp1m]
      exact absurd (congrArg Prod.fst (Except.ok.inj this)) hqp
    · have : (Except.ok (q, true) : Except Err (Nat × Bool)) = .ok (p1, false) := by
        rw [← hfo, ← hp1m]
      have hbf : true = false := congrArg Prod.snd (Except.ok.inj this)
      cases hbf

end SetStepEffects3

/-- One `__setitem__` step, given the rehash effect one fuel level
down. -/
theorem setOk_succ (fuel : Nat) (hre : RehashOk V fuel) : SetOk V (fuel + 1) := by
  intro t t' k1 k2 v hW hfun hsu h
  obtain ⟨t1, p1, p2, e, sub1, hlp, he, hs, hbr⟩ := setItem_succ_decomp h
  have hmeta := setStep_meta hlp he hs
  have hW2 : preWf (setStepState t1 p1 e sub1) := by
    refine ⟨?_, ?_, ?_, ?_, ?_, ?_⟩
    · rw [hmeta.2.1]; exact hW.sizesEq
    · rw [hmeta.2.2.1]; exact hW.internalEq
    · rw [hmeta.2.2.2.1]; exact hW.idxLt
    · rw [hmeta.1, hmeta.2.2.2.1]; exact hW.lenEq
    · exact setStep_countSlots hlp he hs hW.countSlots
    · exact setStep_innerWfAll hlp he hs hW.innerWf hW.internalEq
  have hp2new : pairsProp (setStepState t1 p1 e sub1) k1 k2 v := setStep_pairs_new hlp he hs
  have hsub2 := setStep_pairs_sub hlp he hs
  have hpres2 := setStep_pairs_pres hlp he hs
  have holdv : ∀ w', pairsProp (setStepState t1 p1 e sub1) k1 k2 w' → w' = v := by
    cases hsu with
    | inl hF => exact setStep_pairs_old hlp he hs hW.innerWf hF
    | inr hcompat =>
      intro w' hp
      rcases hsub2 _ _ _ hp with ⟨_, _, hw⟩ | hold
      · exact hw
      · exact hcompat _ hold
  have hfun2 : pairsFunctional (setStepState t1 p1 e sub1) := by
    intro a b w w' h1 h2
    rcases hsub2 _ _ _ h1 with ⟨ha, hb, hw⟩ | ho1
    · rcases hsub2 _ _ _ h2 with ⟨_, _, hw'⟩ | _
      · rw [hw, hw']
      · rw [hw]
        exact (holdv w' (ha ▸ hb ▸ h2)).symm
    · rcases hsub2 _ _ _ h2 with ⟨ha, hb, hw'⟩ | ho2
      · rw [hw']
        exact holdv w (ha ▸ hb ▸ h1)
      · exact hfun _ _ _ _ ho1 ho2
  rcases hbr with ⟨hcap, ht'⟩ | ⟨hover, hrh⟩
  · have ht'2 : t' = setStepState t1 p1 e sub1 := ht'
    subst ht'2
    refine ⟨hW2, hcap, setStep_get hlp he hs, hsub2, hpres2, holdv,
      fun hF => setStep_wfFacts hlp he hs hF, setStep_okpres hlp he hs,
      Or.inr ⟨t1, p1, p2, e, sub1, hlp, he, hs, rfl⟩⟩
  · have hrh2 : rehash fuel (setStepState t1 p1 e sub1) = .ok t' := hrh
    obtain ⟨W', cap', F', cov', subp'⟩ := hre _ _ hW2 hfun2 hrh2
    refine ⟨W', cap', cov' _ _ _ hp2new, ?_, ?_, ?_, fun _ => F', ?_, Or.inl F'⟩
    · intro a b w hp
      exact hsub2 _ _ _ (subp' _ _ _ hp)
    · intro a b w hp hne
      exact getItem_pairs (cov' _ _ _ (hpres2 _ _ _ hp hne))
    · intro w' hp
      exact holdv _ (subp' _ _ _ hp)
    · intro a b w hget hne
      exact cov' _ _ _ (hpres2 _ _ _ (getItem_pairs hget) hne)

/-- One `_rehash` step, given the reinsert loop effect one fuel level
down. -/
theorem rehashOk_succ (fuel : Nat) (hlo : RehashLoopOk V fuel) : RehashOk V (fuel + 1) := by
  intro t t' hW hfun h
  rw [rehash] at h
  split at h
  next hnone => cases h
  next newSize hsz =>
    have hszd : t.TABLE_SIZES.getD (t.size_index + 1) 0 = newSize := by
      simp [List.getD, hsz]
    have hidx : t.size_index + 1 < defaultTableSizes.length := by
      by_contra hge
      rw [hW.sizesEq] at hsz
      rw [List.getElem?_eq_none (Nat.le_of_not_lt hge)] at hsz
      cases hsz
    set u0 : DoubleKeyTable V := { t with size_index := t.size_index + 1, array := List.replicate newSize none, count := 0 } with hu0
    have hW0 : preWf u0 := by
      refine ⟨hW.sizesEq, hW.internalEq, hidx, ?_, ?_, ?_⟩
      · show (List.replicate newSize (none : Option (String × LinearProbeTable V))).length =
          defaultTableSizes.getD (t.size_index + 1) 0
        rw [List.length_replicate, ← hW.sizesEq, hszd]
      · show ((List.replicate newSize
            (none : Option (String × LinearProbeTable V))).countP
            (fun s => s.isSome) : Int) ≤ (0 : Int)
        rw [countP_isSome_replicate]
        simp
      · intro q e hq
        have hqq : u0.array.getD q none = none := getD_replicate_none
        rw [hqq] at hq
        cases hq
    have hF0 : wfFacts u0 := by
      constructor
      · intro q e hq
        have hqq : u0.array.getD q none = none := getD_replicate_none
        rw [hqq] at hq
        cases hq
      · intro q e hq
        have hqq : u0.array.getD q none = none := getD_replicate_none
        rw [hqq] at hq
        cases hq
    have hcap0 : 2 * u0.count ≤ (u0.array.length : Int) := by
      show 2 * (0 : Int) ≤ ((List.replicate newSize
        (none : Option (String × LinearProbeTable V))).length : Int)
      simp
    have hpu0 : ∀ a b w, pairsProp u0 a b w → pairsProp t a b w := by
      rintro a b w ⟨q, e, s, hq, _, _⟩
      have hqq : u0.array.getD q none = none := getD_replicate_none
      rw [hqq] at hq
      cases hq
    obtain ⟨W', F', cap', pF', covp, presp⟩ :=
      hlo t.array t.count u0 t' (pairsProp t) hW0 hF0 hcap0 hfun
        (fun a b w hp => hpu0 a b w hp) (fun a b w hp => hp) hW.countSlots h
    exact ⟨W', cap', F',
      fun a b w hp => getItem_of_pairs W'.innerWf F' (covp a b w hp), pF'⟩

/-- One step of the `_rehash` outer walk, given the loop and reinsert
effects one fuel level down. -/
theorem rehashLoopOk_succ (fuel : Nat) (hri : ReinsertOk V fuel)
    (hlo : RehashLoopOk V fuel) : RehashLoopOk V (fuel + 1) := by
  intro old oc u t' F hWu hFu hcapu hFfun hpu hold hoc h
  cases old with
  | nil =>
    rw [rehashLoop] at h
    obtain rfl : u = t' := Except.ok.inj h
    refine ⟨hWu, hFu, hcapu, hpu, ?_, fun _ _ _ hp => hp⟩
    rintro a b w ⟨q, e, s, hq, _, _⟩
    simp [List.getD] at hq
  | cons x rest =>
    cases x with
    | none =>
      rw [rehashLoop] at h
      have hcc : List.countP (fun s => s.isSome)
          ((none : Option (String × LinearProbeTable V)) :: rest) =
          List.countP (fun s => s.isSome) rest := by
        simp [List.countP_cons]
      split at h
      next hoc0 =>
        obtain rfl : u = t' := Except.ok.inj h
        have hrest0 : List.countP (fun s => s.isSome) rest = 0 := by
          rw [hcc] at hoc
          omega
        refine ⟨hWu, hFu, hcapu, hpu, ?_, fun _ _ _ hp => hp⟩
        intro a b w hp
        rcases arrPairs_cons.mp hp with ⟨e, s, hx, _, _⟩ | ⟨q, e, s, hq, _, _⟩
        · cases hx
        · rw [all_none_of_countP_zero hrest0 q] at hq
          cases hq
      next hoc0 =>
        have hoc' : ((List.countP (fun s => s.isSome) rest : Nat) : Int) ≤ oc := by
          rw [hcc] at hoc
          exact hoc
        obtain ⟨W', F', cap', pF', covR, presR⟩ :=
          hlo rest oc u t' F hWu hFu hcapu hFfun hpu
            (fun a b w hp => hold a b w (arrPairs_cons.mpr (Or.inr hp))) hoc' h
        refine ⟨W', F', cap', pF', ?_, presR⟩
        intro a b w hp
        rcases arrPairs_cons.mp hp with ⟨e, s, hx, _, _⟩ | hrest
        · cases hx
        · exact covR a b w hrest
    | some e0 =>
      obtain ⟨kk, sub⟩ := e0
      rw [rehashLoop] at h
      split at h
      next herr => cases h
      next u1 hri1 =>
        have hlst : ∀ b w, lstPairs sub.array b w → F kk b w := by
          rintro b w ⟨s, hs⟩
          exact hold kk b w ⟨0, (kk, sub), s, by simp [List.getD], rfl, hs⟩
        obtain ⟨W1, F1, cap1, pF1, cov1, pres1⟩ :=
          hri u u1 kk sub.array F hWu hFu hcapu hFfun hpu hlst hri1
        have hcc : List.countP (fun s => s.isSome) (some (kk, sub) :: rest) =
            List.countP (fun s => s.isSome) rest + 1 := by
          simp [List.countP_cons]
        split at h
        next hoc1 =>
          obtain rfl : u1 = t' := Except.ok.inj h
          have hrest0 : List.countP (fun s => s.isSome) rest = 0 := by
            rw [hcc] at hoc
            omega
          refine ⟨W1, F1, cap1, pF1, ?_, pres1⟩
          intro a b w hp
          rcases arrPairs_cons.mp hp with ⟨e, s, hx, hk, hps⟩ | ⟨q, e, s, hq, _, _⟩
          · obtain rfl : e = (kk, sub) := (Option.some.inj hx).symm
            have hc := cov1 b w ⟨s, hps⟩
            rw [← hk]
            exact hc
          · rw [all_none_of_countP_zero hrest0 q] at hq
            cases hq
        next hoc1 =>
          have hoc' : ((List.countP (fun s => s.isSome) rest : Nat) : Int) ≤ oc - 1 := by
            rw [hcc] at hoc
            push_cast at hoc ⊢
            omega
          obtain ⟨W', F', cap', pF', covR, presR⟩ :=
            hlo rest (oc - 1) u1 t' F W1 F1 cap1 hFfun pF1
              (fun a b w hp => hold a b w (arrPairs_cons.mpr (Or.inr hp))) hoc' h
          refine ⟨W', F', cap', pF', ?_,
            fun a b w hp => presR a b w (pres1 a b w hp)⟩
          intro a b w hp
          rcases arrPairs_cons.mp hp with ⟨e, s, hx, hk, hps⟩ | hrest
          · obtain rfl : e = (kk, sub) := (Option.some.inj hx).symm
            have h1 := cov1 b w ⟨s, hps⟩
            have h2 := presR kk b w h1
            rw [← hk]
            exact h2
          · exact covR a b w hrest

/-- One step of the inner reinsert loop, given the set and reinsert
effects one fuel level down. -/
theorem reinsertOk_succ (fuel : Nat) (hse : SetOk V fuel) (hri : ReinsertOk V fuel) :
    ReinsertOk V (fuel + 1) := by
  intro u t' key1 lst F hWu hFu hcapu hFfun hpu hlst h
  cases lst with
  | nil =>
    rw [reinsertPairs] at h
    obtain rfl : u = t' := Except.ok.inj h
    refine ⟨hWu, hFu, hcapu, hpu, ?_, fun _ _ _ hp => hp⟩
    rintro b w ⟨s, hs⟩
    simp [List.getD] at hs
  | cons x rest =>
    cases x with
    | none =>
      rw [reinsertPairs] at h
      obtain ⟨W', F', cap', pF', covR, presR⟩ :=
        hri u t' key1 rest F hWu hFu hcapu hFfun hpu
          (by rintro b w ⟨s, hs⟩
              exact hlst b w ⟨s + 1, by simpa [List.getD] using hs⟩) h
      refine ⟨W', F', cap', pF', ?_, presR⟩
      rintro b w ⟨s, hs⟩
      cases s with
      | zero => simp [List.getD] at hs
      | succ s => exact covR b w ⟨s, by simpa [List.getD] using hs⟩
    | some p0 =>
      obtain ⟨b0, w0⟩ := p0
      rw [reinsertPairs] at h
      split at h
      next herr => cases h
      next u1 hset =>
        have hF0 : F key1 b0 w0 := hlst b0 w0 ⟨0, by simp [List.getD]⟩
        have hfunu : pairsFunctional u :=
          fun a b w w' h1 h2 => hFfun a b w w' (hpu _ _ _ h1) (hpu _ _ _ h2)
        obtain ⟨W1, cap1, get1, sub1, pres1, oldv1, facts1, okp1, _⟩ :=
          hse u u1 key1 b0 w0 hWu hfunu (Or.inl hFu) hset
        have hFu1 : wfFacts u1 := facts1 hFu
        have hpu1 : ∀ a b w, pairsProp u1 a b w → F a b w := by
          intro a b w hp
          rcases sub1 a b w hp with ⟨ha, hb, hw⟩ | hold2
          · subst ha; subst hb; subst hw
            exact hF0
          · exact hpu _ _ _ hold2
        obtain ⟨W', F', cap', pF', covR, presR⟩ :=
          hri u1 t' key1 rest F W1 hFu1 cap1 hFfun hpu1
            (by rintro b w ⟨s, hs⟩
                exact hlst b w ⟨s + 1, by simpa [List.getD] using hs⟩) h
        have hp1 : pairsProp u1 key1 b0 w0 := getItem_pairs get1
        refine ⟨W', F', cap', pF', ?_, ?_⟩
        · rintro b w ⟨s, hs⟩
          cases s with
          | zero =>
            have hsv : ((b0, w0) : String × V) = (b, w) := by
              simpa [List.getD] using hs
            cases hsv
            exact presR _ _ _ hp1
          | succ s => exact covR b w ⟨s, by simpa [List.getD] using hs⟩
        · intro a b w hp
          by_cases hab : a = key1 ∧ b = b0
          · obtain ⟨ha, hb⟩ := hab
            rw [ha, hb] at hp
            have hw0 : w = w0 := hFfun key1 b0 w w0 (hpu _ _ _ hp) hF0
            rw [ha, hb, hw0]
            exact presR _ _ _ hp1
          · exact presR _ _ _ (pres1 _ _ _ hp hab)

/-- The combined effect of the insert/rehash cluster, by induction on
the fuel. -/
theorem insertClusterOk (fuel : Nat) :
    SetOk V fuel ∧ RehashOk V fuel ∧ RehashLoopOk V fuel ∧ ReinsertOk V fuel := by
  induction fuel with
  | zero =>
    refine ⟨?_, ?_, ?_, ?_⟩
    · intro t t' k1 k2 v _ _ _ h
      rw [setItem] at h
      cases h
    · intro t t' _ _ h
      rw [rehash] at h
      cases h
    · intro old oc u t' F _ _ _ _ _ _ _ h
      rw [rehashLoop] at h
      cases h
    · intro u t' key1 lst F _ _ _ _ _ _ h
      rw [reinsertPairs] at h
      cases h
  | succ fuel ih =>
    obtain ⟨ihSet, ihRehash, ihLoop, ihReinsert⟩ := ih
    exact ⟨setOk_succ fuel ihRehash, rehashOk_succ fuel ihLoop,
      rehashLoopOk_succ fuel ihReinsert ihLoop, reinsertOk_succ fuel ihSet ihReinsert⟩

/-- Effect of any successful `__setitem__` (main workhorse form). -/
theorem setItem_effect {fuel : Nat} {t t' : DoubleKeyTable V} {k1 k2 : String} {v : V}
    (hW : preWf t) (hfun : pairsFunctional t)
    (hsu : wfFacts t ∨ ∀ w', pairsProp t k1 k2 w' → w' = v)
    (h : setItem fuel t k1 k2 v = .ok t') :
    preWf t' ∧ 2 * t'.count ≤ (t'.array.length : Int) ∧
    getItem t' k1 k2 = .ok v ∧
    (∀ a b w, pairsProp t' a b w → (a = k1 ∧ b = k2 ∧ w = v) ∨ pairsProp t a b w) ∧
    (∀ a b w, pairsProp t a b w → ¬(a = k1 ∧ b = k2) → pairsProp t' a b w) ∧
    (∀ w', pairsProp t' k1 k2 w' → w' = v) ∧
    (wfFacts t → wfFacts t') ∧
    (∀ a b w, getItem t a b = .ok w → ¬(a = k1 ∧ b = k2) → getItem t' a b = .ok w) ∧
    (wfFacts t' ∨ ∃ t1 p1 p2 e s1,
      linearProbe t k1 k2 true = .ok (t1, p1, p2) ∧
      t1.array.getD p1 none = some e ∧
      e.2.setItem k2 v = .ok s1 ∧
      t' = setStepState t1 p1 e s1) :=
  (insertClusterOk fuel).1 t t' k1 k2 v hW hfun hsu h

/-- Every capacity in the default ladder is positive. -/
theorem ladder_pos : ∀ i, i < defaultTableSizes.length → 0 < defaultTableSizes.getD i 0 := by
  decide

/-- An array with exactly one occupied slot has only that slot
occupied. -/
theorem countP_one_unique {γ : Type} {l : List (Option γ)} {s s' : Nat} {x y : γ}
    (h1 : l.countP (fun z => z.isSome) = 1)
    (hs : l.getD s none = some x) (hs' : l.getD s' none = some y) : s = s' := by
  induction l generalizing s s' with
  | nil => simp [List.getD] at hs
  | cons a rest ih =>
    cases s with
    | zero =>
      cases s' with
      | zero => rfl
      | succ s' =>
        have ha : a = some x := by simpa [List.getD] using hs
        have hr : rest.getD s' none = some y := by simpa [List.getD] using hs'
        subst ha
        rw [List.countP_cons] at h1
        simp only [Option.isSome_some, if_pos] at h1
        have hp := countP_pos_of_getD_some hr
        omega
    | succ s =>
      cases s' with
      | zero =>
        have ha : a = some y := by simpa [List.getD] using hs'
        have hr : rest.getD s none = some x := by simpa [List.getD] using hs
        subst ha
        rw [List.countP_cons] at h1
        simp only [Option.isSome_some, if_pos] at h1
        have hp := countP_pos_of_getD_some hr
        omega
      | succ s' =>
        have hr : rest.getD s none = some x := by simpa [List.getD] using hs
        have hr' : rest.getD s' none = some y := by simpa [List.getD] using hs'
        have h1' : rest.countP (fun z => z.isSome) = 1 := by
          rw [List.countP_cons] at h1
          have hp := countP_pos_of_getD_some hr
          split at h1 <;> omega
        rw [ih h1' hr hr']

/-- A positive occupied-slot count exhibits an occupied slot. -/
theorem exists_some_of_countP_pos {γ : Type} {l : List (Option γ)}
    (h : 0 < l.countP (fun z => z.isSome)) : ∃ s p, l.getD s none = some p := by
  induction l with
  | nil => simp at h
  | cons a rest ih =>
    cases a with
    | some x => exact ⟨0, x, by simp [List.getD]⟩
    | none =>
      rw [List.countP_cons] at h
      simp only [Option.isSome_none, Bool.false_eq_true, if_false,
        Nat.add_zero] at h
      obtain ⟨s, p, hs⟩ := ih h
      exact ⟨s + 1, p, by simpa [List.getD] using hs⟩

section SetStepEffects4

variable {t t1 : DoubleKeyTable V} {k1 k2 : String} {v : V}
  {p1 p2 : Nat} {e : String × LinearProbeTable V} {sub1 : LinearProbeTable V}

/-- If the landing slot's inner table had its probe facts, the updated
inner table written by the insert step has them too. -/
theorem setStep_slot_innerFacts
    (hlp : linearProbe t k1 k2 true = .ok (t1, p1, p2))
    (he : t1.array.getD p1 none = some e)
    (hs : e.2.setItem k2 v = .ok sub1)
    (hf : innerFactsP e.2) : innerFactsP sub1 := by
  obtain ⟨h0, hp1lt, hek1, hlen, hts, his, hsi, hcnt, hcases, pos, binner, hip, hposlt,
    hipt, hipf, hsub⟩ := setStep_core hlp he hs
  have h0i : 0 < e.2.array.length := Nat.lt_of_le_of_lt (Nat.zero_le _) hposlt
  have hsarr : sub1.array = e.2.array.set pos (some (k2, v)) := by rw [hsub]
  intro s p hp
  by_cases hsp : s = pos
  · rw [hsp, hsarr, getD_set_self hposlt _ _] at hp
    obtain rfl : p = (k2, v) := (Option.some.inj hp).symm
    show foundInner sub1.array k2 s
    rw [hsp]
    show probeLoop _ k2 _ _ = _
    rw [hsarr, List.length_set]
    exact probeLoop_set_self (hash2_lt h0i) hip
  · rw [hsarr, getD_set_other (fun hh => hsp hh.symm) _ _] at hp
    have hold : foundInner e.2.array p.1 s := hf s p hp
    show probeLoop _ p.1 _ _ = _
    rw [hsarr, List.length_set]
    exact probe_facts_mono (hash2_lt h0i) hip hold

end SetStepEffects4

/-- Effect of the inner-level repair loop of `__delitem__`: the walk
keeps every surviving entry, invents none, restores all inner probe
facts, and never increases the number of occupied slots. -/
theorem delInnerWhile_effect :
    ∀ (fuel : Nat) (sub sub' : LinearProbeTable V) (pos : Nat) (G : String → V → Prop),
    (∀ b w w', G b w → G b w' → w = w') →
    sub.array.length = 5 →
    pos < sub.array.length →
    sub.count = (sub.array.countP (fun s => s.isSome) : Int) →
    (∀ s p, sub.array.getD s none = some p → G p.1 p.2) →
    (∀ s p, sub.array.getD s none = some p →
      foundInner sub.array p.1 s ∨ zoneFrom sub.array pos s) →
    delInnerWhile fuel sub pos = .ok sub' →
    sub'.sizes = sub.sizes ∧ sub'.array.length = 5 ∧
    sub'.count = (sub'.array.countP (fun s => s.isSome) : Int) ∧
    (∀ s p, sub'.array.getD s none = some p → G p.1 p.2) ∧
    innerFactsP sub' ∧
    (∀ b w, lstPairs sub.array b w → lstPairs sub'.array b w) ∧
    sub'.array.countP (fun s => s.isSome) ≤ sub.array.countP (fun s => s.isSome) := by
  intro fuel
  induction fuel with
  | zero =>
    intro sub sub' pos G _ _ _ _ _ _ h
    rw [delInnerWhile] at h
    cases h
  | succ fuel ih =>
    intro sub sub' pos G hGf hlen hpos hcnt hG hfz h
    rw [delInnerWhile] at h
    split at h
    next hnone =>
      obtain rfl : sub = sub' := Except.ok.inj h
      refine ⟨rfl, hlen, hcnt, hG, ?_, fun b w hp => hp, le_refl _⟩
      intro s p hs
      rcases hfz s p hs with hf | hz
      · exact hf
      · obtain ⟨j, _, _, hocc⟩ := hz
        have h00 := hocc 0 (Nat.zero_le _)
        rw [Nat.add_zero, Nat.mod_eq_of_lt hpos, hnone] at h00
        simp at h00
    next b w hsome =>
      dsimp only at h
      split at h
      next e herr => cases h
      next sub2 hset =>
        obtain ⟨r, fnd, hprobe, hsub2⟩ := innerSetItem_ok_decomp hset
        dsimp only at hprobe hsub2
        have hlset : (sub.array.set pos none).length = sub.array.length :=
          List.length_set _ _ _
        have h05 : 0 < sub.array.length := by omega
        have hset0 : 0 < (sub.array.set pos none).length := by rw [hlset]; omega
        have hrlt' : r < (sub.array.set pos none).length :=
          probeLoop_ok_lt (hash2_lt hset0) hprobe
        have hrlt : r < sub.array.length := by rw [← hlset]; exact hrlt'
        have hs2arr : sub2.array = (sub.array.set pos none).set r (some (b, w)) := by
          rw [hsub2]
        have hs2len : sub2.array.length = 5 := by
          rw [hs2arr, List.length_set, hlset, hlen]
        have hs2sizes : sub2.sizes = sub.sizes := by rw [hsub2]
        have hs2cnt : sub2.count =
            if fnd then sub.count - 1 else sub.count - 1 + 1 := by
          rw [hsub2]
        have hcntP1 : (sub.array.set pos none).countP (fun s => s.isSome) + 1 =
            sub.array.countP (fun s => s.isSome) := countP_isSome_clear hsome
        have hcc2 : sub2.count = ((sub2.array.countP (fun s => s.isSome)) : Int) ∧
            sub2.array.countP (fun s => s.isSome) ≤
              sub.array.countP (fun s => s.isSome) := by
          cases fnd with
          | true =>
            obtain ⟨pr, hpr, _⟩ := probeLoop_found_key (hash2_lt hset0) hprobe
            have hcp : sub2.array.countP (fun s => s.isSome) =
                (sub.array.set pos none).countP (fun s => s.isSome) := by
              rw [hs2arr]
              exact countP_isSome_set_some hpr
            constructor
            · rw [hs2cnt, if_pos rfl, hcnt, hcp]
              push_cast
              omega
            · rw [hcp]
              omega
          | false =>
            have hnn := probeLoop_miss_none (hash2_lt hset0) hprobe
            have hcp : sub2.array.countP (fun s => s.isSome) =
                (sub.array.set pos none).countP (fun s => s.isSome) + 1 := by
              rw [hs2arr]
              exact countP_isSome_set_none hrlt' hnn
            constructor
            · rw [hs2cnt, if_neg (by simp), hcnt, hcp]
              push_cast
              omega
            · rw [hcp]
              omega
        have hG2 : ∀ s p, sub2.array.getD s none = some p → G p.1 p.2 := by
          intro s p hs
          rw [hs2arr] at hs
          by_cases hsr : s = r
          · rw [hsr, getD_set_self hrlt' _ _] at hs
            obtain rfl : p = (b, w) := (Option.some.inj hs).symm
            exact hG pos (b, w) hsome
          · rw [getD_set_other (fun hh => hsr hh.symm) _ _] at hs
            by_cases hsp : s = pos
            · rw [hsp, getD_set_self hpos _ _] at hs
              cases hs
            · rw [getD_set_other (fun hh => hsp hh.symm) _ _] at hs
              exact hG s p hs
        have hanchor : (pos + 1) % sub2.array.length = (pos + 1) % sub.array.length := by
          rw [hs2len, hlen]
        have hfz2 : ∀ s p, sub2.array.getD s none = some p →
            foundInner sub2.array p.1 s ∨
              zoneFrom sub2.array ((pos + 1) % sub2.array.length) s := by
          intro s p hs
          rw [hs2arr] at hs
          by_cases hsr : s = r
          · left
            rw [hsr, getD_set_self hrlt' _ _] at hs
            obtain rfl : p = (b, w) := (Option.some.inj hs).symm
            show probeLoop sub2.array b (hash2 b sub2.array.length)
              sub2.array.length = .ok (s, true)
            rw [hsr, hs2arr, List.length_set]
            exact probeLoop_set_self (hash2_lt hset0) hprobe
          · rw [getD_set_other (fun hh => hsr hh.symm) _ _] at hs
            have hsp : s ≠ pos := by
              intro hsp
              rw [hsp, getD_set_self hpos _ _] at hs
              cases hs
            rw [getD_set_other (fun hh => hsp hh.symm) _ _] at hs
            rcases hfz s p hs with hf | hz
            · have hf' : probeLoop sub.array p.1 (hash2 p.1 sub.array.length)
                  sub.array.length = .ok (s, true) := hf
              rcases found_after_clear (hash2_lt h05) hpos hf' hsp with hf1 | hz1
              · left
                show probeLoop sub2.array p.1 (hash2 p.1 sub2.array.length)
                  sub2.array.length = .ok (s, true)
                rw [hs2arr, List.length_set, hlset]
                exact probe_facts_mono (hash2_lt hset0) hprobe hf1
              · right
                rw [hanchor, hs2arr]
                exact zone_mono_set_some hrlt' hz1
            · right
              rw [hanchor, hs2arr]
              exact zone_mono_set_some hrlt' (zone_past_clear hpos hz hsp)
        have hpos2 : (pos + 1) % sub2.array.length < sub2.array.length :=
          Nat.mod_lt _ (by omega)
        obtain ⟨hS, hL, hC, hGr, hFr, hPr, hCPr⟩ :=
          ih sub2 sub' ((pos + 1) % sub2.array.length) G hGf hs2len hpos2
            hcc2.1 hG2 hfz2 h
        refine ⟨hS.trans hs2sizes, hL, hC, hGr, hFr, ?_, le_trans hCPr hcc2.2⟩
        intro b' w' hp
        apply hPr
        obtain ⟨s, hs⟩ := hp
        by_cases hsp : s = pos
        · rw [hsp, hsome] at hs
          obtain ⟨rfl, rfl⟩ : b = b' ∧ w = w' := by
            have := Option.some.inj hs
            exact ⟨congrArg Prod.fst this, congrArg Prod.snd this⟩
          exact ⟨r, by rw [hs2arr]; exact getD_set_self hrlt' _ _⟩
        · by_cases hsr : s = r
          · cases fnd with
            | false =>
              have hnn := probeLoop_miss_none (hash2_lt hset0) hprobe
              rw [getD_set_other (fun hh => hsp (hsr.trans hh.symm)) _ _] at hnn
              rw [hsr, hnn] at hs
              cases hs
            | true =>
              obtain ⟨pr, hpr, hprk⟩ := probeLoop_found_key (hash2_lt hset0) hprobe
              have hGs : G b' w' := hG s (b', w') hs
              have hGp : G b w := hG pos (b, w) hsome
              rw [getD_set_other (fun hh => hsp (hsr.trans hh.symm)) _ _] at hpr
              rw [hsr, hpr] at hs
              obtain rfl : pr = (b', w') := Option.some.inj hs
              have hb : b' = b := hprk
              have hw : w' = w := by
                rw [hb] at hGs
                exact hGf b w' w hGs hGp
              refine ⟨r, ?_⟩
              rw [hs2arr, getD_set_self hrlt' _ _, hb, hw]
          · refine ⟨s, ?_⟩
            rw [hs2arr, getD_set_other (fun hh => hsr hh.symm) _ _,
              getD_set_other (fun hh => hsp hh.symm) _ _]
            exact hs

/-- Effect of the inner `for` loop of the outer-level `__delitem__`
repair: processing slot `pos` from item index `i` on preserves the
invariant, re-anchors the pending zone one step later, restores all
inner probe facts, and keeps every stored pair.  In live mode slot
`pos` still holds the iterated object; after a `_rehash` the object is
orphaned and the walk continues in dead mode on the frozen copy. -/
theorem delInnerForLoop_effect :
    ∀ (fuel : Nat) (t t' : DoubleKeyTable V) (live : Bool)
      (sub : LinearProbeTable V) (pos : Nat) (key1 : String) (i m : Nat)
      (F : String → String → V → Prop),
    (∀ a b w w', F a b w → F a b w' → w = w') →
    preWf t →
    2 * t.count ≤ (t.array.length : Int) →
    (∀ a b w, pairsProp t a b w → F a b w) →
    (∀ s p, sub.array.getD s none = some p → F key1 p.1 p.2) →
    ((live = true ∧ t.array.getD pos none = some (key1, sub) ∧
        (∀ q e, t.array.getD q none = some e → q ≠ pos → innerFactsP e.2) ∧
        (∀ q e, t.array.getD q none = some e → 0 < e.2.count →
          foundOuter t.array e.1 q ∨
            (pos < t.array.length ∧ zoneFrom t.array pos q)) ∧
        ((innerFactsP sub ∧ (foundOuter t.array key1 pos ∨
            ∀ j, j < i → sub.array.getD j none = none)) ∨
         ((∀ r b2, probeLoop t.array key1 (hash1 key1 t.array.length)
             t.array.length = .ok (r, b2) → r ≠ pos) ∧
          ∀ j, j < i → sub.array.getD j none = none))) ∨
      (live = false ∧ wfFacts t)) →
    5 ≤ m →
    delInnerForLoop fuel t live sub pos key1 i m = .ok t' →
    preWf t' ∧ 2 * t'.count ≤ (t'.array.length : Int) ∧
    (∀ a b w, pairsProp t' a b w → F a b w) ∧
    (∀ q e, t'.array.getD q none = some e → innerFactsP e.2) ∧
    (∀ q e, t'.array.getD q none = some e → 0 < e.2.count →
      foundOuter t'.array e.1 q ∨
        zoneFrom t'.array ((pos + 1) % t'.array.length) q) ∧
    (∀ a b w, pairsProp t a b w → pairsProp t' a b w) := by
  intro fuel
  induction fuel with
  | zero =>
    intro t t' live sub pos key1 i m F _ _ _ _ _ _ _ h
    rw [delInnerForLoop] at h
    cases h
  | succ fuel ih =>
    intro t t' live sub pos key1 i m F HFf hW hcap hC HS HM hm h
    rw [delInnerForLoop] at h
    split at h
    case isFalse hnlt =>
      obtain rfl : t = t' := Except.ok.inj h
      have him : m ≤ i := Nat.le_of_not_lt hnlt
      rcases HM with ⟨-, hslot, HD, HE, hmode⟩ | ⟨-, hFt⟩
      · refine ⟨hW, hcap, hC, ?_, ?_, fun _ _ _ hp => hp⟩
        · intro q e hq
          by_cases hqp : q = pos
          · rw [hqp, hslot] at hq
            obtain rfl : e = (key1, sub) := (Option.some.inj hq).symm
            obtain ⟨_, hsub5, _⟩ := hW.innerWf pos (key1, sub) hslot
            dsimp only at hsub5
            rcases hmode with ⟨hf, _⟩ | ⟨_, hpre⟩
            · exact hf
            · intro s p hp
              have hs5 : s < sub.array.length := by
                by_contra hge
                rw [getD_none_of_ge (Nat.le_of_not_lt hge) _] at hp
                cases hp
              rw [hpre s (by omega)] at hp
              cases hp
          · exact HD q e hq hqp
        · intro q e hq hc
          by_cases hqp : q = pos
          · rw [hqp, hslot] at hq
            obtain rfl : e = (key1, sub) := (Option.some.inj hq).symm
            obtain ⟨_, hsub5, hsubc⟩ := hW.innerWf pos (key1, sub) hslot
            dsimp only at hsub5 hsubc hc
            have hemptyC : (∀ j, j < i → sub.array.getD j none = none) → False := by
              intro hpre
              have hcp : 0 < sub.array.countP (fun s => s.isSome) := by
                by_contra hz
                have hz0 : sub.array.countP (fun s => s.isSome) = 0 := by omega
                rw [hsubc, hz0] at hc
                simp at hc
              obtain ⟨s0, p0, hp0⟩ := exists_some_of_countP_pos hcp
              have hs05 : s0 < sub.array.length := by
                by_contra hge
                rw [getD_none_of_ge (Nat.le_of_not_lt hge) _] at hp0
                cases hp0
              rw [hpre s0 (by omega)] at hp0
              cases hp0
            rcases hmode with ⟨hf, hfo | hpre⟩ | ⟨_, hpre⟩
            · rw [hqp]
              exact Or.inl hfo
            · exact absurd hpre hemptyC
            · exact absurd hpre hemptyC
          · rcases HE q e hq hc with hf | ⟨hpl, hz⟩
            · exact Or.inl hf
            · exact Or.inr (zone_shrink hpl hz hqp)
      · exact ⟨hW, hcap, hC, fun q e hq => hFt.inner q e hq,
          fun q e hq hc => Or.inl (hFt.outer q e hq hc), fun _ _ _ hp => hp⟩
    case isTrue hlt =>
      split at h
      next hitemnone =>
        refine ih t t' live sub pos key1 (i + 1) m F HFf hW hcap hC HS ?_ hm h
        rcases HM with ⟨hl, hslot, HD, HE, hmode⟩ | hdead
        · refine Or.inl ⟨hl, hslot, HD, HE, ?_⟩
          rcases hmode with ⟨hf, hfo | hpre⟩ | ⟨hmv, hpre⟩
          · exact Or.inl ⟨hf, Or.inl hfo⟩
          · refine Or.inl ⟨hf, Or.inr ?_⟩
            intro j hj
            rcases Nat.lt_or_ge j i with hji | hji
            · exact hpre j hji
            · have : j = i := by omega
              rw [this]
              exact hitemnone
          · refine Or.inr ⟨hmv, ?_⟩
            intro j hj
            rcases Nat.lt_or_ge j i with hji | hji
            · exact hpre j hji
            · have : j = i := by omega
              rw [this]
              exact hitemnone
        · exact Or.inr hdead
      next k2 v hitem =>
        have hilen : i < sub.array.length := by
          by_contra hge
          rw [getD_none_of_ge (Nat.le_of_not_lt hge) _] at hitem
          cases hitem
        have hFv : F key1 k2 v := HS i (k2, v) hitem
        have hsubF1 : ∀ s p, (sub.array.set i none).getD s none = some p →
            F key1 p.1 p.2 := by
          intro s p hp
          by_cases hsi : s = i
          · rw [hsi, getD_set_self hilen _ _] at hp
            cases hp
          · rw [getD_set_other (fun hh => hsi hh.symm) _ _] at hp
            exact HS s p hp
        rcases HM with ⟨hl, hslot, HD, HE, hmode⟩ | ⟨hl, hFt⟩
        · -- live: the object is still the one in slot `pos`
          subst hl
          have hposlen : pos < t.array.length := by
            by_contra hge
            rw [getD_none_of_ge (Nat.le_of_not_lt hge) _] at hslot
            cases hslot
          obtain ⟨hsubsz, hsub5, hsubc⟩ := hW.innerWf pos (key1, sub) hslot
          dsimp only at hsubsz hsub5 hsubc
          set sub1 : LinearProbeTable V := { sub with array := sub.array.set i none, count := sub.count - 1 } with hsub1def
          set t1 : DoubleKeyTable V := { t with array := t.array.set pos (some (key1, sub1)) } with ht1def
          have ht1arr : t1.array = t.array.set pos (some (key1, sub1)) := rfl
          have t1slot : t1.array.getD pos none = some (key1, sub1) := by
            rw [ht1arr]
            exact getD_set_self hposlen _ _
          have ht1len : t1.array.length = t.array.length := by
            rw [ht1arr]
            exact List.length_set _ _ _
          have hkeyEq : ∀ key fl ps, probeLoop t1.array key ps fl =
              probeLoop t.array key ps fl := by
            intro key fl ps
            show probeLoop (t.array.set pos (some (key1, sub1))) key ps fl = _
            exact probeLoop_set_keyEq (x := sub1) hslot fl ps
          have hcntP1 : sub1.array.countP (fun s => s.isSome) + 1 =
              sub.array.countP (fun s => s.isSome) := countP_isSome_clear hitem
          have hW1 : preWf t1 := by
            refine ⟨hW.sizesEq, hW.internalEq, hW.idxLt, ?_, ?_, ?_⟩
            · show (t.array.set pos (some (key1, sub1))).length = _
              rw [List.length_set]
              exact hW.lenEq
            · show ((t.array.set pos (some (key1, sub1))).countP
                (fun s => s.isSome) : Int) ≤ t.count
              rw [countP_isSome_set_some hslot]
              exact hW.countSlots
            · intro q e hq
              by_cases hqp : q = pos
              · rw [hqp, t1slot] at hq
                obtain rfl : e = (key1, sub1) := (Option.some.inj hq).symm
                refine ⟨hsubsz, ?_, ?_⟩
                · show (sub.array.set i none).length = 5
                  rw [List.length_set]
                  exact hsub5
                · show sub.count - 1 = ((sub1.array.countP (fun s => s.isSome)) : Int)
                  have hcb : sub1.array.countP (fun s => s.isSome) + 1 =
                      sub.array.countP (fun s => s.isSome) := hcntP1
                  rw [hsubc]
                  omega
              · rw [ht1arr, getD_set_other (fun hh => hqp hh.symm) _ _] at hq
                exact hW.innerWf q e hq
          have hpairs1 : ∀ a b w, pairsProp t1 a b w → pairsProp t a b w := by
            rintro a b w ⟨q, e0, s, hq, hk0, hps⟩
            by_cases hqp : q = pos
            · rw [hqp, t1slot] at hq
              obtain rfl : e0 = (key1, sub1) := (Option.some.inj hq).symm
              dsimp only at hps hk0
              have hsi : s ≠ i := by
                intro hsi
                rw [hsi] at hps
                have : (sub.array.set i none).getD i none = none :=
                  getD_set_self hilen _ _
                rw [this] at hps
                cases hps
              rw [getD_set_other (fun hh => hsi hh.symm) _ _] at hps
              exact ⟨pos, (key1, sub), s, hslot, hk0, hps⟩
            · rw [ht1arr, getD_set_other (fun hh => hqp hh.symm) _ _] at hq
              exact ⟨q, e0, s, hq, hk0, hps⟩
          have hC1 : ∀ a b w, pairsProp t1 a b w → F a b w :=
            fun a b w hp => hC a b w (hpairs1 a b w hp)
          dsimp only at h
          split at h
          next e1 hlpe => cases h
          next t1a p1 p2x hlpx =>
            have hlp1 : linearProbe t1 key1 k2 true = .ok (t1a, p1, p2x) := hlpx
            split at h
            next hnonex => cases h
            next k1s subp hex =>
              split at h
              next errv hserr => cases h
              next subp1 hsx =>
                obtain ⟨h0b, hp1ltb, hek1b, hlenb, htsb, hisb, hsib, hcntb, hcasesb,
                  ipos, binner, hipb, hiposlt, hiptb, hipfb, hsubb⟩ :=
                  setStep_core hlp1 hex hsx
                have hmetab := setStep_meta hlp1 hex hsx
                set T2 : DoubleKeyTable V := { t1a with array := t1a.array.set p1 (some (k1s, subp1)), count := if subp.count = 0 then t1a.count + 1 else t1a.count } with hT2def
                have hT2S : T2 = setStepState t1a p1 (k1s, subp) subp1 := rfl
                have hmain : (if 2 * T2.count > (T2.array.length : Int) then
                    match rehash fuel T2 with
                    | Except.error e => Except.error e
                    | Except.ok t3 => delInnerForLoop fuel t3 false
                        (match T2.array.getD pos none with
                         | some e => e.2
                         | none => sub1) pos key1 (i + 1) m
                  else delInnerForLoop fuel T2 true
                      (match T2.array.getD pos none with
                       | some e => e.2
                       | none => sub1) pos key1 (i + 1) m) = Except.ok t' := h
                have hW2 : preWf T2 := by
                  rw [hT2S]
                  refine ⟨?_, ?_, ?_, ?_, ?_, ?_⟩
                  · rw [hmetab.2.1]
                    exact hW1.sizesEq
                  · rw [hmetab.2.2.1]
                    exact hW1.internalEq
                  · rw [hmetab.2.2.2.1]
                    exact hW1.idxLt
                  · rw [hmetab.1, hmetab.2.2.2.1]
                    exact hW1.lenEq
                  · exact setStep_countSlots hlp1 hex hsx hW1.countSlots
                  · exact setStep_innerWfAll hlp1 hex hsx hW1.innerWf hW1.internalEq
                have hpresT2 : ∀ a b w, pairsProp t a b w → pairsProp T2 a b w := by
                  rw [hT2S]
                  intro a b w hp
                  by_cases hab : a = key1 ∧ b = k2
                  · obtain ⟨ha, hb⟩ := hab
                    have hFw : F a b w := hC a b w hp
                    rw [ha, hb] at hFw
                    have hwv : w = v := HFf key1 k2 w v hFw hFv
                    rw [ha, hb, hwv]
                    exact setStep_pairs_new hlp1 hex hsx
                  · refine setStep_pairs_pres hlp1 hex hsx a b w ?_ hab
                    obtain ⟨q, e0, s, hq, hk0, hps⟩ := hp
                    by_cases hqp : q = pos
                    · rw [hqp, hslot] at hq
                      obtain rfl : e0 = (key1, sub) := (Option.some.inj hq).symm
                      dsimp only at hps hk0
                      have hsi : s ≠ i := by
                        intro hsi
                        rw [hsi, hitem] at hps
                        have hpv := Option.some.inj hps
                        refine hab ⟨?_, ?_⟩
                        · exact hk0.symm
                        · exact (congrArg Prod.fst hpv).symm
                      refine ⟨pos, (key1, sub1), s, t1slot, hk0, ?_⟩
                      show (sub.array.set i none).getD s none = some (b, w)
                      rw [getD_set_other (fun hh => hsi hh.symm) _ _]
                      exact hps
                    · refine ⟨q, e0, s, ?_, hk0, hps⟩
                      rw [ht1arr, getD_set_other (fun hh => hqp hh.symm) _ _]
                      exact hq
                have hC2 : ∀ a b w, pairsProp T2 a b w → F a b w := by
                  rw [hT2S]
                  intro a b w hp
                  rcases setStep_pairs_sub hlp1 hex hsx a b w hp with ⟨ha, hb, hw⟩ | hold
                  · rw [ha, hb, hw]
                    exact hFv
                  · exact hC1 a b w hold
                split at hmain
                next hgt =>
                  -- the insert crossed the load factor: `_rehash` runs and
                  -- the iterated object is orphaned
                  split at hmain
                  next e3 hrerr => cases hmain
                  next t3 hreh =>
                    have hposE : ∃ subX, T2.array.getD pos none =
                        some (key1, subX) := by
                      by_cases hp1pos : p1 = pos
                      · refine ⟨subp1, ?_⟩
                        have hp1a : p1 < t1a.array.length := by
                          rw [hlenb]
                          exact hp1ltb
                        rw [hT2S]
                        show (t1a.array.set p1
                          (some ((k1s, subp).1, subp1))).getD pos none = _
                        rw [← hp1pos, getD_set_self hp1a _ _, hek1b]
                      · refine ⟨sub1, ?_⟩
                        rw [hT2S]
                        show (t1a.array.set p1
                          (some ((k1s, subp).1, subp1))).getD pos none = _
                        rw [getD_set_other hp1pos _ _]
                        rcases hcasesb with ⟨ht1aeq, _⟩ | ⟨_, ht1aeq, _, _⟩
                        · rw [ht1aeq]
                          exact t1slot
                        · rw [ht1aeq]
                          show ((t1.array.set p1 _).getD pos none) = _
                          rw [getD_set_other hp1pos _ _]
                          exact t1slot
                    obtain ⟨subX, hposX⟩ := hposE
                    have hfun2 : pairsFunctional T2 :=
                      fun a b w w' h1 h2 => HFf a b w w' (hC2 a b w h1) (hC2 a b w' h2)
                    obtain ⟨W3, cap3, hF3, cover3, back3⟩ :=
                      (insertClusterOk fuel).2.1 T2 t3 hW2 hfun2 hreh
                    have hC3 : ∀ a b w, pairsProp t3 a b w → F a b w :=
                      fun a b w hp => hC2 a b w (back3 a b w hp)
                    have pres3 : ∀ a b w, pairsProp T2 a b w → pairsProp t3 a b w :=
                      fun a b w hp => getItem_pairs (cover3 a b w hp)
                    have hsubFX : ∀ s p, subX.array.getD s none = some p →
                        F key1 p.1 p.2 := by
                      intro s p hp
                      refine hC2 key1 p.1 p.2 ⟨pos, (key1, subX), s, hposX, rfl, ?_⟩
                      cases p
                      exact hp
                    rw [hposX] at hmain
                    obtain ⟨W', cap', C', HDr, HEr, presr⟩ :=
                      ih t3 t' false subX pos key1 (i + 1) m F HFf W3 cap3 hC3
                        hsubFX (Or.inr ⟨rfl, hF3⟩) hm hmain
                    exact ⟨W', cap', C', HDr, HEr, fun a b w hp =>
                      presr a b w (pres3 a b w (hpresT2 a b w hp))⟩
                next hng =>
                  have hcap2 : 2 * T2.count ≤ (T2.array.length : Int) :=
                    not_lt.mp hng
                  by_cases hp1pos : p1 = pos
                  · -- identity iteration: the probe found the key back at `pos`
                    have hcaseb2 : t1a = t1 ∧
                        probeLoop t1.array key1 (hash1 key1 t1.array.length)
                          t1.array.length = .ok (p1, true) := by
                      rcases hcasesb with h1 | ⟨hnonex2, h91, h92, h93⟩
                      · exact h1
                      · rw [hp1pos, t1slot] at hnonex2
                        cases hnonex2
                    obtain ⟨ht1aeq, hprobe1⟩ := hcaseb2
                    rw [ht1aeq, hp1pos, t1slot] at hex
                    obtain ⟨hk1seq, hsubpeq⟩ : key1 = k1s ∧ sub1 = subp := by
                      have := Option.some.inj hex
                      exact ⟨congrArg Prod.fst this, congrArg Prod.snd this⟩
                    subst hk1seq
                    subst hsubpeq
                    have hfactsub : innerFactsP sub := by
                      rcases hmode with ⟨hf, _⟩ | ⟨hmv, _⟩
                      · exact hf
                      · exfalso
                        have hpt : probeLoop t.array key1
                            (hash1 key1 t.array.length) t.array.length =
                            .ok (pos, true) := by
                          have := hprobe1
                          rw [ht1len, hkeyEq] at this
                          rw [← hp1pos]
                          exact this
                        exact hmv pos true hpt rfl
                    have hfoT : foundOuter t.array key1 pos := by
                      show probeLoop t.array key1 (hash1 key1 t.array.length)
                        t.array.length = .ok (pos, true)
                      have := hprobe1
                      rw [ht1len, hkeyEq] at this
                      rw [← hp1pos]
                      exact this
                    have hfi : foundInner sub.array k2 i := hfactsub i (k2, v) hitem
                    have hsub05 : 0 < sub.array.length := by omega
                    have hclear : probeLoop (sub.array.set i none) k2
                        (hash2 k2 sub.array.length) sub.array.length =
                        .ok (i, false) :=
                      probe_clear_self (hash2_lt hsub05) hfi
                    have hip2 : probeLoop sub1.array k2
                        (hash2 k2 sub1.array.length) sub1.array.length =
                        .ok (i, false) := by
                      show probeLoop (sub.array.set i none) k2
                        (hash2 k2 (sub.array.set i none).length)
                        (sub.array.set i none).length = _
                      rw [List.length_set]
                      exact hclear
                    have hib : (ipos, binner) = (i, false) := by
                      have := hipb
                      dsimp only at this
                      rw [hip2] at this
                      exact (Except.ok.inj this).symm
                    obtain ⟨hipos, hbinner⟩ : ipos = i ∧ binner = false :=
                      ⟨congrArg Prod.fst hib, congrArg Prod.snd hib⟩
                    have ha1 : sub1.array.set i (some (k2, v)) = sub.array := by
                      show (sub.array.set i none).set i (some (k2, v)) = sub.array
                      rw [List.set_set]
                      exact set_getD_self_eq hitem hilen
                    have hc1 : sub1.count + 1 = sub.count := by
                      show sub.count - 1 + 1 = sub.count
                      omega
                    have hs1eq : subp1 = sub := by
                      rw [hsubb, hipos, hbinner]
                      simp only [Bool.false_eq_true, if_false]
                      rw [ha1, hc1]
                    have ht2arr : T2.array = t.array := by
                      rw [hT2S]
                      show t1a.array.set p1 (some ((key1, sub1).1, subp1)) = t.array
                      rw [ht1aeq, hp1pos, hs1eq]
                      show (t.array.set pos (some (key1, sub1))).set pos
                        (some (key1, sub)) = t.array
                      rw [List.set_set]
                      exact set_getD_self_eq hslot hposlen
                    have hslotT2 : T2.array.getD pos none = some (key1, sub) := by
                      rw [ht2arr]
                      exact hslot
                    have HD2 : ∀ q e, T2.array.getD q none = some e → q ≠ pos →
                        innerFactsP e.2 := by
                      intro q e hq hqp
                      rw [ht2arr] at hq
                      exact HD q e hq hqp
                    have HE2 : ∀ q e, T2.array.getD q none = some e → 0 < e.2.count →
                        foundOuter T2.array e.1 q ∨
                          (pos < T2.array.length ∧ zoneFrom T2.array pos q) := by
                      intro q e hq hc
                      rw [ht2arr] at hq ⊢
                      exact HE q e hq hc
                    have hfoT2 : foundOuter T2.array key1 pos := by
                      show probeLoop T2.array key1 (hash1 key1 T2.array.length)
                        T2.array.length = .ok (pos, true)
                      rw [ht2arr]
                      exact hfoT
                    have hposX : T2.array.getD pos none = some (key1, subp1) := by
                      rw [hs1eq]
                      exact hslotT2
                    rw [hposX, hs1eq] at hmain
                    obtain ⟨W', cap', C', HDr, HEr, presr⟩ :=
                      ih T2 t' true sub pos key1 (i + 1) m F HFf hW2 hcap2 hC2 HS
                        (Or.inl ⟨rfl, hslotT2, HD2, HE2,
                          Or.inl ⟨hfactsub, Or.inl hfoT2⟩⟩) hm hmain
                    exact ⟨W', cap', C', HDr, HEr, fun a b w hp =>
                      presr a b w (hpresT2 a b w hp)⟩
                  · -- the pair moved to a different slot: move-out mode
                    have hposX : T2.array.getD pos none = some (key1, sub1) := by
                      rw [hT2S]
                      show (t1a.array.set p1
                        (some ((k1s, subp).1, subp1))).getD pos none = _
                      rw [getD_set_other hp1pos _ _]
                      rcases hcasesb with ⟨ht1aeq, _⟩ | ⟨_, ht1aeq, _, _⟩
                      · rw [ht1aeq]
                        exact t1slot
                      · rw [ht1aeq]
                        show ((t1.array.set p1 _).getD pos none) = _
                        rw [getD_set_other hp1pos _ _]
                        exact t1slot
                    have hprefix : ∀ j, j < i → sub.array.getD j none = none := by
                      rcases hmode with ⟨hf, hfo | hpre⟩ | ⟨_, hpre⟩
                      · exfalso
                        rcases hcasesb with ⟨ht1aeq, hprobe1⟩ | ⟨_, _, hprobe1, _⟩ <;>
                          · have hfo1 : probeLoop t1.array key1
                                (hash1 key1 t1.array.length) t1.array.length =
                                .ok (pos, true) := by
                              rw [ht1len, hkeyEq]
                              exact hfo
                            rw [hfo1] at hprobe1
                            have := congrArg Prod.fst (Except.ok.inj hprobe1)
                            exact hp1pos this.symm
                      · exact hpre
                      · exact hpre
                    have hfo2 : foundOuter T2.array key1 p1 := by
                      rw [hT2S]
                      have := (setStep_found hlp1 hex hsx).1
                      exact this
                    have ht2len : T2.array.length = t.array.length := by
                      rw [hT2S]
                      show (t1a.array.set p1 _).length = _
                      rw [List.length_set, hlenb, ht1len]
                    have HD2 : ∀ q e, T2.array.getD q none = some e → q ≠ pos →
                        innerFactsP e.2 := by
                      intro q e hq hqp
                      by_cases hqx : q = p1
                      · have hslot2 : T2.array.getD p1 none =
                            some ((k1s, subp).1, subp1) := by
                          rw [hT2S]
                          exact (setStep_found hlp1 hex hsx).2
                        rw [hqx, hslot2] at hq
                        obtain rfl : e = ((k1s, subp).1, subp1) :=
                          (Option.some.inj hq).symm
                        show innerFactsP subp1
                        refine setStep_slot_innerFacts hlp1 hex hsx ?_
                        rcases hcasesb with ⟨ht1aeq, _⟩ | ⟨hnonex2, _, _, hexmk⟩
                        · rw [ht1aeq, ht1arr] at hex
                          rw [getD_set_other
                            (fun hh => (hqx ▸ hqp : p1 ≠ pos) hh.symm) _ _] at hex
                          exact HD p1 (k1s, subp) hex (hqx ▸ hqp)
                        · rw [hexmk]
                          intro s p hp
                          simp only [LinearProbeTable.mk0] at hp
                          rw [getD_replicate_none] at hp
                          cases hp
                      · have hq' : t.array.getD q none = some e := by
                          have hstep := setStep_slot_other hlp1 hex hsx q hqx
                          rw [← hT2S] at hstep
                          rw [hstep] at hq
                          rw [ht1arr, getD_set_other (fun hh => hqp hh.symm) _ _] at hq
                          exact hq
                        exact HD q e hq' hqp
                    have HE2 : ∀ q e, T2.array.getD q none = some e → 0 < e.2.count →
                        foundOuter T2.array e.1 q ∨
                          (pos < T2.array.length ∧ zoneFrom T2.array pos q) := by
                      intro q e hq hc
                      by_cases hqx : q = p1
                      · left
                        have hslot2 : T2.array.getD p1 none =
                            some ((k1s, subp).1, subp1) := by
                          rw [hT2S]
                          exact (setStep_found hlp1 hex hsx).2
                        rw [hqx, hslot2] at hq
                        obtain rfl : e = ((k1s, subp).1, subp1) :=
                          (Option.some.inj hq).symm
                        rw [hqx]
                        show foundOuter T2.array ((k1s, subp).1, subp1).1 p1
                        rw [hek1b]
                        exact hfo2
                      · by_cases hqp : q = pos
                        · right
                          refine ⟨by rw [ht2len]; exact hposlen, 0, ?_, ?_, ?_⟩
                          · rw [ht2len]
                            omega
                          · rw [hqp, Nat.add_zero, Nat.mod_eq_of_lt
                              (by rw [ht2len]; exact hposlen)]
                          · intro ii hii
                            have hii0 : ii = 0 := by omega
                            rw [hii0, Nat.add_zero, Nat.mod_eq_of_lt
                              (by rw [ht2len]; exact hposlen), hposX]
                            rfl
                        · have hq' : t.array.getD q none = some e := by
                            have hstep := setStep_slot_other hlp1 hex hsx q hqx
                            rw [← hT2S] at hstep
                            rw [hstep] at hq
                            rw [ht1arr, getD_set_other
                              (fun hh => hqp hh.symm) _ _] at hq
                            exact hq
                          rcases HE q e hq' hc with hf | ⟨hpl, hz⟩
                          · left
                            have hf1 : foundOuter t1.array e.1 q := by
                              show probeLoop t1.array e.1 (hash1 e.1 t1.array.length)
                                t1.array.length = .ok (q, true)
                              rw [ht1len, hkeyEq]
                              exact hf
                            have := setStep_factsOuterMono hlp1 hex hsx e.1 q hf1
                            rw [← hT2S] at this
                            exact this
                          · right
                            refine ⟨by rw [ht2len]; exact hpl, ?_⟩
                            have hz1 : zoneFrom t1.array pos q := by
                              rw [ht1arr]
                              exact zone_mono_set_some hposlen hz
                            have hz1x : zoneFrom t1a.array pos q := by
                              rcases hcasesb with ⟨ht1aeq, _⟩ | ⟨_, ht1aeq, _, _⟩
                              · rw [ht1aeq]
                                exact hz1
                              · rw [ht1aeq]
                                show zoneFrom (t1.array.set p1 _) pos q
                                exact zone_mono_set_some hp1ltb hz1
                            rw [hT2S]
                            show zoneFrom
                              (t1a.array.set p1 (some ((k1s, subp).1, subp1))) pos q
                            exact zone_mono_set_some
                              (by rw [hlenb]; exact hp1ltb) hz1x
                    have hneverT2 : ∀ r b2, probeLoop T2.array key1
                        (hash1 key1 T2.array.length) T2.array.length = .ok (r, b2) →
                        r ≠ pos := by
                      intro r b2 hpr
                      have hfo2x : probeLoop T2.array key1
                          (hash1 key1 T2.array.length) T2.array.length =
                          .ok (p1, true) := hfo2
                      rw [hfo2x] at hpr
                      have hrb : (r, b2) = (p1, true) := (Except.ok.inj hpr).symm
                      have hr : r = p1 := congrArg Prod.fst hrb
                      rw [hr]
                      exact hp1pos
                    have hpre1 : ∀ j, j < i + 1 → sub1.array.getD j none = none := by
                      intro j hj
                      show (sub.array.set i none).getD j none = none
                      rcases Nat.lt_or_ge j i with hji | hji
                      · by_cases hjii : j = i
                        · omega
                        · rw [getD_set_other (fun hh => hjii hh.symm) _ _]
                          exact hprefix j hji
                      · have : j = i := by omega
                        rw [this]
                        exact getD_set_self hilen _ _
                    rw [hposX] at hmain
                    obtain ⟨W', cap', C', HDr, HEr, presr⟩ :=
                      ih T2 t' true sub1 pos key1 (i + 1) m F HFf hW2 hcap2 hC2
                        (fun s p hp => hsubF1 s p hp)
                        (Or.inl ⟨rfl, hposX, HD2, HE2, Or.inr ⟨hneverT2, hpre1⟩⟩)
                        hm hmain
                    exact ⟨W', cap', C', HDr, HEr, fun a b w hp =>
                      presr a b w (hpresT2 a b w hp)⟩
        · -- the object is orphaned: re-inserts act only on the current table
          subst hl
          set sub1 : LinearProbeTable V := { sub with array := sub.array.set i none, count := sub.count - 1 } with hsub1def
          dsimp only at h
          split at h
          next e1 hlpe => cases h
          next t1a p1 p2x hlpx =>
            have hlp0 : linearProbe t key1 k2 true = .ok (t1a, p1, p2x) := hlpx
            split at h
            next hnonex => cases h
            next k1s subp hex =>
              split at h
              next errv hserr => cases h
              next subp1 hsx =>
                have hmetab := setStep_meta hlp0 hex hsx
                set T2 : DoubleKeyTable V := { t1a with array := t1a.array.set p1 (some (k1s, subp1)), count := if subp.count = 0 then t1a.count + 1 else t1a.count } with hT2def
                have hT2S : T2 = setStepState t1a p1 (k1s, subp) subp1 := rfl
                have hmain : (if 2 * T2.count > (T2.array.length : Int) then
                    match rehash fuel T2 with
                    | Except.error e => Except.error e
                    | Except.ok t3 => delInnerForLoop fuel t3 false sub1
                        pos key1 (i + 1) m
                  else delInnerForLoop fuel T2 false sub1
                      pos key1 (i + 1) m) = Except.ok t' := h
                have hW2 : preWf T2 := by
                  rw [hT2S]
                  refine ⟨?_, ?_, ?_, ?_, ?_, ?_⟩
                  · rw [hmetab.2.1]
                    exact hW.sizesEq
                  · rw [hmetab.2.2.1]
                    exact hW.internalEq
                  · rw [hmetab.2.2.2.1]
                    exact hW.idxLt
                  · rw [hmetab.1, hmetab.2.2.2.1]
                    exact hW.lenEq
                  · exact setStep_countSlots hlp0 hex hsx hW.countSlots
                  · exact setStep_innerWfAll hlp0 hex hsx hW.innerWf hW.internalEq
                have hF2 : wfFacts T2 := by
                  rw [hT2S]
                  exact setStep_wfFacts hlp0 hex hsx hFt
                have hpresT2 : ∀ a b w, pairsProp t a b w → pairsProp T2 a b w := by
                  rw [hT2S]
                  intro a b w hp
                  by_cases hab : a = key1 ∧ b = k2
                  · obtain ⟨ha, hb⟩ := hab
                    have hFw : F a b w := hC a b w hp
                    rw [ha, hb] at hFw
                    have hwv : w = v := HFf key1 k2 w v hFw hFv
                    rw [ha, hb, hwv]
                    exact setStep_pairs_new hlp0 hex hsx
                  · exact setStep_pairs_pres hlp0 hex hsx a b w hp hab
                have hC2 : ∀ a b w, pairsProp T2 a b w → F a b w := by
                  rw [hT2S]
                  intro a b w hp
                  rcases setStep_pairs_sub hlp0 hex hsx a b w hp with ⟨ha, hb, hw⟩ | hold
                  · rw [ha, hb, hw]
                    exact hFv
                  · exact hC a b w hold
                have hsubF1x : ∀ s p, sub1.array.getD s none = some p →
                    F key1 p.1 p.2 := fun s p hp => hsubF1 s p hp
                split at hmain
                next hgt =>
                  split at hmain
                  next e3 hrerr => cases hmain
                  next t3 hreh =>
                    have hfun2 : pairsFunctional T2 :=
                      fun a b w w' h1 h2 => HFf a b w w' (hC2 a b w h1) (hC2 a b w' h2)
                    obtain ⟨W3, cap3, hF3, cover3, back3⟩ :=
                      (insertClusterOk fuel).2.1 T2 t3 hW2 hfun2 hreh
                    have hC3 : ∀ a b w, pairsProp t3 a b w → F a b w :=
                      fun a b w hp => hC2 a b w (back3 a b w hp)
                    have pres3 : ∀ a b w, pairsProp T2 a b w → pairsProp t3 a b w :=
                      fun a b w hp => getItem_pairs (cover3 a b w hp)
                    obtain ⟨W', cap', C', HDr, HEr, presr⟩ :=
                      ih t3 t' false sub1 pos key1 (i + 1) m F HFf W3 cap3 hC3
                        hsubF1x (Or.inr ⟨rfl, hF3⟩) hm hmain
                    exact ⟨W', cap', C', HDr, HEr, fun a b w hp =>
                      presr a b w (pres3 a b w (hpresT2 a b w hp))⟩
                next hng =>
                  have hcap2 : 2 * T2.count ≤ (T2.array.length : Int) :=
                    not_lt.mp hng
                  obtain ⟨W', cap', C', HDr, HEr, presr⟩ :=
                    ih T2 t' false sub1 pos key1 (i + 1) m F HFf hW2 hcap2 hC2
                      hsubF1x (Or.inr ⟨rfl, hF2⟩) hm hmain
                  exact ⟨W', cap', C', HDr, HEr, fun a b w hp =>
                    presr a b w (hpresT2 a b w hp)⟩

/-- Effect of the outer-level repair walk of `__delitem__`: walking
the pending zone restores all probe facts, keeps every stored pair,
and invents none. -/
theorem delOuterLoop_effect :
    ∀ (fuel : Nat) (t t' : DoubleKeyTable V) (pos : Nat)
      (F : String → String → V → Prop),
    (∀ a b w w', F a b w → F a b w' → w = w') →
    preWf t →
    2 * t.count ≤ (t.array.length : Int) →
    (∀ a b w, pairsProp t a b w → F a b w) →
    (∀ q e, t.array.getD q none = some e → innerFactsP e.2) →
    (∀ q e, t.array.getD q none = some e → 0 < e.2.count →
      foundOuter t.array e.1 q ∨
        (pos < t.array.length ∧ zoneFrom t.array pos q)) →
    delOuterLoop fuel t pos = .ok t' →
    preWf t' ∧ 2 * t'.count ≤ (t'.array.length : Int) ∧
    (∀ a b w, pairsProp t' a b w → F a b w) ∧
    wfFacts t' ∧
    (∀ a b w, pairsProp t a b w → pairsProp t' a b w) := by
  intro fuel
  induction fuel with
  | zero =>
    intro t t' pos F _ _ _ _ _ _ h
    rw [delOuterLoop] at h
    cases h
  | succ fuel ih =>
    intro t t' pos F HFf hW hcap hC HD HE h
    rw [delOuterLoop] at h
    split at h
    next hnone =>
      obtain rfl : t = t' := Except.ok.inj h
      refine ⟨hW, hcap, hC, ⟨?_, ?_⟩, fun _ _ _ hp => hp⟩
      · intro q e hq s p hp
        exact HD q e hq s p hp
      · intro q e hq hc
        rcases HE q e hq hc with hf | ⟨hpl, hz⟩
        · exact hf
        · obtain ⟨j, _, _, hocc⟩ := hz
          have h00 := hocc 0 (Nat.zero_le _)
          rw [Nat.add_zero, Nat.mod_eq_of_lt hpl, hnone] at h00
          simp at h00
    next kk sub hslot =>
      split at h
      next herr => cases h
      next t1 hfor =>
        have hm : 5 ≤ sub.array.length := by
          obtain ⟨_, h5, _⟩ := hW.innerWf pos (kk, sub) hslot
          dsimp only at h5
          omega
        obtain ⟨W1, cap1, C1, HD1, HE1, pres1⟩ :=
          delInnerForLoop_effect fuel t t1 true sub pos kk 0 sub.array.length F
            HFf hW hcap hC
            (fun s p hp => hC kk p.1 p.2
              ⟨pos, (kk, sub), s, hslot, rfl, by cases p; exact hp⟩)
            (Or.inl ⟨rfl, hslot, (fun q e hq _ => HD q e hq), HE,
              Or.inl ⟨HD pos (kk, sub) hslot,
                Or.inr (fun j hj => absurd hj (Nat.not_lt_zero j))⟩⟩)
            hm hfor
        have hlen1 : 0 < t1.array.length := by
          rw [W1.lenEq]
          exact ladder_pos _ W1.idxLt
        have HE1' : ∀ q e, t1.array.getD q none = some e → 0 < e.2.count →
            foundOuter t1.array e.1 q ∨
              ((pos + 1) % t1.array.length < t1.array.length ∧
                zoneFrom t1.array ((pos + 1) % t1.array.length) q) := by
          intro q e hq hc
          rcases HE1 q e hq hc with hf | hz
          · exact Or.inl hf
          · exact Or.inr ⟨Nat.mod_lt _ hlen1, hz⟩
        obtain ⟨W', cap', C', F', presr⟩ :=
          ih t1 t' ((pos + 1) % t1.array.length) F HFf W1 cap1 C1 HD1 HE1' h
        exact ⟨W', cap', C', F', fun a b w hp => presr a b w (pres1 a b w hp)⟩

/-- Effect of a successful `__delitem__`: the invariant is preserved,
the deleted pair raises `KeyError`, and every other retrievable pair
stays retrievable with its value. -/
theorem delItem_effect {fuel : Nat} {t t' : DoubleKeyTable V} {k1 k2 : String}
    (hW : preWf t) (hcap : 2 * t.count ≤ (t.array.length : Int))
    (hfun : pairsFunctional t) (hF : wfFacts t)
    (h : delItem fuel t k1 k2 = .ok t') :
    preWf t' ∧ 2 * t'.count ≤ (t'.array.length : Int) ∧
    pairsFunctional t' ∧ wfFacts t' ∧
    getItem t' k1 k2 = .error .keyError ∧
    (∀ a b w, getItem t a b = .ok w → ¬(a = k1 ∧ b = k2) → getItem t' a b = .ok w) := by
  unfold delItem at h
  split at h
  next => cases h
  next tr p1 p2 hlp =>
    obtain ⟨-, hfo1, e0, he0, hek1, hfi2x, pp, hpp, hppk⟩ := linearProbe_lookup_decomp hlp
    have h0 : 0 < t.array.length := by
      by_contra hz
      have hzz : t.array.length = 0 := by omega
      rw [hzz] at hfo1
      simp [probeLoop] at hfo1
    have hp1lt : p1 < t.array.length := probeLoop_ok_lt (hash1_lt h0) hfo1
    split at h
    next hnone =>
      rw [hnone] at he0
      cases he0
    next k1s sub hslot =>
      rw [hslot] at he0
      obtain rfl : e0 = (k1s, sub) := (Option.some.inj he0).symm
      dsimp only at hek1 hfi2x hpp
      have hk1s : k1s = k1 := hek1
      obtain ⟨hsubsz, hsub5, hsubc⟩ := hW.innerWf p1 (k1s, sub) hslot
      dsimp only at hsubsz hsub5 hsubc
      have hsub0 : 0 < sub.array.length := by omega
      have hp2lt : p2 < sub.array.length := probeLoop_ok_lt (hash2_lt hsub0) hfi2x
      have hFinner : innerFactsP sub := hF.inner p1 (k1s, sub) hslot
      have hcpsub : 0 < sub.array.countP (fun z => z.isSome) :=
        countP_pos_of_getD_some hpp
      split at h
      next hc1 =>
        -- outer path: the whole slot is vacated and the walk repairs
        have hcp1 : sub.array.countP (fun z => z.isSome) = 1 := by
          rw [hc1] at hsubc
          omega
        have hclearP : (t.array.set p1 none).countP (fun z => z.isSome) + 1 =
            t.array.countP (fun z => z.isSome) := countP_isSome_clear hslot
        set t1 : DoubleKeyTable V := { t with array := t.array.set p1 none, count := t.count - 1 } with ht1def
        have hW1 : preWf t1 := by
          refine ⟨hW.sizesEq, hW.internalEq, hW.idxLt, ?_, ?_, ?_⟩
          · show (t.array.set p1 none).length = _
            rw [List.length_set]
            exact hW.lenEq
          · show ((t.array.set p1 none).countP (fun z => z.isSome) : Int) ≤
              t.count - 1
            have := hW.countSlots
            omega
          · intro q e hq
            have hq' : (t.array.set p1 none).getD q none = some e := hq
            by_cases hqp : q = p1
            · rw [hqp, getD_set_self hp1lt _ _] at hq'
              cases hq'
            · rw [getD_set_other (fun hh => hqp hh.symm) _ _] at hq'
              exact hW.innerWf q e hq'
        have hcap1 : 2 * t1.count ≤ (t1.array.length : Int) := by
          show 2 * (t.count - 1) ≤ ((t.array.set p1 none).length : Int)
          rw [List.length_set]
          omega
        have hC1 : ∀ a b w, pairsProp t1 a b w →
            (pairsProp t a b w ∧ ¬ a = k1) := by
          rintro a b w ⟨q, e, s, hq, hk, hps⟩
          have hq' : (t.array.set p1 none).getD q none = some e := hq
          have hqp : q ≠ p1 := by
            intro hqp
            rw [hqp, getD_set_self hp1lt _ _] at hq'
            cases hq'
          rw [getD_set_other (fun hh => hqp hh.symm) _ _] at hq'
          have hpair : pairsProp t a b w := ⟨q, e, s, hq', hk, hps⟩
          refine ⟨hpair, ?_⟩
          intro hak
          have hcq : 0 < e.2.count := by
            obtain ⟨_, _, hcc⟩ := hW.innerWf q e hq'
            have := countP_pos_of_getD_some hps
            omega
          have hfoq : foundOuter t.array e.1 q := hF.outer q e hq' hcq
          rw [hk, hak] at hfoq
          have : (Except.ok (q, true) : Except Err (Nat × Bool)) = .ok (p1, true) := by
            rw [← hfoq, ← hfo1]
          exact hqp (congrArg Prod.fst (Except.ok.inj this))
        have HE1 : ∀ q e, t1.array.getD q none = some e → 0 < e.2.count →
            foundOuter t1.array e.1 q ∨
              ((p1 + 1) % t1.array.length < t1.array.length ∧
               zoneFrom t1.array ((p1 + 1) % t1.array.length) q) := by
          intro q e hq hc
          have hlset : (t.array.set p1 none).length = t.array.length :=
            List.length_set _ _ _
          have hq0 : (t.array.set p1 none).getD q none = some e := hq
          have hqp : q ≠ p1 := by
            intro hqp
            rw [hqp, getD_set_self hp1lt _ _] at hq0
            cases hq0
          have hq' : t.array.getD q none = some e := by
            rw [getD_set_other (fun hh => hqp hh.symm) _ _] at hq0
            exact hq0
          have hfoq : foundOuter t.array e.1 q := hF.outer q e hq' hc
          rcases found_after_clear (hash1_lt h0) hp1lt hfoq hqp with hf | hz
          · left
            show probeLoop (t.array.set p1 none) e.1
              (hash1 e.1 (t.array.set p1 none).length)
              (t.array.set p1 none).length = .ok (q, true)
            rw [hlset]
            exact hf
          · right
            constructor
            · show (p1 + 1) % (t.array.set p1 none).length <
                (t.array.set p1 none).length
              rw [hlset]
              exact Nat.mod_lt _ h0
            · show zoneFrom (t.array.set p1 none)
                ((p1 + 1) % (t.array.set p1 none).length) q
              rw [hlset]
              exact hz
        obtain ⟨W', cap', C', F', presr⟩ :=
          delOuterLoop_effect fuel _ t' _ (fun a b w => pairsProp t a b w ∧ ¬ a = k1)
            (fun a b w w' h1 h2 => hfun a b w w' h1.1 h2.1)
            hW1 hcap1 hC1
            (fun q e hq => by
              have hq0 : (t.array.set p1 none).getD q none = some e := hq
              have hqp : q ≠ p1 := by
                intro hqp
                rw [hqp, getD_set_self hp1lt _ _] at hq0
                cases hq0
              rw [getD_set_other (fun hh => hqp hh.symm) _ _] at hq0
              exact hF.inner q e hq0)
            HE1 h
        have hlen' : 0 < t'.array.length := by
          rw [W'.lenEq]
          exact ladder_pos _ W'.idxLt
        have hnok1 : ∀ q e, t'.array.getD q none = some e → e.1 = k1 →
            e.2.array.countP (fun z => z.isSome) = 0 := by
          intro q e hq hek
          by_contra hz
          have hpos0 : 0 < e.2.array.countP (fun z => z.isSome) := by omega
          obtain ⟨s, p, hs⟩ := exists_some_of_countP_pos hpos0
          have := C' e.1 p.1 p.2 ⟨q, e, s, hq, rfl, by
            cases p
            exact hs⟩
          exact this.2 hek
        have hkeyerr : getItem t' k1 k2 = .error .keyError := by
          have hcplen : t'.array.countP (fun z => z.isSome) < t'.array.length := by
            have h1 := W'.countSlots
            have h2 := cap'
            omega
          obtain ⟨r, hr, hrn⟩ := exists_none_slot hcplen
          obtain ⟨q, fnd, hq⟩ := probe_total (hash1_lt hlen') hr hrn
          cases fnd with
          | false => exact getItem_keyError_of_outer_miss hq
          | true =>
            obtain ⟨e, he, hek⟩ := probeLoop_found_key (hash1_lt hlen') hq
            have hcnt0 := hnok1 q e he hek
            obtain ⟨_, hil, _⟩ := W'.innerWf q e he
            have hcpi : e.2.array.countP (fun z => z.isSome) < e.2.array.length := by
              omega
            obtain ⟨ri, hri, hrin⟩ := exists_none_slot hcpi
            have hil0 : 0 < e.2.array.length := by omega
            obtain ⟨si, fi2, hsi⟩ := probe_total (hash2_lt hil0) hri hrin
            cases fi2 with
            | false => exact getItem_keyError_of_inner_miss he hq hsi
            | true =>
              obtain ⟨pi2, hpi2, _⟩ := probeLoop_found_key (hash2_lt hil0) hsi
              rw [all_none_of_countP_zero hcnt0 si] at hpi2
              cases hpi2
        refine ⟨W', cap', fun a b w w' h1 h2 => hfun a b w w'
          (C' a b w h1).1 (C' a b w' h2).1, F', hkeyerr, ?_⟩
        intro a b w hget hne
        obtain ⟨q, e, s, p, hq, hk1', hfoq, hfiq, hpq, hpk, hpv⟩ :=
          getItem_ok_decomp hget
        have hak : ¬ a = k1 := by
          intro hak
          rw [hak] at hfoq
          have hqp1 : q = p1 := by
            have : (Except.ok (q, true) : Except Err (Nat × Bool)) =
                .ok (p1, true) := by
              rw [← hfoq, ← hfo1]
            exact congrArg Prod.fst (Except.ok.inj this)
          rw [hqp1, hslot] at hq
          obtain rfl : e = (k1s, sub) := (Option.some.inj hq).symm
          dsimp only at hpq
          have hsp2 : s = p2 := countP_one_unique hcp1 hpq hpp
          rw [hsp2, hpp] at hpq
          obtain rfl : p = pp := (Option.some.inj hpq).symm
          exact hne ⟨hak, by rw [← hpk, hppk]⟩
        have hpair1 : pairsProp t1 a b w := by
          have hqp : q ≠ p1 := by
            intro hqp
            rw [hqp, hslot] at hq
            obtain rfl : e = (k1s, sub) := (Option.some.inj hq).symm
            exact hak (hk1'.symm.trans hk1s)
          refine ⟨q, e, s, ?_, hk1', by rw [hpq, ← hpk, ← hpv]⟩
          show (t.array.set p1 none).getD q none = some e
          rw [getD_set_other (fun hh => hqp hh.symm) _ _]
          exact hq
        have := presr a b w hpair1
        exact getItem_of_pairs W'.innerWf F' this
      next hcne =>
        -- inner path: only the inner slot is vacated and repaired
        simp only [] at h
        split at h
        next errp herr => cases h
        next sub2 hwhile =>
          obtain ht' : t' = { t with array := t.array.set p1 (some (k1s, sub2)) } :=
            (Except.ok.inj h).symm
          have hGf : ∀ b w w', (lstPairs sub.array b w ∧ ¬ b = k2) →
              (lstPairs sub.array b w' ∧ ¬ b = k2) → w = w' := by
            rintro b w w' ⟨⟨s, hs⟩, _⟩ ⟨⟨s', hs'⟩, _⟩
            have hf1 : foundInner sub.array b s := by
              have := hFinner s (b, w) hs
              simpa using this
            have hf2 : foundInner sub.array b s' := by
              have := hFinner s' (b, w') hs'
              simpa using this
            have hss : s = s' := by
              have : (Except.ok (s, true) : Except Err (Nat × Bool)) =
                  .ok (s', true) := by
                rw [← hf1, ← hf2]
              exact congrArg Prod.fst (Except.ok.inj this)
            rw [hss, hs'] at hs
            exact congrArg Prod.snd (Option.some.inj hs).symm
          have hclearI : (sub.array.set p2 none).countP (fun z => z.isSome) + 1 =
              sub.array.countP (fun z => z.isSome) := countP_isSome_clear hpp
          obtain ⟨hS2, hL2, hC2, hG2, hFi2, hPres2, hCP2⟩ :=
            delInnerWhile_effect fuel
              ({ sizes := sub.sizes, array := sub.array.set p2 none, count := sub.count - 1 }) sub2
              ((p2 + 1) % (sub.array.set p2 none).length)
              (fun b w => lstPairs sub.array b w ∧ ¬ b = k2)
              hGf
              (by show (sub.array.set p2 none).length = 5
                  rw [List.length_set]
                  exact hsub5)
              (by show (p2 + 1) % (sub.array.set p2 none).length <
                    (sub.array.set p2 none).length
                  rw [List.length_set]
                  exact Nat.mod_lt _ hsub0)
              (by show sub.count - 1 =
                    ((sub.array.set p2 none).countP (fun z => z.isSome) : Int)
                  rw [hsubc]
                  omega)
              (by rintro s p hs
                  have hs0 : (sub.array.set p2 none).getD s none = some p := hs
                  have hsp2 : s ≠ p2 := by
                    intro hsp
                    rw [hsp, getD_set_self hp2lt _ _] at hs0
                    cases hs0
                  rw [getD_set_other (fun hh => hsp2 hh.symm) _ _] at hs0
                  refine ⟨⟨s, by cases p; exact hs0⟩, ?_⟩
                  intro hbk
                  have hfs : foundInner sub.array p.1 s := hFinner s p hs0
                  rw [hbk] at hfs
                  have : (Except.ok (s, true) : Except Err (Nat × Bool)) =
                      .ok (p2, true) := by
                    rw [← hfs, ← hfi2x]
                  exact hsp2 (congrArg Prod.fst (Except.ok.inj this)))
              (by rintro s p hs
                  have hs0 : (sub.array.set p2 none).getD s none = some p := hs
                  have hsp2 : s ≠ p2 := by
                    intro hsp
                    rw [hsp, getD_set_self hp2lt _ _] at hs0
                    cases hs0
                  have hs' : sub.array.getD s none = some p := by
                    rw [getD_set_other (fun hh => hsp2 hh.symm) _ _] at hs0
                    exact hs0
                  have hfs : foundInner sub.array p.1 s := hFinner s p hs'
                  rcases found_after_clear (hash2_lt hsub0) hp2lt hfs hsp2 with
                    hf | hz
                  · left
                    show probeLoop (sub.array.set p2 none) p.1
                      (hash2 p.1 (sub.array.set p2 none).length)
                      (sub.array.set p2 none).length = .ok (s, true)
                    rw [List.length_set]
                    exact hf
                  · right
                    show zoneFrom (sub.array.set p2 none)
                      ((p2 + 1) % (sub.array.set p2 none).length) s
                    rw [List.length_set]
                    exact hz)
              hwhile
          have hsub2sz : sub2.sizes = defaultTableSizes := by
            rw [hS2]
            exact hsubsz
          have hcongr : ∀ key fl ps, probeLoop (t.array.set p1 (some (k1s, sub2)))
              key ps fl = probeLoop t.array key ps fl := by
            intro key fl ps
            exact probeLoop_set_keyEq (x := sub2) hslot fl ps
          have ht'arr : t'.array = t.array.set p1 (some (k1s, sub2)) := by
            rw [ht']
          have ht'len : t'.array.length = t.array.length := by
            rw [ht'arr]
            exact List.length_set _ _ _
          have hslot' : t'.array.getD p1 none = some (k1s, sub2) := by
            rw [ht'arr]
            exact getD_set_self hp1lt _ _
          have hsubcnt2 : 0 < sub.count := by
            rw [hsubc]
            omega
          have hW' : preWf t' := by
            refine ⟨?_, ?_, ?_, ?_, ?_, ?_⟩
            · rw [ht']
              exact hW.sizesEq
            · rw [ht']
              exact hW.internalEq
            · rw [ht']
              exact hW.idxLt
            · rw [ht'len, ht']
              exact hW.lenEq
            · rw [ht'arr, countP_isSome_set_some hslot, ht']
              exact hW.countSlots
            · intro q e hq
              by_cases hqp : q = p1
              · rw [hqp, hslot'] at hq
                obtain rfl : e = (k1s, sub2) := (Option.some.inj hq).symm
                exact ⟨hsub2sz, hL2, hC2⟩
              · rw [ht'arr, getD_set_other (fun hh => hqp hh.symm) _ _] at hq
                exact hW.innerWf q e hq
          have hcap' : 2 * t'.count ≤ (t'.array.length : Int) := by
            rw [ht'len, ht']
            exact hcap
          have hpairs' : ∀ a b w, pairsProp t' a b w → pairsProp t a b w := by
            rintro a b w ⟨q, e, s, hq, hk, hps⟩
            by_cases hqp : q = p1
            · rw [hqp, hslot'] at hq
              obtain rfl : e = (k1s, sub2) := (Option.some.inj hq).symm
              dsimp only at hps hk
              obtain ⟨⟨s0, hs0⟩, _⟩ := hG2 s (b, w) hps
              exact ⟨p1, (k1s, sub), s0, hslot, hk, hs0⟩
            · rw [ht'arr, getD_set_other (fun hh => hqp hh.symm) _ _] at hq
              exact ⟨q, e, s, hq, hk, hps⟩
          have hF' : wfFacts t' := by
            constructor
            · intro q e hq s p hp
              by_cases hqp : q = p1
              · rw [hqp, hslot'] at hq
                obtain rfl : e = (k1s, sub2) := (Option.some.inj hq).symm
                exact hFi2 s p hp
              · rw [ht'arr, getD_set_other (fun hh => hqp hh.symm) _ _] at hq
                exact hF.inner q e hq s p hp
            · intro q e hq hc
              by_cases hqp : q = p1
              · rw [hqp, hslot'] at hq
                obtain rfl : e = (k1s, sub2) := (Option.some.inj hq).symm
                show foundOuter t'.array (k1s, sub2).1 q
                rw [hqp]
                show probeLoop t'.array k1s (hash1 k1s t'.array.length)
                  t'.array.length = .ok (p1, true)
                rw [ht'len, ht'arr, hcongr]
                have := hF.outer p1 (k1s, sub) hslot hsubcnt2
                rw [hk1s]
                rw [hk1s] at this
                exact this
              · rw [ht'arr, getD_set_other (fun hh => hqp hh.symm) _ _] at hq
                have := hF.outer q e hq hc
                show probeLoop t'.array e.1 (hash1 e.1 t'.array.length)
                  t'.array.length = .ok (q, true)
                rw [ht'len, ht'arr, hcongr]
                exact this
          have hkeyerr : getItem t' k1 k2 = .error .keyError := by
            have hfo' : probeLoop t'.array k1 (hash1 k1 t'.array.length)
                t'.array.length = .ok (p1, true) := by
              rw [ht'len, ht'arr, hcongr]
              exact hfo1
            have hCP2b : sub2.array.countP (fun z => z.isSome) ≤
                (sub.array.set p2 none).countP (fun z => z.isSome) := hCP2
            have hcp2lt : sub2.array.countP (fun z => z.isSome) <
                sub2.array.length := by
              have hle5 : sub.array.countP (fun z => z.isSome) ≤ 5 := by
                have := List.countP_le_length
                  (p := fun z : Option (String × V) => z.isSome) (l := sub.array)
                omega
              omega
            obtain ⟨ri, hri, hrin⟩ := exists_none_slot hcp2lt
            have hl20 : 0 < sub2.array.length := by omega
            obtain ⟨si, fi2, hsi⟩ := probe_total (hash2_lt hl20) hri hrin
            cases fi2 with
            | false =>
              exact getItem_keyError_of_inner_miss hslot' hfo' hsi
            | true =>
              obtain ⟨pi2, hpi2, hpik⟩ := probeLoop_found_key (hash2_lt hl20) hsi
              obtain ⟨_, hnk2⟩ := hG2 si pi2 hpi2
              exact absurd hpik hnk2
          refine ⟨hW', hcap', fun a b w w' h1 h2 =>
            hfun a b w w' (hpairs' a b w h1) (hpairs' a b w' h2), hF', hkeyerr, ?_⟩
          intro a b w hget hne
          obtain ⟨q, e, s, p, hq, hk1', hfoq, hfiq, hpq, hpk, hpv⟩ :=
            getItem_ok_decomp hget
          by_cases hak : a = k1
          · rw [hak] at hfoq
            have hqp1 : q = p1 := by
              have : (Except.ok (q, true) : Except Err (Nat × Bool)) =
                  .ok (p1, true) := by
                rw [← hfoq, ← hfo1]
              exact congrArg Prod.fst (Except.ok.inj this)
            rw [hqp1, hslot] at hq
            obtain rfl : e = (k1s, sub) := (Option.some.inj hq).symm
            dsimp only at hpq hk1'
            have hbk2 : ¬ b = k2 := fun hb => hne ⟨hak, hb⟩
            have hsp2 : s ≠ p2 := by
              intro hsp
              rw [hsp, hpp] at hpq
              obtain rfl : p = pp := (Option.some.inj hpq).symm
              exact hbk2 (hpk ▸ hppk ▸ rfl)
            have hpair2 : lstPairs sub2.array b w := by
              apply hPres2
              refine ⟨s, ?_⟩
              show (sub.array.set p2 none).getD s none = some (b, w)
              rw [getD_set_other (fun hh => hsp2 hh.symm) _ _, hpq, ← hpk, ← hpv]
            obtain ⟨s2, hs2⟩ := hpair2
            have hpairT' : pairsProp t' a b w :=
              ⟨p1, (k1s, sub2), s2, hslot', hk1', hs2⟩
            exact getItem_of_pairs hW'.innerWf hF' hpairT'
          · have hqp : q ≠ p1 := by
              intro hqp
              rw [hqp, hslot] at hq
              obtain rfl : e = (k1s, sub) := (Option.some.inj hq).symm
              exact hak (hk1'.symm.trans hk1s)
            have hpairT' : pairsProp t' a b w := by
              refine ⟨q, e, s, ?_, hk1', by rw [hpq, ← hpk, ← hpv]⟩
              rw [ht'arr, getD_set_other (fun hh => hqp hh.symm) _ _]
              exact hq
            exact getItem_of_pairs hW'.innerWf hF' hpairT'

/-- The default-constructed table satisfies the full invariant. -/
theorem goodState_init : goodState (init none none : DoubleKeyTable V) := by
  have harr : (init none none : DoubleKeyTable V).array =
      List.replicate 5 none := rfl
  have hcnt0 : (init none none : DoubleKeyTable V).array.countP
      (fun s => s.isSome) = 0 := by
    rw [harr]
    exact countP_isSome_replicate 5
  have hall := all_none_of_countP_zero hcnt0
  refine ⟨⟨rfl, rfl, ?_, ?_, ?_, ?_⟩, ?_, ?_, ?_, ?_⟩
  · show 0 < defaultTableSizes.length
    decide
  · rw [harr]
    rfl
  · rw [hcnt0]
    show ((0 : Nat) : Int) ≤ 0
    decide
  · intro q e hq
    rw [hall q] at hq
    cases hq
  · show 2 * (0 : Int) ≤ ((5 : Nat) : Int)
    decide
  · intro a b w w' h1 h2
    obtain ⟨q, e, s, hq, _, _⟩ := h1
    rw [hall q] at hq
    cases hq
  · intro q e hq
    rw [hall q] at hq
    cases hq
  · intro q e hq
    rw [hall q] at hq
    cases hq

/-- A successful `__setitem__` preserves the full invariant, makes the
written pair retrievable, and keeps every other retrievable pair
retrievable with its value. -/
theorem setItem_pres_good {fuel : Nat} {t t' : DoubleKeyTable V} {k1 k2 : String}
    {v : V}
    (hW : preWf t) (hfun : pairsFunctional t) (hF : wfFacts t)
    (h : setItem fuel t k1 k2 v = .ok t') :
    goodState t' ∧ getItem t' k1 k2 = .ok v ∧
    (∀ a b w, getItem t a b = .ok w → ¬(a = k1 ∧ b = k2) →
      getItem t' a b = .ok w) := by
  obtain ⟨hW', hcap', hget, hsub, hpres, huniq, hfacts, hok, _⟩ :=
    setItem_effect hW hfun (Or.inl hF) h
  refine ⟨⟨hW', hcap', ?_, hfacts hF⟩, hget, hok⟩
  intro a b w w' h1 h2
  by_cases hab : a = k1 ∧ b = k2
  · obtain ⟨rfl, rfl⟩ := hab
    rw [huniq w h1, huniq w' h2]
  · rcases hsub a b w h1 with hnew | hold
    · exact absurd ⟨hnew.1, hnew.2.1⟩ hab
    · rcases hsub a b w' h2 with hnew' | hold'
      · exact absurd ⟨hnew'.1, hnew'.2.1⟩ hab
      · exact hfun a b w w' hold hold'

/-- Every table state reachable by set/delete operations satisfies the
full invariant. -/
theorem reachable_goodState {t : DoubleKeyTable V} (h : Reachable t) :
    goodState t := by
  induction h with
  | base => exact goodState_init
  | set fuel t t' k1 k2 v _ hset ih =>
    obtain ⟨hW, hcap, hfun, hF⟩ := ih
    exact (setItem_pres_good hW hfun hF hset).1
  | del fuel t t' k1 k2 _ hdel ih =>
    obtain ⟨hW, hcap, hfun, hF⟩ := ih
    obtain ⟨hW', hcap', hfun', hF', _, _⟩ := delItem_effect hW hcap hfun hF hdel
    exact ⟨hW', hcap', hfun', hF'⟩

/-- A slot read by `getD` is a member of the list. -/
theorem mem_of_getD_some {γ : Type} {l : List (Option γ)} {q : Nat} {e : γ}
    (h : l.getD q none = some e) : some e ∈ l := by
  induction l generalizing q with
  | nil => simp [List.getD] at h
  | cons a rest ih =>
    cases q with
    | zero =>
      have ha : a = some e := by simpa [List.getD] using h
      rw [ha]
      exact List.mem_cons_self _ _
    | succ q =>
      have h' : rest.getD q none = some e := by simpa [List.getD] using h
      exact List.mem_cons_of_mem _ (ih h')

/-- A `__setitem__` whose load-factor check cannot fire — either the
key already occupies a slot of an at-most-half-full table, or there is
slack for one more entry — takes no rehash: ladder index and capacity
are unchanged, the occupied-count lockstep and the occupied-slots
invariant survive, `count` grows by at most one and not at all when the
key is present, and afterwards the key occupies a non-empty slot. -/
theorem setItem_noRehash {fuel : Nat} {t t' : DoubleKeyTable V}
    {k1 k2 : String} {v : V}
    (hpos : posInner t)
    (heq : (t.array.countP (fun s => s.isSome) : Int) = t.count)
    (hF : wfFacts t)
    (hsl : (hasKey1 t k1 ∧ 2 * t.count ≤ (t.array.length : Int)) ∨
      2 * (t.count + 1) ≤ (t.array.length : Int))
    (h : setItem fuel t k1 k2 v = .ok t') :
    t'.size_index = t.size_index ∧
    t'.array.length = t.array.length ∧
    (t'.array.countP (fun s => s.isSome) : Int) = t'.count ∧
    posInner t' ∧
    t'.count ≤ t.count + 1 ∧
    (hasKey1 t k1 → t'.count = t.count) ∧
    hasKey1 t' k1 := by
  cases fuel with
  | zero => rw [setItem] at h; cases h
  | succ fuelm =>
    obtain ⟨t1, p1, p2, e, sub1, hlp, he, hs, hbr⟩ := setItem_succ_decomp h
    obtain ⟨h0, hp1lt, hek1, hlen1, hts1, his1, hsi1, hcnt1, hcases, pos, binner,
      hip, hposlt, hipt, hipf, hsub⟩ := setStep_core hlp he hs
    have hmeta := setStep_meta hlp he hs
    have hkeycase : hasKey1 t k1 → ¬ e.2.count = 0 := by
      rintro ⟨q, e0, hq, hek, hc⟩ hz
      have hfo : foundOuter t.array e0.1 q := hF.outer q e0 hq hc
      rw [hek] at hfo
      rcases hcases with ⟨ht1, hpt⟩ | ⟨hnone, ht1, hpf, hemk⟩
      · have hqq : (Except.ok (q, true) : Except Err (Nat × Bool)) =
            .ok (p1, true) := by
          rw [← hfo, ← hpt]
        have hqp : q = p1 := congrArg Prod.fst (Except.ok.inj hqq)
        rw [hqp] at hq
        rw [ht1] at he
        rw [he] at hq
        obtain rfl : e0 = e := (Option.some.inj hq).symm
        omega
      · have hqq : (Except.ok (q, true) : Except Err (Nat × Bool)) =
            .ok (p1, false) := by
          rw [← hfo, ← hpf]
        exact Bool.noConfusion (congrArg Prod.snd (Except.ok.inj hqq))
    have hchk : 2 * (if e.2.count = 0 then t1.count + 1 else t1.count) ≤
        ((t1.array.set p1 (some (e.1, sub1))).length : Int) := by
      have hlset : ((t1.array.set p1 (some (e.1, sub1))).length : Int) =
          (t.array.length : Int) := by
        rw [List.length_set, hlen1]
      rw [hlset, hcnt1]
      rcases hsl with ⟨hk, hle⟩ | hle
      · rw [if_neg (hkeycase hk)]
        exact hle
      · split <;> omega
    rcases hbr with ⟨_, hok⟩ | ⟨hgt, _⟩
    · have ht2 : t' = setStepState t1 p1 e sub1 := hok
      have hpos' : posInner t' := by
        rw [ht2]
        exact setStep_posInner hlp he hs hpos
      have hlock : (t'.array.countP (fun s => s.isSome) : Int) = t'.count := by
        rw [ht2]
        exact setStep_lockstep hlp he hs hpos heq
      have hfnd := setStep_found hlp he hs
      have hc2 : t'.count = (if e.2.count = 0 then t.count + 1 else t.count) := by
        rw [ht2]
        exact hmeta.2.2.2.2
      refine ⟨?_, ?_, hlock, hpos', ?_, ?_, ?_⟩
      · rw [ht2]
        exact hmeta.2.2.2.1
      · rw [ht2]
        exact hmeta.1
      · rw [hc2]
        split <;> omega
      · intro hk
        rw [hc2, if_neg (hkeycase hk)]
      · refine ⟨p1, (e.1, sub1), ?_, hek1, ?_⟩
        · rw [ht2]
          exact hfnd.2
        · exact hpos' p1 (e.1, sub1) (by rw [ht2]; exact hfnd.2)
    · exact absurd hgt (not_lt.mpr hchk)

/-- Reinserting the pairs of one old inner table during a rebuild
keeps the ladder index and capacity; `count` grows by at most one
(only the first pair of the shared top-level key can bump it), and not
at all when the key already occupies a slot. -/
theorem reinsertPairs_exact :
    ∀ (fuel : Nat) (lst : List (Option (String × V))) (u u' : DoubleKeyTable V)
      (k1 : String),
    preWf u → pairsFunctional u → wfFacts u → posInner u →
    (u.array.countP (fun s => s.isSome) : Int) = u.count →
    ((hasKey1 u k1 ∧ 2 * u.count ≤ (u.array.length : Int)) ∨
      2 * (u.count + 1) ≤ (u.array.length : Int)) →
    reinsertPairs fuel u k1 lst = .ok u' →
    preWf u' ∧ pairsFunctional u' ∧ wfFacts u' ∧ posInner u' ∧
    (u'.array.countP (fun s => s.isSome) : Int) = u'.count ∧
    u'.size_index = u.size_index ∧ u'.array.length = u.array.length ∧
    u'.count ≤ u.count + 1 ∧ (hasKey1 u k1 → u'.count = u.count) := by
  intro fuel
  induction fuel with
  | zero =>
    intro lst u u' k1 _ _ _ _ _ _ h
    rw [reinsertPairs] at h
    cases h
  | succ fuelm ih =>
    intro lst u u' k1 hW hfun hF hpos heq hsl h
    cases lst with
    | nil =>
      rw [reinsertPairs] at h
      obtain rfl : u = u' := Except.ok.inj h
      exact ⟨hW, hfun, hF, hpos, heq, rfl, rfl, by omega, fun _ => rfl⟩
    | cons s rest =>
      cases s with
      | none =>
        rw [reinsertPairs] at h
        exact ih rest u u' k1 hW hfun hF hpos heq hsl h
      | some p =>
        obtain ⟨k2, v⟩ := p
        rw [reinsertPairs] at h
        split at h
        next => cases h
        next u1 hs1 =>
          obtain ⟨⟨hW1, hcap1, hfun1, hF1⟩, _, _⟩ := setItem_pres_good hW hfun hF hs1
          obtain ⟨hsi1, hlen1, heq1, hpos1, hle1, hkeep1, hkey1⟩ :=
            setItem_noRehash hpos heq hF hsl hs1
          have hsl1 : (hasKey1 u1 k1 ∧ 2 * u1.count ≤ (u1.array.length : Int)) ∨
              2 * (u1.count + 1) ≤ (u1.array.length : Int) := by
            left
            refine ⟨hkey1, ?_⟩
            rw [hlen1]
            rcases hsl with ⟨hk, hle⟩ | hle
            · rw [hkeep1 hk]
              exact hle
            · omega
          obtain ⟨hW', hfun', hF', hpos', heq', hsi', hlen', hle', hkeep'⟩ :=
            ih rest u1 u' k1 hW1 hfun1 hF1 hpos1 heq1 hsl1 h
          have hcc' : u'.count = u1.count := hkeep' hkey1
          refine ⟨hW', hfun', hF', hpos', heq', hsi'.trans hsi1,
            hlen'.trans hlen1, by omega, ?_⟩
          intro hk
          rw [hcc', hkeep1 hk]

/-- The `for item1 in old_array` rebuild loop keeps the ladder index
and the capacity of the fresh table, as long as the fresh table has
room for one more top-level entry per occupied old slot. -/
theorem rehashLoop_exact :
    ∀ (fuel : Nat) (old : List (Option (String × LinearProbeTable V))) (oc : Int)
      (u u' : DoubleKeyTable V),
    preWf u → pairsFunctional u → wfFacts u → posInner u →
    (u.array.countP (fun s => s.isSome) : Int) = u.count →
    2 * (u.count + (old.countP (fun s => s.isSome) : Int)) ≤
      (u.array.length : Int) →
    rehashLoop fuel old oc u = .ok u' →
    u'.size_index = u.size_index ∧ u'.array.length = u.array.length := by
  intro fuel
  induction fuel with
  | zero =>
    intro old oc u u' _ _ _ _ _ _ h
    rw [rehashLoop] at h
    cases h
  | succ fuelm ih =>
    intro old oc u u' hW hfun hF hpos heq hbud h
    cases old with
    | nil =>
      rw [rehashLoop] at h
      obtain rfl : u = u' := Except.ok.inj h
      exact ⟨rfl, rfl⟩
    | cons s rest =>
      cases s with
      | none =>
        rw [rehashLoop] at h
        have hcc : (none :: rest).countP
            (fun z : Option (String × LinearProbeTable V) => z.isSome) =
            rest.countP (fun z => z.isSome) := by
          simp [List.countP_cons]
        split at h
        next =>
          obtain rfl : u = u' := Except.ok.inj h
          exact ⟨rfl, rfl⟩
        next =>
          refine ih rest oc u u' hW hfun hF hpos heq ?_ h
          rw [hcc] at hbud
          exact hbud
      | some e =>
        obtain ⟨kk, sub⟩ := e
        rw [rehashLoop] at h
        have hcc : (some (kk, sub) :: rest).countP
            (fun z : Option (String × LinearProbeTable V) => z.isSome) =
            rest.countP (fun z => z.isSome) + 1 := by
          simp [List.countP_cons]
        split at h
        next => cases h
        next u1 hrp =>
          obtain ⟨hW1, hfun1, hF1, hpos1, heq1, hsi1, hlen1, hle1, _⟩ :=
            reinsertPairs_exact fuelm sub.array u u1 kk hW hfun hF hpos heq
              (Or.inr (by omega)) hrp
          split at h
          next =>
            obtain rfl : u1 = u' := Except.ok.inj h
            exact ⟨hsi1, hlen1⟩
          next =>
            obtain ⟨hsi', hlen'⟩ := ih rest (oc - 1) u1 u' hW1 hfun1 hF1 hpos1 heq1
              (by rw [hlen1]; omega) h
            exact ⟨hsi'.trans hsi1, hlen'.trans hlen1⟩

/-- Consecutive default-ladder capacities grow by at least two. -/
theorem ladder_gap : ∀ i < defaultTableSizes.length - 1,
    defaultTableSizes.getD i 0 + 2 ≤ defaultTableSizes.getD (i + 1) 0 := by
  decide

/-- An in-ladder `_rehash` of a table whose `count` overshoots half
its capacity by at most one advances `size_index` by exactly one and
lands on exactly the next ladder capacity: the rebuild loop never
nests another rehash. -/
theorem rehash_exact {fuel : Nat} {t t' : DoubleKeyTable V}
    (hW : preWf t) (hcap2 : 2 * t.count ≤ (t.array.length : Int) + 2)
    (h : rehash fuel t = .ok t') :
    t'.size_index = t.size_index + 1 ∧
    t'.array.length = defaultTableSizes.getD (t.size_index + 1) 0 := by
  cases fuel with
  | zero => rw [rehash] at h; cases h
  | succ fuelm =>
    rw [rehash] at h
    split at h
    next hnone => cases h
    next newSize hsz =>
      have hts := hW.sizesEq
      rw [hts] at hsz
      have hlt : t.size_index + 1 < defaultTableSizes.length := by
        by_contra hge
        rw [List.getElem?_eq_none (by omega)] at hsz
        cases hsz
      have hnewval : newSize = defaultTableSizes.getD (t.size_index + 1) 0 := by
        rw [List.getD_eq_getElem?_getD, hsz]
        rfl
      set u0 : DoubleKeyTable V := { t with size_index := t.size_index + 1, array := List.replicate newSize none, count := 0 } with hu0
      have hu0arr : u0.array = List.replicate newSize none := by rw [hu0]
      have hcnt0 : u0.array.countP (fun s => s.isSome) = 0 := by
        rw [hu0arr]
        exact countP_isSome_replicate newSize
      have hall := all_none_of_countP_zero hcnt0
      have hW0 : preWf u0 := by
        refine ⟨hW.sizesEq, hW.internalEq, hlt, ?_, ?_, ?_⟩
        · rw [hu0arr, List.length_replicate]
          exact hnewval
        · rw [hcnt0]
          show ((0 : Nat) : Int) ≤ 0
          decide
        · intro q e hq
          rw [hall q] at hq
          cases hq
      have hbud : 2 * (u0.count + (t.array.countP (fun s => s.isSome) : Int)) ≤
          (u0.array.length : Int) := by
        have h1 := hW.countSlots
        have h2 := hW.lenEq
        have h3 := ladder_gap t.size_index (by omega)
        have h4 : u0.array.length = newSize := by
          rw [hu0arr, List.length_replicate]
        have h5 : u0.count = 0 := by rw [hu0]
        rw [h4, h5, hnewval]
        rw [h2] at hcap2
        omega
      have hfun0 : pairsFunctional u0 := by
        intro a b w w' h1 h2
        obtain ⟨q, e, s, hq, _, _⟩ := h1
        rw [hall q] at hq
        cases hq
      have hF0 : wfFacts u0 := by
        constructor
        · intro q e hq
          rw [hall q] at hq
          cases hq
        · intro q e hq
          rw [hall q] at hq
          cases hq
      have hpos0 : posInner u0 := by
        intro q e hq
        rw [hall q] at hq
        cases hq
      have heq0 : (u0.array.countP (fun s => s.isSome) : Int) = u0.count := by
        rw [hcnt0]
        rw [show u0.count = 0 from by rw [hu0]]
        decide
      obtain ⟨hsi', hlen'⟩ := rehashLoop_exact fuelm t.array t.count u0 t' hW0
        hfun0 hF0 hpos0 heq0 hbud h
      constructor
      · rw [hsi', hu0]
      · rw [hlen', hu0arr, List.length_replicate]
        exact hnewval

end DoubleKeyTable

/-! ## Theorems settling the claims -/

/-- C4: on the trie table, `set("cat",1)` then `set("car",2)` makes
both keys retrievable with their values; the structural split happens
only at the first differing character position (index 2): the root
slot 21 holds prefix "c" with a child node at level 1, whose slot 19
holds prefix "ca" with a child node at level 2, where both dislodged
entries live as terminal pairs (slots 12 and 10); the access paths
are [21,19,12] and [21,19,10].  Deleting "car" then collapses the
intermediate nodes away: the original top-level slot 21 holds the
terminal pair ("cat",1) directly (path [21]), "cat" is still
retrievable, and `contains("car")` is false (`get` raises KeyError). -/
theorem c4_trie_split_and_collapse :
    c4Table.isSome = true ∧
    IHT.getItem 20 c4T "cat" = Except.ok 1 ∧
    IHT.getItem 20 c4T "car" = Except.ok 2 ∧
    IHT.slotKey c4T 21 = some "c" ∧
    IHT.slotIsChild c4T 21 = true ∧
    (IHT.childAt c4T 21).map IHT.level = some 1 ∧
    ((IHT.childAt c4T 21).map (fun c => IHT.slotKey c 19)) = some (some "ca") ∧
    ((IHT.childAt c4T 21).map (fun c => IHT.slotIsChild c 19)) = some true ∧
    ((IHT.childAt c4T 21).bind (fun c => IHT.childAt c 19)).map IHT.level = some 2 ∧
    ((IHT.childAt c4T 21).bind (fun c => IHT.childAt c 19)).map
      (fun c => (IHT.slotKey c 12, IHT.slotIsChild c 12)) = some (some "cat", false) ∧
    ((IHT.childAt c4T 21).bind (fun c => IHT.childAt c 19)).map
      (fun c => (IHT.slotKey c 10, IHT.slotIsChild c 10)) = some (some "car", false) ∧
    IHT.getLocation 20 c4T "cat" = Except.ok [21, 19, 12] ∧
    IHT.getLocation 20 c4T "car" = Except.ok [21, 19, 10] ∧
    c4DelTable.isSome = true ∧
    IHT.slotKey c4DelT 21 = some "cat" ∧
    IHT.slotIsChild c4DelT 21 = false ∧
    IHT.getItem 20 c4DelT "cat" = Except.ok 1 ∧
    IHT.getLocation 20 c4DelT "cat" = Except.ok [21] ∧
    IHT.getItem 20 c4DelT "car" = Except.error Err.keyError ∧
    IHT.containsKey 20 c4DelT "car" = false := by
  decide

/-- C5: evaluation at the failing input.  With {"dog","cat","ant",
"apple"} stored, the first `sort_keys()` call returns the correct
lexicographic enumeration, but because `sort_keys_aux` uses a Python
mutable default argument as its accumulator, the second call on the
unchanged table appends to the same shared list and returns it
doubled — two successive calls do not return equal lists, contradicting
the claim (and the spec's fresh-accumulator requirement, which the
source violates). -/
theorem c5_sort_keys_shared_accumulator :
    c5Table.isSome = true ∧
    c5First = some (["ant", "apple", "cat", "dog"], ["ant", "apple", "cat", "dog"]) ∧
    c5Second = some
      (["ant", "apple", "cat", "dog", "ant", "apple", "cat", "dog"],
       ["ant", "apple", "cat", "dog", "ant", "apple", "cat", "dog"]) ∧
    c5Second.map (fun r => r.1) ≠ c5First.map (fun r => r.1) := by
  decide

/-- C8: evaluation at the failing input.  After "cat"→1, "car"→2 the
root count (2) equals the number of reachable terminal pairs, but the
overwrite `set("cat", 99)` — a key stored two levels deep — bumps the
count of the root and of the level-1 child on its way down (the
recurse-into-child branch of `set_item_aux` increments unconditionally),
leaving root count 3 and child count 3 against only 2 reachable
terminal pairs, contradicting the claimed invariant. -/
theorem c8_deep_overwrite_inflates_counts :
    c8Pre.isSome = true ∧
    c8PreT.count = 2 ∧
    IHT.terminalCount 20 c8PreT = 2 ∧
    c8Table.isSome = true ∧
    IHT.getItem 20 c8T "cat" = Except.ok 99 ∧
    IHT.getItem 20 c8T "car" = Except.ok 2 ∧
    c8T.count = 3 ∧
    IHT.terminalCount 20 c8T = 2 ∧
    (IHT.childAt c8T 21).map IHT.count = some 3 ∧
    (IHT.childAt c8T 21).map (fun c => IHT.terminalCount 20 c) = some 2 := by
  decide

/-- C9 counterexample: the trie hash is `ord(key[level]) % 26`, which
is not case-insensitive — 'A' maps to bucket 13 while 'a' maps to
bucket 19, refuting the claim that 'A' and 'a' give the same index. -/
theorem c9_case_insensitive_counterexample :
    IHT.hashAt 0 "A" = 13 ∧ IHT.hashAt 0 "a" = 19 ∧
    IHT.hashAt 0 "A" ≠ IHT.hashAt 0 "a" := by
  decide

/-- C9 amended: `hash(key, level)` maps the key's character at
position `level` case-sensitively, as its code point mod 26, to one of
the 26 bucket indices; when the key has at most `level` characters it
returns the fixed 27th terminal index 26. -/
theorem c9_hash_char_mod26 (key : String) (lvl : Nat) :
    (lvl < key.data.length →
      IHT.hashAt lvl key = (key.data.getD lvl 'a').toNat % 26 ∧ IHT.hashAt lvl key < 26) ∧
    (key.data.length ≤ lvl → IHT.hashAt lvl key = 26) := by
  constructor
  · intro h
    refine ⟨?_, ?_⟩
    · unfold IHT.hashAt
      rw [if_pos h]
    · unfold IHT.hashAt
      rw [if_pos h]
      exact Nat.mod_lt _ (by norm_num)
  · intro h
    unfold IHT.hashAt
    rw [if_neg (Nat.not_lt.mpr h)]

/-- C9 amended, witnessed at "cat": position 1 maps to bucket
`ord('a') % 26 = 19 < 26`, and position 5 (past the end) maps to the
terminal index 26. -/
theorem c9_hash_char_mod26_witness :
    IHT.hashAt 1 "cat" = 19 ∧ IHT.hashAt 1 "cat" < 26 ∧ IHT.hashAt 5 "cat" = 26 := by
  refine ⟨?_, ((c9_hash_char_mod26 "cat" 1).1 (by decide)).2,
    (c9_hash_char_mod26 "cat" 5).2 (by decide)⟩
  have h := ((c9_hash_char_mod26 "cat" 1).1 (by decide)).1
  exact h.trans (by decide)

/-- C10: the empty string is a valid trie key: `set("", 7)` stores the
terminal pair in the root's slot 26 (no child node), `get("")` returns
7 and `contains("")` is true; yet `sort_keys` returns [] — the root's
terminal slot is skipped by the `level != 0` check and the bucket scan
covers only 'a'..'z' — and with "cat" also stored it returns only
["cat"], never "". -/
theorem c10_empty_string_key_invisible_to_sort :
    c10Table.isSome = true ∧
    IHT.slotKey c10T 26 = some "" ∧
    IHT.slotIsChild c10T 26 = false ∧
    IHT.getItem 20 c10T "" = Except.ok 7 ∧
    IHT.containsKey 20 c10T "" = true ∧
    IHT.sortKeysCall 20 c10T [] = some ([], []) ∧
    c10Table2.isSome = true ∧
    IHT.getItem 20 c10T2 "" = Except.ok 7 ∧
    IHT.getItem 20 c10T2 "cat" = Except.ok 1 ∧
    IHT.sortKeysCall 20 c10T2 [] = some (["cat"], ["cat"]) := by
  decide

/-- C6 counterexample: with caller-supplied ladder [3], the insert of
a second distinct top-level key crosses the load factor, `_rehash`
steps `size_index` past the end of the ladder, and the failure
surfaces as `IndexError` (`self.TABLE_SIZES[self.size_index]` out of
range) — not as the claimed table-full condition `FullError`. -/
theorem c6_full_error_counterexample :
    c6err = some Err.indexError ∧ c6err ≠ some Err.fullError := by
  decide

/-- C6 amended: overflowing the largest configured capacity fails with
`IndexError` from the ladder lookup in `_rehash` (with `size_index`
already advanced past the one-entry ladder), not with `FullError`;
previously inserted entries are left intact and retrievable in the
state the exception propagates from. -/
theorem c6_ladder_exhaustion_index_error :
    c6err = some Err.indexError ∧
    c6errState.map (fun t => t.size_index) = some 1 ∧
    c6errState.map (fun t => t.TABLE_SIZES) = some [3] ∧
    c6errState.map (fun t => DoubleKeyTable.getItem t "a" "x") = some (Except.ok 1) ∧
    c6errState.map (fun t => DoubleKeyTable.getItem t "b" "y") = some (Except.ok 2) := by
  decide

/-- C7: evaluation at the failing inputs.  Trace A: after
`t[("d","x")]=1; t[("e","y")]=2; del t[("d","x")]`, the repair loop of
`__delitem__` re-inserts ("e","y") through `__setitem__`, whose
is-empty check increments `count` again, leaving `len(t) = 2` with
exactly one occupied outer slot.  Trace B (keys "d" and "i" share
outer home slot 0): the repair loop moves "i"'s entries to slot 0 but
never clears slot 1, leaving key "i" occupying two outer slots, the
stale one non-empty at the outer level while its inner table holds
zero entries — contradicting all three claimed invariant clauses. -/
theorem c7_delete_breaks_structural_invariant :
    c7aT.map (fun t => t.count) = some 2 ∧
    c7aT.map (fun t => DoubleKeyTable.nonNoneSlots t) = some 1 ∧
    c7aT.map (fun t => DoubleKeyTable.getItem t "e" "y") = some (Except.ok 2) ∧
    c7aT.map (fun t => DoubleKeyTable.containsPair t "d" "x") = some (Except.ok false) ∧
    c7bT.map (fun t => DoubleKeyTable.slotKey1 t 0) = some (some "i") ∧
    c7bT.map (fun t => DoubleKeyTable.slotKey1 t 1) = some (some "i") ∧
    c7bT.map (fun t => DoubleKeyTable.slotInnerCount t 1) = some (some 0) ∧
    c7bT.map (fun t => DoubleKeyTable.slotInnerSomes t 1) = some (some 0) ∧
    c7bT.map (fun t => DoubleKeyTable.getItem t "i" "y") = some (Except.ok 2) := by
  decide

/-- C1: for every pair of string keys `(k1, k2)` and every value `v`,
in any table state reachable by prior set/delete operations, a
successful `table[(k1, k2)] = v` followed by `table[(k1, k2)]`
returns exactly `v`. -/
theorem c1_set_get_roundtrip {V : Type} {fuel : Nat}
    {t t' : DoubleKeyTable V} {k1 k2 : String} {v : V}
    (hr : DoubleKeyTable.Reachable t)
    (h : DoubleKeyTable.setItem fuel t k1 k2 v = .ok t') :
    DoubleKeyTable.getItem t' k1 k2 = .ok v := by
  obtain ⟨hW, hcap, hfun, hF⟩ := DoubleKeyTable.reachable_goodState hr
  exact (DoubleKeyTable.setItem_pres_good hW hfun hF h).2.1

/-- C1 witness: on the empty (reachable) table, `t[("d","x")] = 1`
then `t[("d","x")]` returns 1. -/
theorem c1_set_get_roundtrip_witness :
    DoubleKeyTable.getItem c1T "d" "x" = Except.ok 1 := by
  have h : DoubleKeyTable.setItem 100
      (DoubleKeyTable.init none none : DoubleKeyTable Nat) "d" "x" 1 =
      .ok c1T := by decide
  exact c1_set_get_roundtrip DoubleKeyTable.Reachable.base h

/-- C2: in any reachable table state, after a successful
`del t[(k1, k2)]`, `(k1, k2) in t` is False and `t[(k1, k2)]` raises
`KeyError`, while every other key pair that was retrievable before
the deletion — including pairs placed by linear probing past the
vacated slot, at either level — is still retrievable with its
original value. -/
theorem c2_delete_integrity {V : Type} {fuel : Nat}
    {t t' : DoubleKeyTable V} {k1 k2 : String}
    (hr : DoubleKeyTable.Reachable t)
    (h : DoubleKeyTable.delItem fuel t k1 k2 = .ok t') :
    DoubleKeyTable.containsPair t' k1 k2 = .ok false ∧
    DoubleKeyTable.getItem t' k1 k2 = .error Err.keyError ∧
    (∀ a b w, DoubleKeyTable.getItem t a b = .ok w → ¬(a = k1 ∧ b = k2) →
      DoubleKeyTable.getItem t' a b = .ok w) := by
  obtain ⟨hW, hcap, hfun, hF⟩ := DoubleKeyTable.reachable_goodState hr
  obtain ⟨_, _, _, _, hkeyerr, hpres⟩ :=
    DoubleKeyTable.delItem_effect hW hcap hfun hF h
  refine ⟨?_, hkeyerr, hpres⟩
  unfold DoubleKeyTable.containsPair
  rw [hkeyerr]

/-- C2 witness: after `t[("d","x")]=1; t[("i","y")]=2` (keys "d" and
"i" share outer home slot 0), deleting `("d","x")` leaves
`("d","x")` absent and `("i","y")` — which was placed by probing past
the vacated slot — still retrievable with value 2. -/
theorem c2_delete_integrity_witness :
    DoubleKeyTable.containsPair c2T3 "d" "x" = Except.ok false ∧
    DoubleKeyTable.getItem c2T3 "d" "x" = Except.error Err.keyError ∧
    DoubleKeyTable.getItem c2T3 "i" "y" = Except.ok 2 := by
  have h1 : DoubleKeyTable.setItem 100
      (DoubleKeyTable.init none none : DoubleKeyTable Nat) "d" "x" 1 =
      .ok c2T1 := by decide
  have h2 : DoubleKeyTable.setItem 100 c2T1 "i" "y" 2 = .ok c2T2 := by decide
  have h3 : DoubleKeyTable.delItem 100 c2T2 "d" "x" = .ok c2T3 := by decide
  have hr : DoubleKeyTable.Reachable c2T2 :=
    DoubleKeyTable.Reachable.set 100 c2T1 c2T2 "i" "y" 2
      (DoubleKeyTable.Reachable.set 100 (DoubleKeyTable.init none none) c2T1
        "d" "x" 1 DoubleKeyTable.Reachable.base h1) h2
  have hmain := c2_delete_integrity hr h3
  exact ⟨hmain.1, hmain.2.1, hmain.2.2 "i" "y" 2 (by decide) (by decide)⟩

/-- C3: in any reachable table state, when inserting a fresh top-level
key makes the number of top-level entries exceed half the current
outer capacity, that same (successful) insert advances the ladder
index by exactly one and resizes the outer array to exactly the next
capacity in the ladder, the new pair is retrievable, and every pair
retrievable before the resize is still retrievable with its original
value afterwards. -/
theorem c3_load_factor_growth {V : Type} {fuel : Nat}
    {t t' : DoubleKeyTable V} {k1 k2 : String} {v : V}
    (hr : DoubleKeyTable.Reachable t)
    (hfresh : ∀ s ∈ t.array, s.map (fun e => e.1) ≠ some k1)
    (hthr : (t.array.length : Int) < 2 * (t.count + 1))
    (h : DoubleKeyTable.setItem fuel t k1 k2 v = .ok t') :
    t'.size_index = t.size_index + 1 ∧
    t'.array.length = defaultTableSizes.getD (t.size_index + 1) 0 ∧
    DoubleKeyTable.getItem t' k1 k2 = .ok v ∧
    (∀ a b w, DoubleKeyTable.getItem t a b = .ok w →
      DoubleKeyTable.getItem t' a b = .ok w) := by
  obtain ⟨hW, hcap, hfun, hF⟩ := DoubleKeyTable.reachable_goodState hr
  obtain ⟨_, hget', hok'⟩ := DoubleKeyTable.setItem_pres_good hW hfun hF h
  have hcov : ∀ a b w, DoubleKeyTable.getItem t a b = .ok w →
      DoubleKeyTable.getItem t' a b = .ok w := by
    intro a b w hw
    refine hok' a b w hw ?_
    rintro ⟨ha, hb⟩
    obtain ⟨q, e, s, p, hq, hk1', _, _, _, _, _⟩ :=
      DoubleKeyTable.getItem_ok_decomp hw
    refine hfresh _ (DoubleKeyTable.mem_of_getD_some hq) ?_
    show some e.1 = some k1
    rw [hk1', ha]
  cases fuel with
  | zero => rw [DoubleKeyTable.setItem] at h; cases h
  | succ fuelm =>
    obtain ⟨t1, p1, p2, e, sub1, hlp, he, hs, hbr⟩ :=
      DoubleKeyTable.setItem_succ_decomp h
    obtain ⟨h0, hp1lt, hek1, hlen1, hts1, his1, hsi1, hcnt1, hcases, pos, binner,
      hip, hposlt, hipt, hipf, hsub⟩ := DoubleKeyTable.setStep_core hlp he hs
    have hmeta := DoubleKeyTable.setStep_meta hlp he hs
    rcases hcases with ⟨ht1, hpt⟩ | ⟨hnone, ht1, hpf, hemk⟩
    · exfalso
      obtain ⟨e0, he0, hk0⟩ :=
        DoubleKeyTable.probeLoop_found_key (DoubleKeyTable.hash1_lt h0) hpt
      refine hfresh _ (DoubleKeyTable.mem_of_getD_some he0) ?_
      show some e0.1 = some k1
      rw [hk0]
    · have hc0 : e.2.count = 0 := by rw [hemk]; rfl
      rcases hbr with ⟨hle, _⟩ | ⟨_, hreh⟩
      · exfalso
        have hll : ((t1.array.set p1 (some (e.1, sub1))).length : Int) =
            (t.array.length : Int) := by
          rw [List.length_set, hlen1]
        rw [if_pos hc0, hcnt1, hll] at hle
        omega
      · have hreh2 : DoubleKeyTable.rehash fuelm
            (DoubleKeyTable.setStepState t1 p1 e sub1) = .ok t' := hreh
        have hW2 : DoubleKeyTable.preWf (DoubleKeyTable.setStepState t1 p1 e sub1) := by
          refine ⟨?_, ?_, ?_, ?_, ?_, ?_⟩
          · rw [hmeta.2.1]
            exact hW.sizesEq
          · rw [hmeta.2.2.1]
            exact hW.internalEq
          · rw [hmeta.2.2.2.1]
            exact hW.idxLt
          · rw [hmeta.1, hmeta.2.2.2.1]
            exact hW.lenEq
          · exact DoubleKeyTable.setStep_countSlots hlp he hs hW.countSlots
          · exact DoubleKeyTable.setStep_innerWfAll hlp he hs hW.innerWf hW.internalEq
        have hcap2 : 2 * (DoubleKeyTable.setStepState t1 p1 e sub1).count ≤
            ((DoubleKeyTable.setStepState t1 p1 e sub1).array.length : Int) + 2 := by
          rw [hmeta.2.2.2.2, hmeta.1, if_pos hc0]
          omega
        obtain ⟨hsi', hlen'⟩ := DoubleKeyTable.rehash_exact hW2 hcap2 hreh2
        rw [hmeta.2.2.2.1] at hsi' hlen'
        exact ⟨hsi', hlen', hget', hcov⟩

/-- C3 witness: on the concrete trace `t[("d","x")]=1;
t[("e","y")]=2` the 5-slot outer table holds 2 entries; inserting the
fresh third key "f" crosses the load factor (2·3 > 5), advances
`size_index` from 0 to 1, resizes to the next ladder capacity 13, and
keeps the earlier pairs retrievable. -/
theorem c3_load_factor_growth_witness :
    c3T3.size_index = c3T2.size_index + 1 ∧
    c3T3.array.length = defaultTableSizes.getD (c3T2.size_index + 1) 0 ∧
    DoubleKeyTable.getItem c3T3 "f" "z" = Except.ok 3 ∧
    DoubleKeyTable.getItem c3T3 "d" "x" = Except.ok 1 := by
  have h1 : DoubleKeyTable.setItem 100
      (DoubleKeyTable.init none none : DoubleKeyTable Nat) "d" "x" 1 =
      .ok c2T1 := by decide
  have h2 : DoubleKeyTable.setItem 100 c2T1 "e" "y" 2 = .ok c3T2 := by decide
  have h3 : DoubleKeyTable.setItem 100 c3T2 "f" "z" 3 = .ok c3T3 := by decide
  have hr : DoubleKeyTable.Reachable c3T2 :=
    DoubleKeyTable.Reachable.set 100 c2T1 c3T2 "e" "y" 2
      (DoubleKeyTable.Reachable.set 100 (DoubleKeyTable.init none none) c2T1
        "d" "x" 1 DoubleKeyTable.Reachable.base h1) h2
  have hmain := c3_load_factor_growth hr (by decide) (by decide) h3
  exact ⟨hmain.1, hmain.2.1, hmain.2.2.1, hmain.2.2.2 "d" "x" 1 (by decide)⟩

